import Mathlib

/-!
# advanced-vector: `RawMemory<T>` and `Vector<T>` (src/advanced-vector/vector.h)

Shallow embedding of the container of `vector.h`.

* A block of raw storage is a list of slots. A slot is `none` while it is
  allocated-but-uninitialized and `some x` while it holds a live object of value `x`.
* An address inside a block is the offset from the block's first slot, so
  `data_.GetAddress() + k` is the offset `k`, `begin()` is `0`, `end()` is `size_` and an
  iterator `pos` is the number `pos - cbegin()`.
* A member function that works on a second block (`new_data`, `rhs.data_`, `other.data_`)
  runs the standard algorithms on a `Mem`: the block of `this->data_` and that second block.
* A function that can run into undefined behaviour returns `Option`, and `none` stands for it:
  a failed `assert`, reading or assigning an uninitialized slot, constructing into a live or
  out-of-range slot, destroying a slot that holds nothing.
* A `size_t` value is a `Nat`, and the one product `vector.h` forms from a number the caller
  supplies, the byte count `n * sizeof(T)` of `RawMemory::Allocate`, is taken modulo `2^64`
  (`RawMemory.Allocate`, used by `Vector(n)`, `Reserve(n)` and `Resize(n)`). The capacities
  `vector.h` derives from the size of a live container (`size_ * 2`, `other.size_`) cannot
  wrap, an array object having at most `PTRDIFF_MAX` bytes; for them the block has the slots
  asked for (`RawMemory.sizedLive`). `operator new` is taken to succeed: `std::bad_alloc` is not
  part of the embedding.
* The element type is described by `ElemOps`: the value `T()`, the state a moved-from object is
  left in, the two traits the relocation policy reads, and `sizeof(T)`. Copying an object yields
  an equal value.
* The first part (`Emplace`, `Reserve`, `copyAssign`, ...) describes the runs in which element
  constructors and assignments complete. The part headed `Exceptions` (`EmplaceE`, `ReserveE`,
  `copyAssignE`, ...) embeds the same functions with element operations that can throw;
  `Vector.agrees_without_throw` and the lemmas `Vector.EmplaceE_both`, `Vector.ReserveE_both`,
  ... relate the two. The part headed `Addresses` places the blocks in a free store, for the
  statements about shared storage and about the address of the elements.
-/

namespace AdvancedVector

/-- The element type `T` as far as the container consumes it. -/
structure ElemOps (α : Type) where
  /-- The value of a value-initialized object, `T()`. -/
  valueInit : α
  /-- The state of an object after it has been moved from. -/
  movedFrom : α → α
  /-- The trait `std::is_nothrow_move_constructible_v<T>`. -/
  nothrowMove : Bool
  /-- The trait `std::is_copy_constructible_v<T>`. -/
  copyConstructible : Bool
  /-- The object size `sizeof(T)`, in bytes. -/
  sizeofT : Nat
  /-- An object occupies at least one byte. -/
  sizeofT_pos : 0 < sizeofT

/-- The number of values of `size_t`: `SIZE_MAX + 1`, for the 64-bit `size_t` of the platforms
`vector.h` is built for. Arithmetic in `size_t` is arithmetic modulo this number. -/
def sizeModulus : Nat := 2 ^ 64

/-- The condition of every `if constexpr` of `vector.h`:
`std::is_nothrow_move_constructible_v<T> || !std::is_copy_constructible_v<T>`. -/
def ElemOps.relocateByMove {α : Type} (T : ElemOps α) : Bool :=
  T.nothrowMove || !T.copyConstructible

/-- A block of raw storage: one entry per slot. -/
abbrev Block (α : Type) := List (Option α)

/-- Which of the two blocks of an operation an address points into. -/
inductive Region where
  /-- The block of `this->data_`. -/
  | own
  /-- The second block: `new_data`, `rhs.data_` or `other.data_`. -/
  | ext
  deriving DecidableEq

/-- A `T*`: a block and an offset into it. -/
structure Ptr where
  region : Region
  off : Nat
  deriving DecidableEq

/-- Pointer arithmetic `p + k`. -/
def Ptr.add (p : Ptr) (k : Nat) : Ptr := ⟨p.region, p.off + k⟩

/-- The storage an operation works on. -/
structure Mem (α : Type) where
  own : Block α
  ext : Block α
  deriving DecidableEq

/-- The block of a region. -/
def Mem.block {α : Type} (m : Mem α) : Region → Block α
  | Region.own => m.own
  | Region.ext => m.ext

/-- Replace the block of a region. -/
def Mem.setBlock {α : Type} (m : Mem α) : Region → Block α → Mem α
  | Region.own, b => { m with own := b }
  | Region.ext, b => { m with ext := b }

/-- Read the object at `p`: defined only for a live slot inside the block. -/
def Mem.load {α : Type} (m : Mem α) (p : Ptr) : Option α :=
  match (m.block p.region)[p.off]? with
  | some (some x) => some x
  | _ => none

/-- Placement `new (p) T(x)`: defined only for an uninitialized slot inside the block. -/
def Mem.construct {α : Type} (m : Mem α) (p : Ptr) (x : α) : Option (Mem α) :=
  match (m.block p.region)[p.off]? with
  | some none => some (m.setBlock p.region ((m.block p.region).set p.off (some x)))
  | _ => none

/-- Assignment `*p = x`: defined only for a live slot inside the block. -/
def Mem.assign {α : Type} (m : Mem α) (p : Ptr) (x : α) : Option (Mem α) :=
  match (m.block p.region)[p.off]? with
  | some (some _) => some (m.setBlock p.region ((m.block p.region).set p.off (some x)))
  | _ => none

/-- The destructor call `p->~T()`: defined only for a live slot inside the block. -/
def Mem.destroy {α : Type} (m : Mem α) (p : Ptr) : Option (Mem α) :=
  match (m.block p.region)[p.off]? with
  | some (some _) => some (m.setBlock p.region ((m.block p.region).set p.off none))
  | _ => none

/-- Move construction `new (d) T(std::move(*s))`: the source is left moved-from. -/
def Mem.moveConstruct {α : Type} (T : ElemOps α) (m : Mem α) (d s : Ptr) : Option (Mem α) := do
  let x ← m.load s
  let m ← m.construct d x
  m.assign s (T.movedFrom x)

/-- Move assignment `*d = std::move(*s)`: the source is left moved-from. -/
def Mem.moveAssign {α : Type} (T : ElemOps α) (m : Mem α) (d s : Ptr) : Option (Mem α) := do
  let x ← m.load s
  let m ← m.assign d x
  m.assign s (T.movedFrom x)

/-- Copy construction `new (d) T(*s)`. -/
def Mem.copyConstruct {α : Type} (m : Mem α) (d s : Ptr) : Option (Mem α) := do
  let x ← m.load s
  m.construct d x

/-- Copy assignment `*d = *s`. -/
def Mem.copyAssign {α : Type} (m : Mem α) (d s : Ptr) : Option (Mem α) := do
  let x ← m.load s
  m.assign d x

/-! ## The standard algorithms `vector.h` calls -/

/-- `std::uninitialized_value_construct_n(first, n)`. -/
def uninitialized_value_construct_n {α : Type} (T : ElemOps α) (m : Mem α) (first : Ptr) :
    Nat → Option (Mem α)
  | 0 => some m
  | n + 1 => do
    let m ← m.construct first T.valueInit
    uninitialized_value_construct_n T m (first.add 1) n

/-- `std::uninitialized_copy_n(first, n, d_first)`. -/
def uninitialized_copy_n {α : Type} (m : Mem α) (first : Ptr) (n : Nat) (d_first : Ptr) :
    Option (Mem α) :=
  match n with
  | 0 => some m
  | n + 1 => do
    let m ← m.copyConstruct d_first first
    uninitialized_copy_n m (first.add 1) n (d_first.add 1)

/-- `std::uninitialized_move_n(first, n, d_first)`. -/
def uninitialized_move_n {α : Type} (T : ElemOps α) (m : Mem α) (first : Ptr) (n : Nat)
    (d_first : Ptr) : Option (Mem α) :=
  match n with
  | 0 => some m
  | n + 1 => do
    let m ← m.moveConstruct T d_first first
    uninitialized_move_n T m (first.add 1) n (d_first.add 1)

/-- `std::destroy_n(first, n)`. -/
def destroy_n {α : Type} (m : Mem α) (first : Ptr) : Nat → Option (Mem α)
  | 0 => some m
  | n + 1 => do
    let m ← m.destroy first
    destroy_n m (first.add 1) n

/-- The loop of `std::copy`: `n` times `*d_first++ = *first++`. -/
def copyLoop {α : Type} (m : Mem α) (first : Ptr) (n : Nat) (d_first : Ptr) : Option (Mem α) :=
  match n with
  | 0 => some m
  | n + 1 => do
    let m ← m.copyAssign d_first first
    copyLoop m (first.add 1) n (d_first.add 1)

/-- `std::copy(first, last, d_first)`; `first` and `last` delimit a range of one block. -/
def copy {α : Type} (m : Mem α) (first last d_first : Ptr) : Option (Mem α) :=
  if first.region = last.region ∧ first.off ≤ last.off then
    copyLoop m first (last.off - first.off) d_first
  else none

/-- The loop of `std::move` (the algorithm): `n` times `*d_first++ = std::move(*first++)`. -/
def moveLoop {α : Type} (T : ElemOps α) (m : Mem α) (first : Ptr) (n : Nat) (d_first : Ptr) :
    Option (Mem α) :=
  match n with
  | 0 => some m
  | n + 1 => do
    let m ← m.moveAssign T d_first first
    moveLoop T m (first.add 1) n (d_first.add 1)

/-- `std::move(first, last, d_first)`; `first` and `last` delimit a range of one block. -/
def move {α : Type} (T : ElemOps α) (m : Mem α) (first last d_first : Ptr) : Option (Mem α) :=
  if first.region = last.region ∧ first.off ≤ last.off then
    moveLoop T m first (last.off - first.off) d_first
  else none

/-- The loop of `std::move_backward`: while `first != last`,
`*(--d_last) = std::move(*(--last))`; `n` is `last - first`. Decrementing `d_last` below the
first slot of its block is undefined. -/
def moveBackwardLoop {α : Type} (T : ElemOps α) (m : Mem α) (first : Ptr) (n : Nat)
    (d_last : Ptr) : Option (Mem α) :=
  match n with
  | 0 => some m
  | n + 1 =>
    if d_last.off = 0 then none
    else do
      let m ← m.moveAssign T ⟨d_last.region, d_last.off - 1⟩ (first.add n)
      moveBackwardLoop T m first n ⟨d_last.region, d_last.off - 1⟩

/-- `std::move_backward(first, last, d_last)`. -/
def move_backward {α : Type} (T : ElemOps α) (m : Mem α) (first last d_last : Ptr) :
    Option (Mem α) :=
  if first.region = last.region ∧ first.off ≤ last.off then
    moveBackwardLoop T m first (last.off - first.off) d_last
  else none

/-! ## RawMemory -/

/-- The class `RawMemory<T>`: the block `buffer_` points to, and `capacity_`. -/
structure RawMemory (α : Type) where
  buffer_ : Block α
  capacity_ : Nat
  deriving DecidableEq

namespace RawMemory

/-- `RawMemory::Allocate(n)`: `operator new(n * sizeof(T))` for `n != 0`, else `nullptr`. The
byte count is a product in `size_t`, so it is taken modulo `sizeModulus`; the block obtained
has room for as many objects as its bytes hold. The slots are uninitialized. -/
def Allocate {α : Type} (T : ElemOps α) (n : Nat) : Block α :=
  if n ≠ 0 then List.replicate (n * T.sizeofT % sizeModulus / T.sizeofT) none else []

/-- `RawMemory() = default`: `buffer_ = nullptr`, `capacity_ = 0`. -/
def default {α : Type} : RawMemory α := ⟨[], 0⟩

/-- `RawMemory(size_t capacity)`: `capacity_` is the number asked for, whatever block
`Allocate` obtained. -/
def sized {α : Type} (T : ElemOps α) (capacity : Nat) : RawMemory α :=
  ⟨Allocate T capacity, capacity⟩

/-- `RawMemory(size_t capacity)` for a capacity `vector.h` derives from the size of a live
container (`other.size_`, `size_ * 2`). The live objects lie in one array, which has at most
`PTRDIFF_MAX` bytes, so `capacity * sizeof(T)` is below `2 * PTRDIFF_MAX`, does not wrap, and
`Allocate` obtains exactly `capacity` slots (`RawMemory.sized_eq_sizedLive`). -/
def sizedLive {α : Type} (capacity : Nat) : RawMemory α :=
  ⟨List.replicate capacity none, capacity⟩

/-- `RawMemory::Swap(other)`: the pair is (`*this`, `other`) after the call. -/
def Swap {α : Type} (self other : RawMemory α) : RawMemory α × RawMemory α :=
  (⟨other.buffer_, other.capacity_⟩, ⟨self.buffer_, self.capacity_⟩)

/-- `RawMemory(RawMemory&& other)`: a default block swapped with `other`;
the pair is (`*this`, `other`) after the call. -/
def moveCtor {α : Type} (other : RawMemory α) : RawMemory α × RawMemory α :=
  Swap default other

/-- `RawMemory::Capacity()`. -/
def Capacity {α : Type} (self : RawMemory α) : Nat := self.capacity_

end RawMemory

/-! ## Vector -/

/-- The class `Vector<T>`. -/
structure Vector (α : Type) where
  data_ : RawMemory α
  size_ : Nat
  deriving DecidableEq

namespace Vector

/-- `Vector() = default`. -/
def default {α : Type} : Vector α := ⟨RawMemory.default, 0⟩

/-- `Vector::Size()`. -/
def Size {α : Type} (self : Vector α) : Nat := self.size_

/-- `Vector::Capacity()`. -/
def Capacity {α : Type} (self : Vector α) : Nat := self.data_.Capacity

/-- `Vector::operator[](index)`, with its `assert(index < size_)` and the
`assert(index < capacity_)` of `RawMemory::operator[]`. -/
def index {α : Type} (self : Vector α) (i : Nat) : Option α :=
  if i < self.size_ ∧ i < self.data_.capacity_ then
    match self.data_.buffer_[i]? with
    | some (some x) => some x
    | _ => none
  else none

/-- `Vector::~Vector()`: `std::destroy_n(data_.GetAddress(), size_)`, then the block is released.
The result is the released block. -/
def destructor {α : Type} (self : Vector α) : Option (Block α) := do
  let m ← destroy_n ⟨self.data_.buffer_, []⟩ ⟨Region.own, 0⟩ self.size_
  pure m.own

/-- `Vector(size_t size)`. The block is the one `Allocate` obtains for the caller's `size`,
which has fewer slots than `size` when the byte count wraps. -/
def sized {α : Type} (T : ElemOps α) (size : Nat) : Option (Vector α) := do
  let data : RawMemory α := RawMemory.sized T size
  let m ← uninitialized_value_construct_n T ⟨data.buffer_, []⟩ ⟨Region.own, 0⟩ size
  pure ⟨⟨m.own, data.capacity_⟩, size⟩

/-- `Vector(const Vector& other)`: the pair is (`*this`, `other`) after the call. The block
of `data_(other.size_)` has the slots asked for (`RawMemory.sizedLive`). -/
def copyCtor {α : Type} (other : Vector α) : Option (Vector α × Vector α) := do
  let data : RawMemory α := RawMemory.sizedLive other.size_
  let m ← uninitialized_copy_n ⟨data.buffer_, other.data_.buffer_⟩ ⟨Region.ext, 0⟩ other.size_
    ⟨Region.own, 0⟩
  pure (⟨⟨m.own, data.capacity_⟩, other.size_⟩, ⟨⟨m.ext, other.data_.capacity_⟩, other.size_⟩)

/-- `Vector(Vector&& other)`: the pair is (`*this`, `other`) after the call. -/
def moveCtor {α : Type} (other : Vector α) : Vector α × Vector α :=
  let r := RawMemory.moveCtor other.data_
  (⟨r.1, other.size_⟩, ⟨r.2, 0⟩)

/-- `Vector::Swap(other)`: the pair is (`*this`, `other`) after the call. -/
def Swap {α : Type} (self other : Vector α) : Vector α × Vector α :=
  let r := RawMemory.Swap self.data_ other.data_
  (⟨r.1, other.size_⟩, ⟨r.2, self.size_⟩)

/-- `Vector::operator=(const Vector& rhs)` for `this != &rhs`: the pair is (`*this`, `rhs`)
after the call. In the first branch the local `rhs_copy` holds the former `*this` after the
swap and is destroyed at the end of the block. -/
def copyAssign {α : Type} (self rhs : Vector α) : Option (Vector α × Vector α) :=
  if rhs.size_ > self.data_.Capacity then do
    let c ← copyCtor rhs
    let r := Swap self c.1
    let _ ← destructor r.2
    pure (r.1, c.2)
  else do
    let m ← copy ⟨self.data_.buffer_, rhs.data_.buffer_⟩ ⟨Region.ext, 0⟩
      ⟨Region.ext, min rhs.size_ self.size_⟩ ⟨Region.own, 0⟩
    let m ←
      if rhs.size_ < self.size_ then
        destroy_n m ⟨Region.own, rhs.size_⟩ (self.size_ - rhs.size_)
      else
        uninitialized_copy_n m ⟨Region.ext, self.size_⟩ (rhs.size_ - self.size_)
          ⟨Region.own, self.size_⟩
    pure (⟨⟨m.own, self.data_.capacity_⟩, rhs.size_⟩, ⟨⟨m.ext, rhs.data_.capacity_⟩, rhs.size_⟩)

/-- `Vector::operator=(const Vector& rhs)` when `this == &rhs`: the guard skips the body. -/
def copyAssignSelf {α : Type} (self : Vector α) : Vector α := self

/-- `Vector::operator=(Vector&& rhs)` for `this != &rhs`: the pair is (`*this`, `rhs`) after
the call. -/
def moveAssign {α : Type} (self rhs : Vector α) : Vector α × Vector α :=
  Swap self rhs

/-- `Vector::Reserve(new_capacity)`. The block of `new_data` is the one `Allocate` obtains for
the caller's `new_capacity`, which has fewer slots than that when the byte count wraps. -/
def Reserve {α : Type} (T : ElemOps α) (self : Vector α) (new_capacity : Nat) :
    Option (Vector α) :=
  if new_capacity ≤ self.data_.Capacity then some self
  else do
    let new_data : RawMemory α := RawMemory.sized T new_capacity
    let m : Mem α := ⟨self.data_.buffer_, new_data.buffer_⟩
    let m ←
      if T.relocateByMove then
        uninitialized_move_n T m ⟨Region.own, 0⟩ self.size_ ⟨Region.ext, 0⟩
      else
        uninitialized_copy_n m ⟨Region.own, 0⟩ self.size_ ⟨Region.ext, 0⟩
    let m ← destroy_n m ⟨Region.own, 0⟩ self.size_
    let r := RawMemory.Swap ⟨m.own, self.data_.capacity_⟩ ⟨m.ext, new_data.capacity_⟩
    pure ⟨r.1, self.size_⟩

/-- `Vector::Resize(new_size)`. -/
def Resize {α : Type} (T : ElemOps α) (self : Vector α) (new_size : Nat) : Option (Vector α) :=
  if new_size < self.size_ then do
    let m ← destroy_n ⟨self.data_.buffer_, []⟩ ⟨Region.own, new_size⟩ (self.size_ - new_size)
    pure ⟨⟨m.own, self.data_.capacity_⟩, new_size⟩
  else if new_size > self.size_ then do
    let self ← Reserve T self new_size
    let m ← uninitialized_value_construct_n T ⟨self.data_.buffer_, []⟩ ⟨Region.own, self.size_⟩
      (new_size - self.size_)
    pure ⟨⟨m.own, self.data_.capacity_⟩, new_size⟩
  else some self

/-- `Vector::PopBack()`. -/
def PopBack {α : Type} (self : Vector α) : Option (Vector α) :=
  if self.size_ > 0 then do
    let m ← destroy_n ⟨self.data_.buffer_, []⟩ ⟨Region.own, self.size_ - 1⟩ 1
    pure ⟨⟨m.own, self.data_.capacity_⟩, self.size_ - 1⟩
  else some self

/-- `Vector::Emplace(pos, args...)`; `x` is the value `T(args...)` constructs and `pos` the
offset `pos - cbegin()`. The result is `*this` and the returned iterator, as an offset from
the new `begin()`. The first line is the `assert` (`pos >= begin()` holds of every offset). In
the middle-insert branch `size_ - 1` is exact: `pos < size_` there, so `size_ > 0`. The block
of `new_data` has the slots asked for (`RawMemory.sizedLive`). When the function returns,
`new_data` (holding the old block after the swap) is released. -/
def Emplace {α : Type} (T : ElemOps α) (self : Vector α) (pos : Nat) (x : α) :
    Option (Vector α × Nat) :=
  if ¬ (pos ≤ self.size_) then none
  else if self.size_ < self.data_.Capacity then do
    let m : Mem α := ⟨self.data_.buffer_, []⟩
    let m ←
      if pos = self.size_ then
        m.construct ⟨Region.own, pos⟩ x
      else do
        let temp := x
        let m ←
          if T.relocateByMove then
            uninitialized_move_n T m ⟨Region.own, self.size_ - 1⟩ 1 ⟨Region.own, self.size_⟩
          else
            uninitialized_copy_n m ⟨Region.own, self.size_ - 1⟩ 1 ⟨Region.own, self.size_⟩
        let m ← move_backward T m ⟨Region.own, pos⟩ ⟨Region.own, self.size_ - 1⟩
          ⟨Region.own, self.size_⟩
        m.assign ⟨Region.own, pos⟩ temp
    pure (⟨⟨m.own, self.data_.capacity_⟩, self.size_ + 1⟩, pos)
  else do
    let new_data : RawMemory α := RawMemory.sizedLive (if self.size_ = 0 then 1 else self.size_ * 2)
    let diff := pos
    let m : Mem α := ⟨self.data_.buffer_, new_data.buffer_⟩
    let m ← m.construct ⟨Region.ext, diff⟩ x
    let m ←
      if T.relocateByMove then
        uninitialized_move_n T m ⟨Region.own, 0⟩ diff ⟨Region.ext, 0⟩
      else
        uninitialized_copy_n m ⟨Region.own, 0⟩ diff ⟨Region.ext, 0⟩
    let m ←
      if T.relocateByMove then
        uninitialized_move_n T m ⟨Region.own, diff⟩ (self.size_ - diff) ⟨Region.ext, diff + 1⟩
      else
        uninitialized_copy_n m ⟨Region.own, diff⟩ (self.size_ - diff) ⟨Region.ext, diff + 1⟩
    let m ← destroy_n m ⟨Region.own, 0⟩ self.size_
    let r := RawMemory.Swap ⟨m.own, self.data_.capacity_⟩ ⟨m.ext, new_data.capacity_⟩
    pure (⟨r.1, self.size_ + 1⟩, diff)

/-- `Vector::EmplaceBack(args...)`: `Emplace(cend(), args...)`; the reference it returns is
the slot of the returned iterator. -/
def EmplaceBack {α : Type} (T : ElemOps α) (self : Vector α) (x : α) :
    Option (Vector α × Nat) :=
  Emplace T self self.size_ x

/-- `Vector::PushBack(value)` (both overloads). -/
def PushBack {α : Type} (T : ElemOps α) (self : Vector α) (value : α) : Option (Vector α) := do
  let r ← EmplaceBack T self value
  pure r.1

/-- `Vector::Insert(pos, value)` (both overloads). -/
def Insert {α : Type} (T : ElemOps α) (self : Vector α) (pos : Nat) (value : α) :
    Option (Vector α × Nat) :=
  Emplace T self pos value

/-- `Vector::Erase(pos)`; `pos` is the offset `pos - cbegin()`. The result is `*this` and the
returned iterator, as an offset from `begin()`. The first line is the `assert`, after which
`size_ > 0` and `size_ - 1` is exact. -/
def Erase {α : Type} (T : ElemOps α) (self : Vector α) (pos : Nat) : Option (Vector α × Nat) :=
  if ¬ (pos < self.size_) then none
  else do
    let diff := pos
    let m : Mem α := ⟨self.data_.buffer_, []⟩
    let m ← move T m ⟨Region.own, diff + 1⟩ ⟨Region.own, self.size_⟩ ⟨Region.own, diff⟩
    let m ← destroy_n m ⟨Region.own, self.size_ - 1⟩ 1
    pure (⟨⟨m.own, self.data_.capacity_⟩, self.size_ - 1⟩, diff)

/-! ### Abstraction -/

/-- The live elements `[begin(), end())`, in order. -/
def toList {α : Type} (self : Vector α) : List α :=
  (self.data_.buffer_.take self.size_).reduceOption

/-- The picture of the data model: the block has `capacity_` slots, `size_ ≤ capacity_`, the
slots `[0, size_)` are live and the slots `[size_, capacity_)` are uninitialized. -/
def Inv {α : Type} (self : Vector α) : Prop :=
  self.size_ ≤ self.data_.capacity_ ∧
  self.data_.buffer_ =
    (self.toList.map some) ++ List.replicate (self.data_.capacity_ - self.size_) none ∧
  self.toList.length = self.size_

instance {α : Type} [DecidableEq α] (self : Vector α) : Decidable self.Inv := by
  unfold Inv
  infer_instance

/-- The container with live elements `xs` in a block of `cap` slots. -/
def ofList {α : Type} (xs : List α) (cap : Nat) : Vector α :=
  ⟨⟨xs.map some ++ List.replicate (cap - xs.length) none, cap⟩, xs.length⟩

/-- Successive `PushBack` calls, one per value, in order. -/
def pushAll {α : Type} (T : ElemOps α) (self : Vector α) : List α → Option (Vector α)
  | [] => some self
  | x :: xs => do
    let self ← PushBack T self x
    pushAll T self xs

end Vector

/-- The capacity `Emplace` leaves behind, read off its two branches: unchanged while
`size_ < Capacity()`, else the argument of `RawMemory<T> new_data(...)`. -/
def emplaceCapacity (size cap : Nat) : Nat :=
  if size < cap then cap else if size = 0 then 1 else size * 2

/-! ## Exceptions

The definitions above describe the runs in which no element operation throws. The ones below
add exceptions; they embed the same source lines, with the `try`/`catch` blocks of `vector.h`
and the clean-up the standard library algorithms perform.

* `ThrowOps` says, per value, which element operations throw. A move constructor marked
  `noexcept` (`nothrowMove`) never does. Destructors do not throw.
* A constructor that throws leaves no object in the slot it was to fill, and a copy leaves its
  `const` source as it was. Beyond that an element operation that throws gives the basic
  guarantee only: the source of a move construction and the operands of an assignment stay
  live objects, in a state the element type chooses (`failedMove`, `failedCopyAssign`,
  `failedMoveAssign`).
* An `Outcome` is a normal return, an exception that propagates (with the state it leaves
  behind), or undefined behaviour.
-/

/-- The element type with its throwing behaviour: for each operation, the values on which it
throws. -/
structure ThrowOps (α : Type) extends ElemOps α where
  /-- Whether the value-initialization `T()` throws; the argument counts the constructions of
  one `std::uninitialized_value_construct_n` call, from 0. -/
  valueInitThrows : Nat → Bool
  /-- The values `x` for which the copy construction `T(x)` throws. -/
  copyThrows : α → Bool
  /-- The values `x` for which the move construction `T(std::move(x))` throws, unless the move
  constructor is `noexcept`. -/
  moveThrows : α → Bool
  /-- The state in which a move construction from `x` that throws leaves its source. -/
  failedMove : α → α
  /-- The pairs (target, source) for which the copy assignment `target = source` throws. -/
  copyAssignThrows : α → α → Bool
  /-- The state in which a copy assignment `target = source` that throws leaves the target. -/
  failedCopyAssign : α → α → α
  /-- The pairs (target, source) for which the move assignment `target = std::move(source)`
  throws. -/
  moveAssignThrows : α → α → Bool
  /-- The states in which a move assignment `target = std::move(source)` that throws leaves
  the target and the source. -/
  failedMoveAssign : α → α → α × α

/-- Whether move-constructing from `x` throws: never for a `noexcept` move constructor. -/
def ThrowOps.moveFails {α : Type} (T : ThrowOps α) (x : α) : Bool :=
  !T.nothrowMove && T.moveThrows x

/-- What a relocation by move leaves in the source range when it stops at the first move that
throws: the elements before that one are moved-from, that one is in the state its failed move
constructor left it in, and the rest are as they were. When no move throws, every element is
moved-from. -/
def ThrowOps.afterFailedMove {α : Type} (T : ThrowOps α) : List α → List α
  | [] => []
  | y :: ys =>
    if T.moveFails y then T.failedMove y :: ys else T.movedFrom y :: T.afterFailedMove ys

/-- What `std::copy` from the values `ys` leaves in a target range holding `zs` when it stops
at the first assignment that throws: the targets before that one hold the source's values, that
one is in the state its failed assignment left it in, and the rest are as they were. When no
assignment throws, the targets paired with a source hold the source's values. -/
def ThrowOps.afterFailedCopy {α : Type} (T : ThrowOps α) : List α → List α → List α
  | z :: zs, y :: ys =>
    if T.copyAssignThrows z y then T.failedCopyAssign z y :: zs
    else y :: T.afterFailedCopy zs ys
  | zs, [] => zs
  | [], _ :: _ => []

/-- How a call ends: it returns (`done`), an exception leaves it (`threw`, with the state left
behind), or its behaviour is undefined. -/
inductive Outcome (δ τ : Type) where
  | done (r : δ)
  | threw (s : τ)
  | undefined
  deriving DecidableEq

/-- An operation of the first part that cannot throw, as an outcome. -/
def Outcome.ofOption {δ τ : Type} : Option δ → Outcome δ τ
  | some r => Outcome.done r
  | none => Outcome.undefined

/-- An exception that leaves the state `s` behind, when that state is defined. -/
def Outcome.threwOf {δ τ : Type} : Option τ → Outcome δ τ
  | some s => Outcome.threw s
  | none => Outcome.undefined

/-- Both ways out of a call: the call is defined, `P` holds of what it returns and `Q` of the
state an exception leaves. -/
def Outcome.Both {δ τ : Type} (P : δ → Prop) (Q : τ → Prop) : Outcome δ τ → Prop
  | Outcome.done r => P r
  | Outcome.threw s => Q s
  | Outcome.undefined => False

/-- A run with exceptions `o` follows the run without exceptions `p`: where `p` returns, `o`
returns the same or throws. -/
def Outcome.Follows {σ : Type} (o : Outcome σ σ) (p : Option σ) : Prop :=
  ∀ r : σ, p = some r → o = Outcome.done r ∨ ∃ s : σ, o = Outcome.threw s

/-- Sequencing `o; f`: `f` runs on the state `o` returns. -/
def Outcome.andThen {σ : Type} (o : Outcome σ σ) (f : σ → Outcome σ σ) : Outcome σ σ :=
  match o with
  | Outcome.done s => f s
  | Outcome.threw s => Outcome.threw s
  | Outcome.undefined => Outcome.undefined

/-- The block `try { o } catch (...) { h; throw; }` for a handler `h` that does not throw. -/
def Outcome.onThrow {σ : Type} (o : Outcome σ σ) (h : σ → Option σ) : Outcome σ σ :=
  match o with
  | Outcome.done s => Outcome.done s
  | Outcome.threw s =>
    match h s with
    | some s' => Outcome.threw s'
    | none => Outcome.undefined
  | Outcome.undefined => Outcome.undefined

/-- The caller's view of an outcome: `f` on the state returned, `g` on the state an exception
leaves. -/
def Outcome.mapBoth {σ δ τ : Type} (o : Outcome σ σ) (f : σ → δ) (g : σ → τ) : Outcome δ τ :=
  match o with
  | Outcome.done s => Outcome.done (f s)
  | Outcome.threw s => Outcome.threw (g s)
  | Outcome.undefined => Outcome.undefined

/-- Placement `new (p) T(args...)`, where `x` is the value the constructor would produce and
`throws` says whether it throws. -/
def Mem.constructE {α : Type} (m : Mem α) (p : Ptr) (x : α) (throws : Bool) :
    Outcome (Mem α) (Mem α) :=
  if throws then Outcome.threw m else Outcome.ofOption (m.construct p x)

/-- Copy construction `new (d) T(*s)`. -/
def Mem.copyConstructE {α : Type} (T : ThrowOps α) (m : Mem α) (d s : Ptr) :
    Outcome (Mem α) (Mem α) :=
  match m.load s with
  | none => Outcome.undefined
  | some x => m.constructE d x (T.copyThrows x)

/-- Move construction `new (d) T(std::move(*s))`. When it throws, no object is left at `d` and
the source is in the state `failedMove` gives. -/
def Mem.moveConstructE {α : Type} (T : ThrowOps α) (m : Mem α) (d s : Ptr) :
    Outcome (Mem α) (Mem α) :=
  match m.load s with
  | none => Outcome.undefined
  | some x =>
    if T.moveFails x then Outcome.threwOf (m.assign s (T.failedMove x))
    else Outcome.ofOption (m.moveConstruct T.toElemOps d s)

/-- Copy assignment `*d = *s`. When it throws, the target is in the state `failedCopyAssign`
gives. -/
def Mem.copyAssignE {α : Type} (T : ThrowOps α) (m : Mem α) (d s : Ptr) :
    Outcome (Mem α) (Mem α) :=
  match m.load s, m.load d with
  | some x, some y =>
    if T.copyAssignThrows y x then Outcome.threwOf (m.assign d (T.failedCopyAssign y x))
    else Outcome.ofOption (m.assign d x)
  | _, _ => Outcome.undefined

/-- Move assignment `*d = std::move(*s)`. When it throws, the target and the source are in the
states `failedMoveAssign` gives. -/
def Mem.moveAssignE {α : Type} (T : ThrowOps α) (m : Mem α) (d s : Ptr) :
    Outcome (Mem α) (Mem α) :=
  match m.load s, m.load d with
  | some x, some y =>
    if T.moveAssignThrows y x then
      Outcome.threwOf do
        let m ← m.assign d (T.failedMoveAssign y x).1
        m.assign s (T.failedMoveAssign y x).2
    else Outcome.ofOption (m.moveAssign T.toElemOps d s)
  | _, _ => Outcome.undefined

/-- Move assignment `*d = std::move(temp)` from a local object `temp`. When it throws, the
target is in the state `failedMoveAssign` gives; `temp` goes out of scope. -/
def Mem.moveAssignLocalE {α : Type} (T : ThrowOps α) (m : Mem α) (d : Ptr) (temp : α) :
    Outcome (Mem α) (Mem α) :=
  match m.load d with
  | some y =>
    if T.moveAssignThrows y temp then
      Outcome.threwOf (m.assign d (T.failedMoveAssign y temp).1)
    else Outcome.ofOption (m.assign d temp)
  | none => Outcome.undefined

/-- `std::uninitialized_value_construct_n(first, n)`; `k` counts the constructions already
made. When a construction throws, the objects already constructed are destroyed and the
exception goes on. -/
def uninitialized_value_construct_nE {α : Type} (T : ThrowOps α) (m : Mem α) (first : Ptr)
    (k : Nat) : Nat → Outcome (Mem α) (Mem α)
  | 0 => Outcome.done m
  | n + 1 =>
    (m.constructE first T.valueInit (T.valueInitThrows k)).andThen fun m =>
      (uninitialized_value_construct_nE T m (first.add 1) (k + 1) n).onThrow fun m =>
        m.destroy first

/-- `std::uninitialized_copy_n(first, n, d_first)`: when a construction throws, the objects
already constructed are destroyed (the standard leaves the order open; here last to first) and
the exception goes on. -/
def uninitialized_copy_nE {α : Type} (T : ThrowOps α) (m : Mem α) (first : Ptr) (n : Nat)
    (d_first : Ptr) : Outcome (Mem α) (Mem α) :=
  match n with
  | 0 => Outcome.done m
  | n + 1 =>
    (m.copyConstructE T d_first first).andThen fun m =>
      (uninitialized_copy_nE T m (first.add 1) n (d_first.add 1)).onThrow fun m =>
        m.destroy d_first

/-- `std::uninitialized_move_n(first, n, d_first)`: when a construction throws, the objects
already constructed are destroyed and the exception goes on; the sources already moved from
stay moved-from. -/
def uninitialized_move_nE {α : Type} (T : ThrowOps α) (m : Mem α) (first : Ptr) (n : Nat)
    (d_first : Ptr) : Outcome (Mem α) (Mem α) :=
  match n with
  | 0 => Outcome.done m
  | n + 1 =>
    (m.moveConstructE T d_first first).andThen fun m =>
      (uninitialized_move_nE T m (first.add 1) n (d_first.add 1)).onThrow fun m =>
        m.destroy d_first

/-- The loop of `std::copy`; an exception leaves the elements assigned so far assigned. -/
def copyLoopE {α : Type} (T : ThrowOps α) (m : Mem α) (first : Ptr) (n : Nat) (d_first : Ptr) :
    Outcome (Mem α) (Mem α) :=
  match n with
  | 0 => Outcome.done m
  | n + 1 =>
    (m.copyAssignE T d_first first).andThen fun m =>
      copyLoopE T m (first.add 1) n (d_first.add 1)

/-- `std::copy(first, last, d_first)`. -/
def copyE {α : Type} (T : ThrowOps α) (m : Mem α) (first last d_first : Ptr) :
    Outcome (Mem α) (Mem α) :=
  if first.region = last.region ∧ first.off ≤ last.off then
    copyLoopE T m first (last.off - first.off) d_first
  else Outcome.undefined

/-- The loop of `std::move` (the algorithm); an exception leaves the elements moved so far
moved. -/
def moveLoopE {α : Type} (T : ThrowOps α) (m : Mem α) (first : Ptr) (n : Nat) (d_first : Ptr) :
    Outcome (Mem α) (Mem α) :=
  match n with
  | 0 => Outcome.done m
  | n + 1 =>
    (m.moveAssignE T d_first first).andThen fun m =>
      moveLoopE T m (first.add 1) n (d_first.add 1)

/-- `std::move(first, last, d_first)`. -/
def moveE {α : Type} (T : ThrowOps α) (m : Mem α) (first last d_first : Ptr) :
    Outcome (Mem α) (Mem α) :=
  if first.region = last.region ∧ first.off ≤ last.off then
    moveLoopE T m first (last.off - first.off) d_first
  else Outcome.undefined

/-- The loop of `std::move_backward`; an exception leaves the elements moved so far moved. -/
def moveBackwardLoopE {α : Type} (T : ThrowOps α) (m : Mem α) (first : Ptr) (n : Nat)
    (d_last : Ptr) : Outcome (Mem α) (Mem α) :=
  match n with
  | 0 => Outcome.done m
  | n + 1 =>
    if d_last.off = 0 then Outcome.undefined
    else
      (m.moveAssignE T ⟨d_last.region, d_last.off - 1⟩ (first.add n)).andThen fun m =>
        moveBackwardLoopE T m first n ⟨d_last.region, d_last.off - 1⟩

/-- `std::move_backward(first, last, d_last)`. -/
def move_backwardE {α : Type} (T : ThrowOps α) (m : Mem α) (first last d_last : Ptr) :
    Outcome (Mem α) (Mem α) :=
  if first.region = last.region ∧ first.off ≤ last.off then
    moveBackwardLoopE T m first (last.off - first.off) d_last
  else Outcome.undefined

namespace Vector

/-- `Vector(size_t size)`. When a value-initialization throws, the objects already constructed
are destroyed, `~RawMemory` releases the block and no container comes to exist. -/
def sizedE {α : Type} (T : ThrowOps α) (size : Nat) : Outcome (Vector α) Unit :=
  let data : RawMemory α := RawMemory.sized T.toElemOps size
  (uninitialized_value_construct_nE T ⟨data.buffer_, []⟩ ⟨Region.own, 0⟩ 0 size).mapBoth
    (fun m => ⟨⟨m.own, data.capacity_⟩, size⟩)
    (fun _ => ())

/-- `Vector(const Vector& other)`. It returns (`*this`, `other`); when a copy construction
throws, the object under construction never comes to exist (its block is released by
`~RawMemory`) and what is left is `other`. -/
def copyCtorE {α : Type} (T : ThrowOps α) (other : Vector α) :
    Outcome (Vector α × Vector α) (Vector α) :=
  let data : RawMemory α := RawMemory.sizedLive other.size_
  (uninitialized_copy_nE T ⟨data.buffer_, other.data_.buffer_⟩ ⟨Region.ext, 0⟩ other.size_
      ⟨Region.own, 0⟩).mapBoth
    (fun m => (⟨⟨m.own, data.capacity_⟩, other.size_⟩,
      ⟨⟨m.ext, other.data_.capacity_⟩, other.size_⟩))
    (fun m => ⟨⟨m.ext, other.data_.capacity_⟩, other.size_⟩)

/-- `Vector::operator=(const Vector& rhs)` for `this != &rhs`. Both outcomes carry
(`*this`, `rhs`). In the in-place branch an exception leaves `size_` as it was: `size_ =
rhs.size_` is the last statement. -/
def copyAssignE {α : Type} (T : ThrowOps α) (self rhs : Vector α) :
    Outcome (Vector α × Vector α) (Vector α × Vector α) :=
  if rhs.size_ > self.data_.Capacity then
    match copyCtorE T rhs with
    | Outcome.done c =>
      let r := Swap self c.1
      match destructor r.2 with
      | some _ => Outcome.done (r.1, c.2)
      | none => Outcome.undefined
    | Outcome.threw rhs' => Outcome.threw (self, rhs')
    | Outcome.undefined => Outcome.undefined
  else
    ((copyE T ⟨self.data_.buffer_, rhs.data_.buffer_⟩ ⟨Region.ext, 0⟩
        ⟨Region.ext, min rhs.size_ self.size_⟩ ⟨Region.own, 0⟩).andThen fun m =>
      if rhs.size_ < self.size_ then
        Outcome.ofOption (destroy_n m ⟨Region.own, rhs.size_⟩ (self.size_ - rhs.size_))
      else
        uninitialized_copy_nE T m ⟨Region.ext, self.size_⟩ (rhs.size_ - self.size_)
          ⟨Region.own, self.size_⟩).mapBoth
      (fun m => (⟨⟨m.own, self.data_.capacity_⟩, rhs.size_⟩,
        ⟨⟨m.ext, rhs.data_.capacity_⟩, rhs.size_⟩))
      (fun m => (⟨⟨m.own, self.data_.capacity_⟩, self.size_⟩,
        ⟨⟨m.ext, rhs.data_.capacity_⟩, rhs.size_⟩))

/-- `Vector::Reserve(new_capacity)`. An exception leaves `data_` and `size_` in place:
`new_data` is released on the way out. -/
def ReserveE {α : Type} (T : ThrowOps α) (self : Vector α) (new_capacity : Nat) :
    Outcome (Vector α) (Vector α) :=
  if new_capacity ≤ self.data_.Capacity then Outcome.done self
  else
    let new_data : RawMemory α := RawMemory.sized T.toElemOps new_capacity
    let m : Mem α := ⟨self.data_.buffer_, new_data.buffer_⟩
    ((if T.relocateByMove then
        uninitialized_move_nE T m ⟨Region.own, 0⟩ self.size_ ⟨Region.ext, 0⟩
      else
        uninitialized_copy_nE T m ⟨Region.own, 0⟩ self.size_ ⟨Region.ext, 0⟩).andThen fun m =>
      Outcome.ofOption (destroy_n m ⟨Region.own, 0⟩ self.size_)).mapBoth
      (fun m =>
        ⟨(RawMemory.Swap ⟨m.own, self.data_.capacity_⟩ ⟨m.ext, new_data.capacity_⟩).1,
          self.size_⟩)
      (fun m => ⟨⟨m.own, self.data_.capacity_⟩, self.size_⟩)

/-- `Vector::Resize(new_size)`. An exception out of `Reserve` leaves what `Reserve` leaves; an
exception out of the value-initializations leaves the block `Reserve` installed and `size_` as
it was (`size_ = new_size` is the last statement). -/
def ResizeE {α : Type} (T : ThrowOps α) (self : Vector α) (new_size : Nat) :
    Outcome (Vector α) (Vector α) :=
  if new_size < self.size_ then
    (Outcome.ofOption (destroy_n ⟨self.data_.buffer_, []⟩ ⟨Region.own, new_size⟩
        (self.size_ - new_size))).mapBoth
      (fun m => ⟨⟨m.own, self.data_.capacity_⟩, new_size⟩)
      (fun m => ⟨⟨m.own, self.data_.capacity_⟩, self.size_⟩)
  else if new_size > self.size_ then
    match ReserveE T self new_size with
    | Outcome.done self =>
      (uninitialized_value_construct_nE T ⟨self.data_.buffer_, []⟩ ⟨Region.own, self.size_⟩ 0
          (new_size - self.size_)).mapBoth
        (fun m => ⟨⟨m.own, self.data_.capacity_⟩, new_size⟩)
        (fun m => ⟨⟨m.own, self.data_.capacity_⟩, self.size_⟩)
    | Outcome.threw s => Outcome.threw s
    | Outcome.undefined => Outcome.undefined
  else Outcome.done self

/-- `Vector::Emplace(pos, args...)`; `x` is the value `T(args...)` would construct and
`ctorThrows` says whether that construction throws. An exception leaves `data_` and `size_` in
place: `++size_` and `data_.Swap(new_data)` come after everything that can throw. -/
def EmplaceE {α : Type} (T : ThrowOps α) (self : Vector α) (pos : Nat) (x : α)
    (ctorThrows : Bool) : Outcome (Vector α × Nat) (Vector α) :=
  if ¬ (pos ≤ self.size_) then Outcome.undefined
  else if self.size_ < self.data_.Capacity then
    let m : Mem α := ⟨self.data_.buffer_, []⟩
    (if pos = self.size_ then
        m.constructE ⟨Region.own, pos⟩ x ctorThrows
      else
        if ctorThrows then Outcome.threw m
        else
          let temp := x
          ((if T.relocateByMove then
              uninitialized_move_nE T m ⟨Region.own, self.size_ - 1⟩ 1 ⟨Region.own, self.size_⟩
            else
              uninitialized_copy_nE T m ⟨Region.own, self.size_ - 1⟩ 1
                ⟨Region.own, self.size_⟩).andThen fun m =>
            move_backwardE T m ⟨Region.own, pos⟩ ⟨Region.own, self.size_ - 1⟩
              ⟨Region.own, self.size_⟩).andThen fun m =>
            m.moveAssignLocalE T ⟨Region.own, pos⟩ temp).mapBoth
      (fun m => (⟨⟨m.own, self.data_.capacity_⟩, self.size_ + 1⟩, pos))
      (fun m => ⟨⟨m.own, self.data_.capacity_⟩, self.size_⟩)
  else
    let new_data : RawMemory α := RawMemory.sizedLive (if self.size_ = 0 then 1 else self.size_ * 2)
    let diff := pos
    let m : Mem α := ⟨self.data_.buffer_, new_data.buffer_⟩
    ((m.constructE ⟨Region.ext, diff⟩ x ctorThrows).andThen fun m =>
      ((if T.relocateByMove then
          uninitialized_move_nE T m ⟨Region.own, 0⟩ diff ⟨Region.ext, 0⟩
        else
          uninitialized_copy_nE T m ⟨Region.own, 0⟩ diff ⟨Region.ext, 0⟩).onThrow fun m =>
        destroy_n m ⟨Region.ext, diff⟩ 1).andThen fun m =>
      ((if T.relocateByMove then
          uninitialized_move_nE T m ⟨Region.own, diff⟩ (self.size_ - diff)
            ⟨Region.ext, diff + 1⟩
        else
          uninitialized_copy_nE T m ⟨Region.own, diff⟩ (self.size_ - diff)
            ⟨Region.ext, diff + 1⟩).onThrow fun m =>
        destroy_n m ⟨Region.ext, 0⟩ (diff + 1)).andThen fun m =>
      Outcome.ofOption (destroy_n m ⟨Region.own, 0⟩ self.size_)).mapBoth
      (fun m =>
        (⟨(RawMemory.Swap ⟨m.own, self.data_.capacity_⟩ ⟨m.ext, new_data.capacity_⟩).1,
          self.size_ + 1⟩, diff))
      (fun m => ⟨⟨m.own, self.data_.capacity_⟩, self.size_⟩)

/-- `Vector::EmplaceBack(args...)`: `Emplace(cend(), args...)`. -/
def EmplaceBackE {α : Type} (T : ThrowOps α) (self : Vector α) (x : α) (ctorThrows : Bool) :
    Outcome (Vector α × Nat) (Vector α) :=
  EmplaceE T self self.size_ x ctorThrows

/-- `Vector::Erase(pos)`. An exception out of a move assignment leaves `size_` as it was:
`--size_` comes last. -/
def EraseE {α : Type} (T : ThrowOps α) (self : Vector α) (pos : Nat) :
    Outcome (Vector α × Nat) (Vector α) :=
  if ¬ (pos < self.size_) then Outcome.undefined
  else
    let diff := pos
    let m : Mem α := ⟨self.data_.buffer_, []⟩
    ((moveE T m ⟨Region.own, diff + 1⟩ ⟨Region.own, self.size_⟩
        ⟨Region.own, diff⟩).andThen fun m =>
      Outcome.ofOption (destroy_n m ⟨Region.own, self.size_ - 1⟩ 1)).mapBoth
      (fun m => (⟨⟨m.own, self.data_.capacity_⟩, self.size_ - 1⟩, diff))
      (fun m => ⟨⟨m.own, self.data_.capacity_⟩, self.size_⟩)

/-- `Vector::Insert(pos, value)` with `const T& value`: the new element is copy-constructed
from `value`. -/
def InsertE {α : Type} (T : ThrowOps α) (self : Vector α) (pos : Nat) (value : α) :
    Outcome (Vector α × Nat) (Vector α) :=
  EmplaceE T self pos value (T.copyThrows value)

/-- `Vector::PushBack(value)` with `const T& value`: `EmplaceBack(value)`, that is
`Emplace(cend(), value)`. -/
def PushBackE {α : Type} (T : ThrowOps α) (self : Vector α) (value : α) :
    Outcome (Vector α) (Vector α) :=
  match EmplaceE T self self.size_ value (T.copyThrows value) with
  | Outcome.done r => Outcome.done r.1
  | Outcome.threw s => Outcome.threw s
  | Outcome.undefined => Outcome.undefined

end Vector

/-! ## Addresses

The definitions above give every container its block by value, so two containers cannot be
asked whether they share storage, nor a call whether it moved the elements. The definitions
below place the blocks in a free store and give a container the address of its block.
-/

/-- The free store: the blocks `operator new` has handed out, each at its address. Addresses
are handed out in increasing order and none twice; the block of a released allocation stays at
its address and is not looked at again. -/
abbrev Heap (α : Type) := List (Block α)

/-- The block a pointer points to. `none` is `nullptr`, which delimits a range of no slots; a
pointer to an address never handed out points to nothing. -/
def Heap.block {α : Type} (h : Heap α) : Option Nat → Option (Block α)
  | none => some []
  | some a => h[a]?

/-- The store after the block at a pointer has been written. -/
def Heap.store {α : Type} (h : Heap α) : Option Nat → Block α → Heap α
  | none, _ => h
  | some a, b => h.set a b

/-- The store after `operator new` has handed out the block `b`, and the pointer to that block:
an address not handed out before. -/
def Heap.allocate {α : Type} (h : Heap α) (b : Block α) : Heap α × Option Nat :=
  (h ++ [b], some h.length)

/-- The object representation of a `Vector<T>`: `data_.buffer_` is a pointer into the free
store. -/
structure VectorRep where
  buffer_ : Option Nat
  capacity_ : Nat
  size_ : Nat
  deriving DecidableEq

/-- The container an object representation stands for in a store. -/
def Heap.view {α : Type} (h : Heap α) (r : VectorRep) : Option (Vector α) :=
  (h.block r.buffer_).map fun b => ⟨⟨b, r.capacity_⟩, r.size_⟩

namespace VectorRep

/-- `Vector(const Vector& other)` with the store: `data_(other.size_)` takes its block from
`operator new` (`Allocate` returns `nullptr` for no slots) and the elements are copied as in
`Vector.copyCtor`. The result is the store and `*this` after the call; `other` does not
change its representation. -/
def copyCtor {α : Type} (h : Heap α) (other : VectorRep) : Option (Heap α × VectorRep) := do
  let w ← h.view other
  let c ← Vector.copyCtor w
  let h := h.store other.buffer_ c.2.data_.buffer_
  let a := if other.size_ ≠ 0 then h.allocate c.1.data_.buffer_ else (h, none)
  pure (a.1, ⟨a.2, c.1.data_.capacity_, c.1.size_⟩)

/-- A call of a member function on the container at `r`; `f` is the embedding of the function
on the container's block. `vector.h` has no static or global state and a block is reachable
only through the `RawMemory` that owns it, so a member function reads and writes the block of
its own `data_` and the blocks it allocates itself, nothing else. `moved` says whether the call
leaves `data_` owning a block it allocated (after `data_.Swap(new_data)` or
`Swap(rhs_copy)`, when the former block is released) or the block it had. -/
def call {α : Type} (h : Heap α) (r : VectorRep) (f : Vector α → Option (Vector α))
    (moved : Bool) : Option (Heap α × VectorRep) := do
  let v ← h.view r
  let v' ← f v
  if moved then
    let a := h.allocate v'.data_.buffer_
    pure (a.1, ⟨a.2, v'.data_.capacity_, v'.size_⟩)
  else
    pure (h.store r.buffer_ v'.data_.buffer_, ⟨r.buffer_, v'.data_.capacity_, v'.size_⟩)

/-- `Vector::Reserve(new_capacity)` with the store: the early `return` touches nothing;
otherwise the elements are relocated as in `Vector.Reserve` into the block of `new_data`,
which `data_` owns after the swap. -/
def Reserve {α : Type} (T : ElemOps α) (h : Heap α) (r : VectorRep) (new_capacity : Nat) :
    Option (Heap α × VectorRep) :=
  if new_capacity ≤ r.capacity_ then some (h, r)
  else call h r (fun v => Vector.Reserve T v new_capacity) true

end VectorRep

/-- A store for examples: one block holding `[1, 2, 3]` and two uninitialized slots. -/
def sampleHeap : Heap Int := [[some 1, some 2, some 3, none, none]]

/-- The container of `sampleHeap`: `[1, 2, 3]` in the block at address 0, capacity 5. -/
def sampleRep : VectorRep := ⟨some 0, 5, 3⟩

/-- The relation between the number of pushes since the default state and the capacity:
nothing pushed and no block, or a power of two in `[n, 2n)`. -/
def Doubling (n c : Nat) : Prop :=
  (n = 0 ∧ c = 0) ∨ ∃ e : Nat, c = 2 ^ e ∧ n ≤ c ∧ c < 2 * n

/-- An element type for examples: integers, a moved-from integer is `-1`, moves may throw. -/
def intOps : ElemOps Int :=
  { valueInit := 0
    movedFrom := fun _ => -1
    nothrowMove := false
    copyConstructible := true
    sizeofT := 4
    sizeofT_pos := by decide }

/-- An element type for examples: integers, a moved-from integer is `-1`, moves are
`noexcept`. -/
def intMoveOps : ElemOps Int :=
  { valueInit := 0
    movedFrom := fun _ => -1
    nothrowMove := true
    copyConstructible := true
    sizeofT := 4
    sizeofT_pos := by decide }

/-- An element type for examples: integers that can be copied, where copying the value 2
throws and nothing else does; moves are not `noexcept`, so relocation copies. -/
def copyFaultOps : ThrowOps Int :=
  { intOps with
    valueInitThrows := fun _ => false
    copyThrows := fun x => x == 2
    moveThrows := fun _ => false
    failedMove := fun x => x
    copyAssignThrows := fun _ _ => false
    failedCopyAssign := fun dst _ => dst
    moveAssignThrows := fun _ _ => false
    failedMoveAssign := fun dst src => (dst, src) }

/-- An element type for examples: integers that cannot be copied (`copyConstructible` is
false) and whose move constructor is not `noexcept`; moving the value 2 throws, a moved-from
integer is `-1`. Relocation moves. -/
def moveFaultOps : ThrowOps Int :=
  { valueInit := 0
    movedFrom := fun _ => -1
    nothrowMove := false
    copyConstructible := false
    sizeofT := 4
    sizeofT_pos := by decide
    valueInitThrows := fun _ => false
    copyThrows := fun _ => false
    moveThrows := fun x => x == 2
    failedMove := fun x => x
    copyAssignThrows := fun _ _ => false
    failedCopyAssign := fun dst _ => dst
    moveAssignThrows := fun _ _ => false
    failedMoveAssign := fun dst src => (dst, src) }

/-- An element type for examples: integers whose copy assignment throws when the source
is 2. -/
def assignFaultOps : ThrowOps Int :=
  { intOps with
    valueInitThrows := fun _ => false
    copyThrows := fun _ => false
    moveThrows := fun _ => false
    failedMove := fun x => x
    copyAssignThrows := fun _ src => src == 2
    failedCopyAssign := fun dst _ => dst
    moveAssignThrows := fun _ _ => false
    failedMoveAssign := fun dst src => (dst, src) }

/-- An element type for examples: integers whose copy assignment throws when the source is 2
and then leaves the target holding 0, a value that is neither the old one nor the source's (an
assignment that writes its members one after the other and throws between two of them). -/
def halfAssignOps : ThrowOps Int :=
  { intOps with
    valueInitThrows := fun _ => false
    copyThrows := fun _ => false
    moveThrows := fun _ => false
    failedMove := fun x => x
    copyAssignThrows := fun _ src => src == 2
    failedCopyAssign := fun _ _ => 0
    moveAssignThrows := fun _ _ => false
    failedMoveAssign := fun dst src => (dst, src) }

/-- An element type for examples: integers that cannot be copied and whose move constructor
is not `noexcept`; moving the value 2 throws and leaves the source holding 0 (a move that
has emptied part of its source when it throws). -/
def halfMoveOps : ThrowOps Int :=
  { valueInit := 0
    movedFrom := fun _ => -1
    nothrowMove := false
    copyConstructible := false
    sizeofT := 4
    sizeofT_pos := by decide
    valueInitThrows := fun _ => false
    copyThrows := fun _ => false
    moveThrows := fun x => x == 2
    failedMove := fun _ => 0
    copyAssignThrows := fun _ _ => false
    failedCopyAssign := fun dst _ => dst
    moveAssignThrows := fun _ _ => false
    failedMoveAssign := fun dst src => (dst, src) }

/-- A container for examples: `[1, 2, 3]` in a block of 4 slots. -/
def sampleV : Vector Int := Vector.ofList [1, 2, 3] 4

/-- A container for examples: `[7, 8]` in a block of 2 slots. -/
def sampleW : Vector Int := Vector.ofList [7, 8] 2

end AdvancedVector


namespace AdvancedVector

/-! ## Storage lemmas -/

section Storage

variable {α : Type}

@[simp] theorem Mem.block_setBlock_same (m : Mem α) (r : Region) (b : Block α) :
    (m.setBlock r b).block r = b := by
  cases r <;> rfl

theorem Mem.block_setBlock_ne (m : Mem α) {r r' : Region} (b : Block α) (h : r ≠ r') :
    (m.setBlock r b).block r' = m.block r' := by
  cases r <;> cases r' <;> first | rfl | exact absurd rfl h

@[simp] theorem Mem.setBlock_setBlock (m : Mem α) (r : Region) (b b' : Block α) :
    (m.setBlock r b).setBlock r b' = m.setBlock r b' := by
  cases r <;> rfl

theorem Mem.setBlock_comm (m : Mem α) {r r' : Region} (b b' : Block α) (h : r ≠ r') :
    (m.setBlock r b).setBlock r' b' = (m.setBlock r' b').setBlock r b := by
  cases r <;> cases r' <;> first | rfl | exact absurd rfl h

theorem Mem.setBlock_block (m : Mem α) (r : Region) : m.setBlock r (m.block r) = m := by
  cases r <;> rfl

theorem Block.get_mid (pre post : Block α) (s : Option α) :
    (pre ++ s :: post)[pre.length]? = some s := by
  rw [List.getElem?_append_right (Nat.le_refl _)]
  simp

theorem Block.set_mid (pre post : Block α) (s t : Option α) :
    (pre ++ s :: post).set pre.length t = pre ++ t :: post := by
  rw [List.set_append]
  simp

theorem Mem.load_mid (m : Mem α) (r : Region) (k : Nat) (pre post : Block α) (x : α)
    (hb : m.block r = pre ++ some x :: post) (hk : k = pre.length) :
    m.load ⟨r, k⟩ = some x := by
  subst hk
  simp only [Mem.load, hb, Block.get_mid]

theorem Mem.construct_mid (m : Mem α) (r : Region) (k : Nat) (pre post : Block α) (x : α)
    (hb : m.block r = pre ++ none :: post) (hk : k = pre.length) :
    m.construct ⟨r, k⟩ x = some (m.setBlock r (pre ++ some x :: post)) := by
  subst hk
  simp only [Mem.construct, hb, Block.get_mid, Block.set_mid]

theorem Mem.assign_mid (m : Mem α) (r : Region) (k : Nat) (pre post : Block α) (y x : α)
    (hb : m.block r = pre ++ some y :: post) (hk : k = pre.length) :
    m.assign ⟨r, k⟩ x = some (m.setBlock r (pre ++ some x :: post)) := by
  subst hk
  simp only [Mem.assign, hb, Block.get_mid, Block.set_mid]

theorem Mem.destroy_mid (m : Mem α) (r : Region) (k : Nat) (pre post : Block α) (y : α)
    (hb : m.block r = pre ++ some y :: post) (hk : k = pre.length) :
    m.destroy ⟨r, k⟩ = some (m.setBlock r (pre ++ none :: post)) := by
  subst hk
  simp only [Mem.destroy, hb, Block.get_mid, Block.set_mid]

end Storage

/-! ## What the standard algorithms compute -/

section Algorithms

variable {α : Type}

theorem uninitialized_value_construct_n_spec (T : ElemOps α) (r : Region) (n : Nat) :
    ∀ (m : Mem α) (pre post : Block α) (k : Nat),
      m.block r = pre ++ List.replicate n none ++ post → k = pre.length →
      uninitialized_value_construct_n T m ⟨r, k⟩ n =
        some (m.setBlock r (pre ++ List.replicate n (some T.valueInit) ++ post)) := by
  induction n with
  | zero =>
    intro m pre post k hb _
    simp only [uninitialized_value_construct_n, List.replicate_zero] at hb ⊢
    rw [← hb, Mem.setBlock_block]
  | succ n ih =>
    intro m pre post k hb hk
    have hb1 : m.block r = pre ++ none :: (List.replicate n none ++ post) := by
      rw [hb, List.replicate_succ]; simp
    rw [uninitialized_value_construct_n, Mem.construct_mid m r k pre _ T.valueInit hb1 hk]
    simp only [Option.bind_eq_bind, Option.some_bind, Ptr.add]
    rw [ih _ (pre ++ [some T.valueInit]) post (k + 1) (by simp) (by simp [hk])]
    simp [List.replicate_succ]

theorem uninitialized_copy_n_spec {rs rd : Region} (hne : rs ≠ rd) (ys : List α) :
    ∀ (m : Mem α) (spre spost dpre dpost : Block α) (ks kd : Nat),
      m.block rs = spre ++ ys.map some ++ spost →
      m.block rd = dpre ++ List.replicate ys.length none ++ dpost →
      ks = spre.length → kd = dpre.length →
      uninitialized_copy_n m ⟨rs, ks⟩ ys.length ⟨rd, kd⟩ =
        some (m.setBlock rd (dpre ++ ys.map some ++ dpost)) := by
  induction ys with
  | nil =>
    intro m spre spost dpre dpost ks kd _ hd _ _
    simp only [uninitialized_copy_n, List.length_nil, List.replicate_zero, List.map_nil] at hd ⊢
    rw [← hd, Mem.setBlock_block]
  | cons y ys ih =>
    intro m spre spost dpre dpost ks kd hs hd hks hkd
    have hs1 : m.block rs = spre ++ some y :: (ys.map some ++ spost) := by
      rw [hs]; simp
    have hd1 : m.block rd = dpre ++ none :: (List.replicate ys.length none ++ dpost) := by
      rw [hd, List.length_cons, List.replicate_succ]; simp
    rw [List.length_cons, uninitialized_copy_n, Mem.copyConstruct,
      Mem.load_mid m rs ks spre _ y hs1 hks]
    simp only [Option.bind_eq_bind, Option.some_bind, Ptr.add]
    rw [Mem.construct_mid m rd kd dpre _ y hd1 hkd]
    simp only [Option.some_bind]
    rw [ih _ (spre ++ [some y]) spost (dpre ++ [some y]) dpost (ks + 1) (kd + 1)
      (by rw [Mem.block_setBlock_ne _ _ (Ne.symm hne), hs1]; simp) (by simp) (by simp [hks])
      (by simp [hkd])]
    simp

theorem uninitialized_move_n_spec (T : ElemOps α) {rs rd : Region} (hne : rs ≠ rd)
    (ys : List α) :
    ∀ (m : Mem α) (spre spost dpre dpost : Block α) (ks kd : Nat),
      m.block rs = spre ++ ys.map some ++ spost →
      m.block rd = dpre ++ List.replicate ys.length none ++ dpost →
      ks = spre.length → kd = dpre.length →
      uninitialized_move_n T m ⟨rs, ks⟩ ys.length ⟨rd, kd⟩ =
        some ((m.setBlock rd (dpre ++ ys.map some ++ dpost)).setBlock rs
          (spre ++ ys.map (fun y => some (T.movedFrom y)) ++ spost)) := by
  induction ys with
  | nil =>
    intro m spre spost dpre dpost ks kd hs hd _ _
    simp only [uninitialized_move_n, List.length_nil, List.replicate_zero, List.map_nil]
      at hs hd ⊢
    rw [← hd, Mem.setBlock_block, ← hs, Mem.setBlock_block]
  | cons y ys ih =>
    intro m spre spost dpre dpost ks kd hs hd hks hkd
    have hs1 : m.block rs = spre ++ some y :: (ys.map some ++ spost) := by
      rw [hs]; simp
    have hd1 : m.block rd = dpre ++ none :: (List.replicate ys.length none ++ dpost) := by
      rw [hd, List.length_cons, List.replicate_succ]; simp
    rw [List.length_cons, uninitialized_move_n, Mem.moveConstruct,
      Mem.load_mid m rs ks spre _ y hs1 hks]
    simp only [Option.bind_eq_bind, Option.some_bind, Ptr.add]
    rw [Mem.construct_mid m rd kd dpre _ y hd1 hkd]
    simp only [Option.some_bind]
    rw [Mem.assign_mid _ rs ks spre (ys.map some ++ spost) y (T.movedFrom y)
      (by rw [Mem.block_setBlock_ne _ _ (Ne.symm hne), hs1]) hks]
    simp only [Option.some_bind]
    rw [ih _ (spre ++ [some (T.movedFrom y)]) spost (dpre ++ [some y]) dpost (ks + 1) (kd + 1)
      (by simp) (by rw [Mem.block_setBlock_ne _ _ hne]; simp) (by simp [hks]) (by simp [hkd])]
    cases rs <;> cases rd <;> first | exact absurd rfl hne | simp [Mem.setBlock]

theorem destroy_n_spec (r : Region) (ys : List α) :
    ∀ (m : Mem α) (pre post : Block α) (k : Nat),
      m.block r = pre ++ ys.map some ++ post → k = pre.length →
      destroy_n m ⟨r, k⟩ ys.length =
        some (m.setBlock r (pre ++ List.replicate ys.length none ++ post)) := by
  induction ys with
  | nil =>
    intro m pre post k hb _
    simp only [destroy_n, List.length_nil, List.replicate_zero, List.map_nil] at hb ⊢
    rw [← hb, Mem.setBlock_block]
  | cons y ys ih =>
    intro m pre post k hb hk
    have hb1 : m.block r = pre ++ some y :: (ys.map some ++ post) := by
      rw [hb]; simp
    rw [List.length_cons, destroy_n, Mem.destroy_mid m r k pre _ y hb1 hk]
    simp only [Option.bind_eq_bind, Option.some_bind, Ptr.add]
    rw [ih _ (pre ++ [none]) post (k + 1) (by simp) (by simp [hk])]
    simp [List.replicate_succ]

theorem copyLoop_spec {rs rd : Region} (hne : rs ≠ rd) (ys : List α) :
    ∀ (zs : List α) (m : Mem α) (spre spost dpre dpost : Block α) (ks kd : Nat),
      zs.length = ys.length →
      m.block rs = spre ++ ys.map some ++ spost →
      m.block rd = dpre ++ zs.map some ++ dpost →
      ks = spre.length → kd = dpre.length →
      copyLoop m ⟨rs, ks⟩ ys.length ⟨rd, kd⟩ =
        some (m.setBlock rd (dpre ++ ys.map some ++ dpost)) := by
  induction ys with
  | nil =>
    intro zs m spre spost dpre dpost ks kd hl _ hd _ _
    have hz : zs = [] := List.length_eq_zero.mp hl
    subst hz
    simp only [copyLoop, List.length_nil, List.map_nil] at hd ⊢
    rw [← hd, Mem.setBlock_block]
  | cons y ys ih =>
    intro zs m spre spost dpre dpost ks kd hl hs hd hks hkd
    cases zs with
    | nil => simp at hl
    | cons z zs =>
      have hs1 : m.block rs = spre ++ some y :: (ys.map some ++ spost) := by
        rw [hs]; simp
      have hd1 : m.block rd = dpre ++ some z :: (zs.map some ++ dpost) := by
        rw [hd]; simp
      rw [List.length_cons, copyLoop, Mem.copyAssign, Mem.load_mid m rs ks spre _ y hs1 hks]
      simp only [Option.bind_eq_bind, Option.some_bind, Ptr.add]
      rw [Mem.assign_mid m rd kd dpre _ z y hd1 hkd]
      simp only [Option.some_bind]
      rw [ih zs _ (spre ++ [some y]) spost (dpre ++ [some y]) dpost (ks + 1) (kd + 1)
        (by simpa using hl)
        (by rw [Mem.block_setBlock_ne _ _ (Ne.symm hne), hs1]; simp) (by simp) (by simp [hks])
        (by simp [hkd])]
      simp

theorem moveLoop_spec (T : ElemOps α) (r : Region) (ys : List α) :
    ∀ (m : Mem α) (pre post : Block α) (z : α) (k : Nat),
      m.block r = pre ++ some z :: (ys.map some ++ post) → k = pre.length →
      ∃ junk : α, moveLoop T m ⟨r, k + 1⟩ ys.length ⟨r, k⟩ =
        some (m.setBlock r (pre ++ ys.map some ++ some junk :: post)) := by
  induction ys with
  | nil =>
    intro m pre post z k hb _
    refine ⟨z, ?_⟩
    simp only [moveLoop, List.length_nil, List.map_nil, List.nil_append, List.append_nil]
      at hb ⊢
    rw [← hb, Mem.setBlock_block]
  | cons y ys ih =>
    intro m pre post z k hb hk
    have hb1 : m.block r = (pre ++ [some z]) ++ some y :: (ys.map some ++ post) := by
      rw [hb]; simp
    obtain ⟨junk, hj⟩ := ih
      (m.setBlock r ((pre ++ [some y]) ++ some (T.movedFrom y) :: (ys.map some ++ post)))
      (pre ++ [some y]) post (T.movedFrom y) (k + 1) (by simp) (by simp [hk])
    refine ⟨junk, ?_⟩
    rw [List.length_cons, moveLoop, Mem.moveAssign,
      Mem.load_mid m r (k + 1) (pre ++ [some z]) _ y hb1 (by simp [hk])]
    simp only [Option.bind_eq_bind, Option.some_bind, Ptr.add]
    rw [Mem.assign_mid m r k pre _ z y hb hk]
    simp only [Option.some_bind]
    rw [Mem.assign_mid _ r (k + 1) (pre ++ [some y]) (ys.map some ++ post) y (T.movedFrom y)
      (by simp) (by simp [hk])]
    simp only [Option.some_bind, Mem.setBlock_setBlock]
    rw [hj]
    simp

theorem moveBackwardLoop_spec (T : ElemOps α) (r : Region) (pre : Block α) (ys : List α) :
    ∀ (m : Mem α) (post : Block α) (z : α) (k : Nat),
      m.block r = pre ++ ys.map some ++ some z :: post → k = pre.length →
      ∃ junk : α, moveBackwardLoop T m ⟨r, k⟩ ys.length ⟨r, k + ys.length + 1⟩ =
        some (m.setBlock r (pre ++ some junk :: (ys.map some ++ post))) := by
  induction ys using List.reverseRecOn with
  | nil =>
    intro m post z k hb _
    refine ⟨z, ?_⟩
    simp only [moveBackwardLoop, List.length_nil, List.map_nil, List.nil_append,
      List.append_nil] at hb ⊢
    rw [← hb, Mem.setBlock_block]
  | append_singleton ys y ih =>
    intro m post z k hb hk
    have hb1 : m.block r = (pre ++ ys.map some) ++ some y :: (some z :: post) := by
      rw [hb]; simp
    have hb2 : m.block r = (pre ++ ys.map some ++ [some y]) ++ some z :: post := by
      rw [hb]; simp
    obtain ⟨junk, hj⟩ := ih
      (m.setBlock r (pre ++ ys.map some ++ some (T.movedFrom y) :: (some y :: post)))
      (some y :: post) (T.movedFrom y) k (by simp) hk
    refine ⟨junk, ?_⟩
    have hlen : (ys ++ [y]).length = ys.length + 1 := by simp
    rw [hlen, moveBackwardLoop]
    simp only [Nat.add_sub_cancel, Ptr.add, Nat.succ_ne_zero, if_false, Mem.moveAssign]
    simp only [← Nat.add_assoc]
    rw [Mem.load_mid m r (k + ys.length) (pre ++ ys.map some) _ y hb1 (by simp [hk])]
    simp only [Option.bind_eq_bind, Option.some_bind]
    rw [Mem.assign_mid m r (k + ys.length + 1) (pre ++ ys.map some ++ [some y]) post z y hb2
      (by simp [hk, Nat.add_assoc])]
    simp only [Option.some_bind]
    rw [Mem.assign_mid _ r (k + ys.length) (pre ++ ys.map some) (some y :: post) y
      (T.movedFrom y) (by simp) (by simp [hk])]
    simp only [Option.some_bind, Mem.setBlock_setBlock]
    rw [hj]
    simp

/-- One object relocated inside a block, from a live slot to its uninitialized neighbour:
`std::uninitialized_move_n(p, 1, p + 1)` or `std::uninitialized_copy_n(p, 1, p + 1)`. -/
theorem relocate_one_spec (T : ElemOps α) (r : Region) (m : Mem α) (pre post : Block α)
    (y : α) (k : Nat) (hb : m.block r = pre ++ some y :: none :: post) (hk : k = pre.length) :
    ∃ junk : α,
      (if T.relocateByMove then uninitialized_move_n T m ⟨r, k⟩ 1 ⟨r, k + 1⟩
        else uninitialized_copy_n m ⟨r, k⟩ 1 ⟨r, k + 1⟩) =
        some (m.setBlock r (pre ++ some junk :: some y :: post)) := by
  have hb1 : m.block r = (pre ++ [some y]) ++ none :: post := by
    rw [hb]; simp
  by_cases hT : T.relocateByMove = true
  · refine ⟨T.movedFrom y, ?_⟩
    rw [if_pos hT, uninitialized_move_n, Mem.moveConstruct, Mem.load_mid m r k pre _ y hb hk]
    simp only [Option.bind_eq_bind, Option.some_bind, uninitialized_move_n]
    rw [Mem.construct_mid m r (k + 1) (pre ++ [some y]) post y hb1 (by simp [hk])]
    simp only [Option.some_bind]
    rw [Mem.assign_mid _ r k pre (some y :: post) y (T.movedFrom y) (by simp) hk]
    simp
  · refine ⟨y, ?_⟩
    rw [if_neg hT, uninitialized_copy_n, Mem.copyConstruct, Mem.load_mid m r k pre _ y hb hk]
    simp only [Option.bind_eq_bind, Option.some_bind, uninitialized_copy_n]
    rw [Mem.construct_mid m r (k + 1) (pre ++ [some y]) post y hb1 (by simp [hk])]
    simp

/-- Relocation of `ys` from one block into another under the policy of `vector.h`
(`std::uninitialized_move_n` or `std::uninitialized_copy_n`): the destination receives `ys`,
the source keeps live objects (moved-from or untouched). -/
theorem relocate_spec (T : ElemOps α) {rs rd : Region} (hne : rs ≠ rd) (ys : List α)
    (m : Mem α) (spre spost dpre dpost : Block α) (ks kd : Nat)
    (hs : m.block rs = spre ++ ys.map some ++ spost)
    (hd : m.block rd = dpre ++ List.replicate ys.length none ++ dpost)
    (hks : ks = spre.length) (hkd : kd = dpre.length) :
    ∃ ys' : List α, ys'.length = ys.length ∧
      (if T.relocateByMove then uninitialized_move_n T m ⟨rs, ks⟩ ys.length ⟨rd, kd⟩
        else uninitialized_copy_n m ⟨rs, ks⟩ ys.length ⟨rd, kd⟩) =
        some ((m.setBlock rd (dpre ++ ys.map some ++ dpost)).setBlock rs
          (spre ++ ys'.map some ++ spost)) := by
  by_cases hT : T.relocateByMove = true
  · refine ⟨ys.map T.movedFrom, by simp, ?_⟩
    rw [if_pos hT, uninitialized_move_n_spec T hne ys m spre spost dpre dpost ks kd hs hd hks hkd]
    simp [List.map_map, Function.comp_def]
  · refine ⟨ys, rfl, ?_⟩
    rw [if_neg hT, uninitialized_copy_n_spec hne ys m spre spost dpre dpost ks kd hs hd hks hkd,
      ← hs]
    cases rs <;> cases rd <;> first | exact absurd rfl hne | rfl

end Algorithms

/-! ## The abstraction -/

section Abstraction

variable {α : Type}

theorem reduceOption_map_some (xs : List α) : (xs.map some).reduceOption = xs := by
  induction xs with
  | nil => rfl
  | cons x xs ih => simp [List.reduceOption_cons_of_some, ih]

theorem Vector.toList_ofList (xs : List α) (cap : Nat) : (Vector.ofList xs cap).toList = xs := by
  simp only [Vector.toList, Vector.ofList]
  rw [List.take_left' (by simp), reduceOption_map_some]

theorem Vector.Inv_ofList (xs : List α) (cap : Nat) (h : xs.length ≤ cap) :
    (Vector.ofList xs cap).Inv := by
  refine ⟨h, ?_, ?_⟩
  · rw [Vector.toList_ofList]; rfl
  · rw [Vector.toList_ofList]; rfl

theorem Vector.Inv.eq_ofList {v : Vector α} (h : v.Inv) :
    v = Vector.ofList v.toList v.data_.capacity_ := by
  obtain ⟨_, hb, hl⟩ := h
  cases v with
  | mk d n =>
    cases d with
    | mk b c =>
      simp only [Vector.ofList, Vector.mk.injEq, RawMemory.mk.injEq] at hb hl ⊢
      refine ⟨⟨?_, trivial⟩, hl.symm⟩
      rw [hl]
      exact hb

theorem Vector.Inv.length_le {v : Vector α} (h : v.Inv) :
    v.toList.length ≤ v.data_.capacity_ := by
  rw [h.2.2]; exact h.1

@[simp] theorem Vector.size_ofList (xs : List α) (cap : Nat) :
    (Vector.ofList xs cap).size_ = xs.length := rfl

@[simp] theorem Vector.capacity_ofList (xs : List α) (cap : Nat) :
    (Vector.ofList xs cap).data_.capacity_ = cap := rfl

end Abstraction

/-! ## Emplace -/

section EmplaceLemmas

variable {α : Type}

/-- Branch `size_ < Capacity()`, `pos == cend()`. -/
theorem Vector.Emplace_append (T : ElemOps α) (A : List α) (rest : Block α) (cap : Nat)
    (x : α) (h : A.length < cap) :
    Vector.Emplace T ⟨⟨A.map some ++ none :: rest, cap⟩, A.length⟩ A.length x =
      some (⟨⟨A.map some ++ some x :: rest, cap⟩, A.length + 1⟩, A.length) := by
  unfold Vector.Emplace
  simp only [RawMemory.Capacity, Nat.le_refl, not_true_eq_false, if_false, h, if_true]
  rw [Mem.construct_mid ⟨A.map some ++ none :: rest, []⟩ Region.own A.length (A.map some) rest x
    rfl (by simp)]
  rfl

/-- Branch `size_ < Capacity()`, `pos != cend()`: the elements from `pos` on are
`B ++ [l]`. -/
theorem Vector.Emplace_middle (T : ElemOps α) (A B : List α) (l : α) (rest : Block α)
    (cap : Nat) (x : α) (h : A.length + B.length + 1 < cap) :
    Vector.Emplace T
        ⟨⟨A.map some ++ (B.map some ++ some l :: none :: rest), cap⟩, A.length + B.length + 1⟩
        A.length x =
      some (⟨⟨A.map some ++ some x :: (B.map some ++ some l :: rest), cap⟩,
        A.length + B.length + 1 + 1⟩, A.length) := by
  unfold Vector.Emplace
  have h1 : A.length ≤ A.length + B.length + 1 := by omega
  have h2 : ¬ (A.length = A.length + B.length + 1) := by omega
  simp only [RawMemory.Capacity, h1, not_true_eq_false, if_false, h, if_true, h2,
    Nat.add_sub_cancel]
  obtain ⟨j1, hj1⟩ := relocate_one_spec T Region.own
    (⟨A.map some ++ (B.map some ++ some l :: none :: rest), []⟩ : Mem α)
    (A.map some ++ B.map some) rest l (A.length + B.length) (by simp [Mem.block]) (by simp)
  obtain ⟨j2, hj2⟩ := moveBackwardLoop_spec T Region.own (A.map some) B
    (⟨A.map some ++ B.map some ++ some j1 :: some l :: rest, []⟩ : Mem α) (some l :: rest) j1
    A.length (by simp [Mem.block]) (by simp)
  have hj3 := Mem.assign_mid
    (⟨A.map some ++ some j2 :: (B.map some ++ some l :: rest), []⟩ : Mem α) Region.own A.length
    (A.map some) (B.map some ++ some l :: rest) j2 x rfl (by simp)
  by_cases hT : T.relocateByMove = true <;>
    simp only [hT, if_true, if_false, Bool.false_eq_true] at hj1 <;>
    simp only [hT, if_true, if_false, Option.pure_def, Option.bind_eq_bind, Option.some_bind,
      Option.none_bind, hj1, move_backward, true_and, Nat.le_add_right, if_true,
      Nat.add_sub_cancel_left, Mem.setBlock, hj2, hj3, Bool.false_eq_true]

theorem Allocate_split (a b c : Nat) (h : a + b + 1 ≤ c) :
    (List.replicate c none : Block α) =
      List.replicate a none ++ none :: (List.replicate b none ++
        List.replicate (c - (a + b + 1)) none) := by
  have e : c = a + (1 + (b + (c - (a + b + 1)))) := by omega
  conv_lhs => rw [e]
  rw [List.replicate_add, List.replicate_add, List.replicate_add]
  rfl

/-- Branch `size_ == Capacity()` (the `else` of `size_ < data_.Capacity()`): the elements
before `pos` are `A`, those from `pos` on are `B`. -/
theorem Vector.Emplace_realloc (T : ElemOps α) (A B : List α) (post : Block α) (cap : Nat)
    (x : α) (h : ¬ (A.length + B.length < cap)) :
    Vector.Emplace T ⟨⟨A.map some ++ (B.map some ++ post), cap⟩, A.length + B.length⟩
        A.length x =
      some (⟨⟨A.map some ++ some x :: (B.map some ++
          List.replicate ((if A.length + B.length = 0 then 1 else (A.length + B.length) * 2) -
            (A.length + B.length + 1)) none),
        if A.length + B.length = 0 then 1 else (A.length + B.length) * 2⟩,
        A.length + B.length + 1⟩, A.length) := by
  unfold Vector.Emplace
  generalize hc' : (if A.length + B.length = 0 then 1 else (A.length + B.length) * 2) = c'
  have hc0 : c' ≠ 0 := by rw [← hc']; split <;> omega
  have hcle : A.length + B.length + 1 ≤ c' := by rw [← hc']; split <;> omega
  simp only [RawMemory.Capacity, Nat.le_add_right, not_true_eq_false, if_false, h,
    RawMemory.sizedLive, hc', Allocate_split A.length B.length c' hcle]
  generalize List.replicate (c' - (A.length + B.length + 1)) (none : Option α) = R
  have hk := Mem.construct_mid
    (⟨A.map some ++ (B.map some ++ post),
      List.replicate A.length none ++ none :: (List.replicate B.length none ++ R)⟩ : Mem α)
    Region.ext A.length (List.replicate A.length none) (List.replicate B.length none ++ R) x
    rfl (by simp)
  obtain ⟨A', hA', hr1⟩ := relocate_spec T (show Region.own ≠ Region.ext by decide) A
    (⟨A.map some ++ (B.map some ++ post),
      List.replicate A.length none ++ some x :: (List.replicate B.length none ++ R)⟩ : Mem α)
    [] (B.map some ++ post) [] (some x :: (List.replicate B.length none ++ R)) 0 0
    (by simp [Mem.block]) (by simp [Mem.block]) rfl rfl
  obtain ⟨B', hB', hr2⟩ := relocate_spec T (show Region.own ≠ Region.ext by decide) B
    (⟨A'.map some ++ (B.map some ++ post),
      A.map some ++ some x :: (List.replicate B.length none ++ R)⟩ : Mem α)
    (A'.map some) post (A.map some ++ [some x]) R A.length (A.length + 1)
    (by simp [Mem.block]) (by simp [Mem.block]) (by simp [hA']) (by simp)
  have hd := destroy_n_spec Region.own (A' ++ B')
    (⟨A'.map some ++ (B'.map some ++ post), A.map some ++ some x :: (B.map some ++ R)⟩ : Mem α)
    [] post 0 (by simp [Mem.block]) rfl
  simp only [List.length_append, hA', hB'] at hd
  by_cases hT : T.relocateByMove = true <;>
    simp only [hT, if_true, if_false, Bool.false_eq_true, Mem.setBlock, List.nil_append,
      List.append_assoc, List.singleton_append, List.cons_append] at hr1 hr2 <;>
    simp only [hT, if_true, if_false, Bool.false_eq_true, Option.pure_def, Option.bind_eq_bind,
      Option.some_bind, hk, Mem.setBlock, hr1, Nat.add_sub_cancel_left, hr2, hd, RawMemory.Swap]

theorem replicate_none_succ (n k : Nat) (h : k < n) :
    List.replicate (n - k) (none : Option α) = none :: List.replicate (n - (k + 1)) none := by
  have e : n - k = (n - (k + 1)) + 1 := by omega
  rw [e, List.replicate_succ]

/-- `Emplace` at the offset that splits the live elements into `A` and `B`. -/
theorem Vector.Emplace_split (T : ElemOps α) (A B : List α) (cap : Nat) (x : α)
    (hcap : A.length + B.length ≤ cap) :
    Vector.Emplace T (Vector.ofList (A ++ B) cap) A.length x =
      some (Vector.ofList (A ++ x :: B) (emplaceCapacity (A.length + B.length) cap),
        A.length) := by
  by_cases hlt : A.length + B.length < cap
  · have hcapEq : emplaceCapacity (A.length + B.length) cap = cap := by
      simp [emplaceCapacity, hlt]
    rw [hcapEq]
    rcases List.eq_nil_or_concat B with hB | ⟨B', l, hB⟩
    · subst hB
      have h1 := Vector.Emplace_append T A (List.replicate (cap - (A.length + 1)) none) cap x
        (by simpa using hlt)
      have e := replicate_none_succ (α := α) cap A.length (by simpa using hlt)
      simp only [Vector.ofList, List.append_nil, List.length_append, List.length_cons,
        List.length_nil, List.map_append, List.map_cons, List.map_nil, e, Nat.zero_add]
      simpa using h1
    · subst hB
      simp only [List.concat_eq_append, List.length_append, List.length_singleton] at hlt hcap
      have h1 := Vector.Emplace_middle T A B' l
        (List.replicate (cap - (A.length + B'.length + 1 + 1)) none) cap x (by omega)
      have e := replicate_none_succ (α := α) cap (A.length + B'.length + 1) (by omega)
      simp only [Vector.ofList, List.concat_eq_append, List.length_append, List.length_cons,
        List.length_nil, List.map_append, List.map_cons, List.map_nil, Nat.zero_add,
        List.length_singleton, ← Nat.add_assoc, e, List.append_assoc, List.singleton_append,
        List.cons_append, List.nil_append]
      simpa [Nat.add_assoc, Nat.add_comm, Nat.add_left_comm] using h1
  · have h1 := Vector.Emplace_realloc T A B (List.replicate (cap - (A.length + B.length)) none)
      cap x hlt
    simp only [Vector.ofList, emplaceCapacity, hlt, if_false, List.length_append,
      List.length_cons, List.map_append, List.map_cons, List.append_assoc, List.cons_append]
    simpa [Nat.add_assoc, Nat.add_comm, Nat.add_left_comm] using h1

/-- `Emplace` on a well-formed container, as a function on its list of elements. -/
theorem Vector.Emplace_ofList (T : ElemOps α) (xs : List α) (cap i : Nat) (x : α)
    (hcap : xs.length ≤ cap) (hi : i ≤ xs.length) :
    Vector.Emplace T (Vector.ofList xs cap) i x =
      some (Vector.ofList (xs.take i ++ x :: xs.drop i) (emplaceCapacity xs.length cap), i) := by
  have hlen : (xs.take i).length = i := by simp [hi]
  have hsum : (xs.take i).length + (xs.drop i).length = xs.length := by
    rw [← List.length_append, List.take_append_drop]
  have h1 := Vector.Emplace_split T (xs.take i) (xs.drop i) cap x (by omega)
  rw [List.take_append_drop, hsum, hlen] at h1
  exact h1

end EmplaceLemmas

/-! ## Indexing and Erase -/

section EraseLemmas

variable {α : Type}

theorem Vector.index_ofList (xs : List α) (cap i : Nat) (h : xs.length ≤ cap) :
    (Vector.ofList xs cap).index i = xs[i]? := by
  unfold Vector.index
  by_cases hi : i < xs.length
  · have hc : i < cap := by omega
    have hg : (xs.map some ++ List.replicate (cap - xs.length) none)[i]? = some (some xs[i]) := by
      rw [List.getElem?_append_left (by simpa using hi)]
      simp [hi]
    simp only [Vector.ofList, hi, hc, and_self, if_true, hg]
    simp [hi]
  · simp only [Vector.ofList, hi, false_and, if_false]
    simp [Nat.le_of_not_lt hi]

theorem Vector.index_of_Inv {v : Vector α} (h : v.Inv) (i : Nat) : v.index i = v.toList[i]? := by
  have e := h.eq_ofList
  have hl := h.length_le
  rw [e, Vector.toList_ofList]
  exact Vector.index_ofList _ _ _ hl

/-- `Erase` at the offset of `z`, the live elements being `A ++ z :: B`. -/
theorem Vector.Erase_split (T : ElemOps α) (A B : List α) (z : α) (cap : Nat)
    (hcap : A.length + B.length + 1 ≤ cap) :
    Vector.Erase T (Vector.ofList (A ++ z :: B) cap) A.length =
      some (Vector.ofList (A ++ B) cap, A.length) := by
  unfold Vector.Erase
  have hlen : (A ++ z :: B).length = A.length + B.length + 1 := by
    simp [Nat.add_assoc]
  have h1 : A.length < A.length + B.length + 1 := by omega
  have h2 : A.length + 1 ≤ A.length + B.length + 1 := by omega
  have h3 : A.length + B.length + 1 - (A.length + 1) = B.length := by omega
  generalize hR : List.replicate (cap - (A.length + B.length + 1)) (none : Option α) = R
  obtain ⟨j, hj⟩ := moveLoop_spec T Region.own B
    (⟨A.map some ++ some z :: (B.map some ++ R), []⟩ : Mem α) (A.map some) R z A.length
    rfl (by simp)
  have hd := Mem.destroy_mid
    (⟨A.map some ++ (B.map some ++ some j :: R), []⟩ : Mem α) Region.own (A.length + B.length)
    (A.map some ++ B.map some) R j (by simp [Mem.block]) (by simp)
  have e := replicate_none_succ (α := α) cap (A.length + B.length) (by omega)
  rw [hR] at e
  simp only [Vector.ofList, hlen, h1, not_true_eq_false, if_false, List.map_append,
    List.map_cons, List.append_assoc, List.cons_append, hR, move, true_and, h2, if_true, h3,
    hj, Option.pure_def, Option.bind_eq_bind, Option.some_bind, Mem.setBlock,
    Nat.add_sub_cancel, destroy_n, hd, List.length_append, e]

/-- `Erase` on a well-formed container, as a function on its list of elements. -/
theorem Vector.Erase_ofList (T : ElemOps α) (xs : List α) (cap i : Nat)
    (hcap : xs.length ≤ cap) (hi : i < xs.length) :
    Vector.Erase T (Vector.ofList xs cap) i =
      some (Vector.ofList (xs.take i ++ xs.drop (i + 1)) cap, i) := by
  have hlen : (xs.take i).length = i := by simp [Nat.le_of_lt hi]
  have hx : xs = xs.take i ++ xs[i] :: xs.drop (i + 1) := by
    rw [List.getElem_cons_drop xs i hi, List.take_append_drop]
  have hsum : (xs.take i).length + (xs.drop (i + 1)).length + 1 = xs.length := by
    simp only [List.length_take, List.length_drop]; omega
  have h1 := Vector.Erase_split T (xs.take i) (xs.drop (i + 1)) xs[i] cap (by omega)
  rw [← hx, hlen] at h1
  exact h1

end EraseLemmas

/-! ## PushBack and growth -/

section Growth

variable {α : Type}

theorem emplaceCapacity_full (n : Nat) : emplaceCapacity n n = max 1 (2 * n) := by
  unfold emplaceCapacity
  by_cases h : n = 0
  · subst h; rfl
  · simp only [Nat.lt_irrefl, if_false, h]
    omega

theorem emplaceCapacity_spare {n c : Nat} (h : n < c) : emplaceCapacity n c = c := by
  simp [emplaceCapacity, h]

theorem emplaceCapacity_ne_iff {n c : Nat} (h : n ≤ c) : emplaceCapacity n c ≠ c ↔ n = c := by
  unfold emplaceCapacity
  by_cases hlt : n < c
  · simp only [hlt, if_true, ne_eq, not_true_eq_false, false_iff]; omega
  · have e : n = c := by omega
    subst e
    simp only [Nat.lt_irrefl, if_false, ne_eq, iff_true]
    split <;> omega

theorem succ_le_emplaceCapacity {n c : Nat} (h : n ≤ c) : n + 1 ≤ emplaceCapacity n c := by
  unfold emplaceCapacity
  split
  · omega
  · split <;> omega

/-- `PushBack` on a well-formed container, as a function on its list of elements. -/
theorem Vector.PushBack_ofList (T : ElemOps α) (xs : List α) (cap : Nat) (x : α)
    (hcap : xs.length ≤ cap) :
    Vector.PushBack T (Vector.ofList xs cap) x =
      some (Vector.ofList (xs ++ [x]) (emplaceCapacity xs.length cap)) := by
  have h := Vector.Emplace_ofList T xs cap xs.length x hcap (Nat.le_refl _)
  simp only [List.take_length, List.drop_length] at h
  simp only [Vector.PushBack, Vector.EmplaceBack, Vector.size_ofList, h, Option.pure_def,
    Option.bind_eq_bind, Option.some_bind]

theorem Vector.pushAll_append (T : ElemOps α) (ys zs : List α) :
    ∀ v : Vector α,
      Vector.pushAll T v (ys ++ zs) = (Vector.pushAll T v ys).bind fun u =>
        Vector.pushAll T u zs := by
  induction ys with
  | nil => intro v; rfl
  | cons y ys ih =>
    intro v
    simp only [List.cons_append, Vector.pushAll, Option.bind_eq_bind]
    cases Vector.PushBack T v y with
    | none => rfl
    | some u => simpa using ih u

theorem Doubling.step {n c : Nat} (h : Doubling n c) : Doubling (n + 1) (emplaceCapacity n c) := by
  rcases h with ⟨hn, hc⟩ | ⟨e, hc, hle, hlt⟩
  · subst hn; subst hc
    exact Or.inr ⟨0, rfl, by decide, by decide⟩
  · unfold emplaceCapacity
    by_cases hl : n < c
    · exact Or.inr ⟨e, by simp only [hl, if_true]; exact hc, by simp only [hl, if_true]; omega,
        by simp only [hl, if_true]; omega⟩
    · have e1 : n = c := by omega
      have hn0 : n ≠ 0 := by omega
      refine Or.inr ⟨e + 1, ?_, ?_, ?_⟩
      · simp only [hl, if_false, hn0]
        rw [e1, hc, Nat.pow_succ]
      · simp only [hl, if_false, hn0]; omega
      · simp only [hl, if_false, hn0]; omega

theorem Doubling.least {n c : Nat} (h : Doubling n c) (hn : 1 ≤ n) :
    ∃ e : Nat, c = 2 ^ e ∧ n ≤ c ∧ ∀ e' : Nat, n ≤ 2 ^ e' → c ≤ 2 ^ e' := by
  rcases h with ⟨hn0, _⟩ | ⟨e, hc, hle, hlt⟩
  · omega
  · refine ⟨e, hc, hle, ?_⟩
    intro e' he'
    by_contra hcon
    have hlt' : 2 ^ e' < 2 ^ e := by omega
    have hee : e' < e := (Nat.pow_lt_pow_iff_right (by decide)).mp hlt'
    have h2 : 2 ^ (e' + 1) ≤ 2 ^ e := Nat.pow_le_pow_right (by decide) hee
    rw [Nat.pow_succ] at h2
    omega

theorem Vector.pushAll_ofList (T : ElemOps α) (ys : List α) :
    ∀ (xs : List α) (cap : Nat), xs.length ≤ cap → Doubling xs.length cap →
      ∃ cap' : Nat, Vector.pushAll T (Vector.ofList xs cap) ys =
          some (Vector.ofList (xs ++ ys) cap') ∧
        (xs ++ ys).length ≤ cap' ∧ Doubling (xs ++ ys).length cap' := by
  induction ys with
  | nil =>
    intro xs cap hcap hd
    exact ⟨cap, by simp [Vector.pushAll], by simpa using hcap, by simpa using hd⟩
  | cons y ys ih =>
    intro xs cap hcap hd
    obtain ⟨cap', h1, h2, h3⟩ := ih (xs ++ [y]) (emplaceCapacity xs.length cap)
      (by simpa using succ_le_emplaceCapacity hcap) (by simpa using hd.step)
    refine ⟨cap', ?_, by simpa using h2, by simpa using h3⟩
    simp only [Vector.pushAll, Vector.PushBack_ofList T xs cap y hcap, Option.bind_eq_bind,
      Option.some_bind, h1]
    simp

theorem Vector.default_eq_ofList : (Vector.default : Vector α) = Vector.ofList [] 0 := rfl

end Growth

/-! ## Constructors and assignment -/

section Construction

variable {α : Type}

/-- When the byte count does not wrap, `Allocate` obtains the slots asked for. -/
theorem Allocate_eq (T : ElemOps α) (n : Nat) (hn : n * T.sizeofT < sizeModulus) :
    (RawMemory.Allocate T n : Block α) = List.replicate n none := by
  unfold RawMemory.Allocate
  by_cases h : n = 0
  · subst h; rfl
  · simp [h, Nat.mod_eq_of_lt hn, Nat.mul_div_cancel _ T.sizeofT_pos]

/-- When the byte count does not wrap, `RawMemory(capacity)` is a block of `capacity` slots. -/
theorem RawMemory.sized_eq_sizedLive (T : ElemOps α) (n : Nat)
    (hn : n * T.sizeofT < sizeModulus) :
    (RawMemory.sized T n : RawMemory α) = RawMemory.sizedLive n := by
  simp only [RawMemory.sized, RawMemory.sizedLive, Allocate_eq T n hn]

/-- The sized constructor, as a list of elements. -/
theorem Vector.sized_eq (T : ElemOps α) (n : Nat) (hn : n * T.sizeofT < sizeModulus) :
    Vector.sized T n = some (Vector.ofList (List.replicate n T.valueInit) n) := by
  have h := uninitialized_value_construct_n_spec T Region.own n
    (⟨List.replicate n none, []⟩ : Mem α) [] [] 0 (by simp [Mem.block]) rfl
  simp only [Vector.sized, RawMemory.sized, Allocate_eq T n hn, h, Option.pure_def,
    Option.bind_eq_bind, Option.some_bind, Mem.setBlock, Vector.ofList]
  simp

/-- The copy constructor on a well-formed source, as a function on its list of elements. -/
theorem Vector.copyCtor_ofList (xs : List α) (cap : Nat) :
    Vector.copyCtor (Vector.ofList xs cap) =
      some (Vector.ofList xs xs.length, Vector.ofList xs cap) := by
  have h := uninitialized_copy_n_spec (show Region.ext ≠ Region.own by decide) xs
    (⟨List.replicate xs.length none, xs.map some ++ List.replicate (cap - xs.length) none⟩ :
      Mem α)
    [] (List.replicate (cap - xs.length) none) [] [] 0 0 (by simp [Mem.block])
    (by simp [Mem.block]) rfl rfl
  simp only [Vector.copyCtor, Vector.ofList, RawMemory.sizedLive, h, Option.pure_def,
    Option.bind_eq_bind, Option.some_bind, Mem.setBlock]
  simp

/-- The destructor of a well-formed container destroys its live elements and releases a block
that holds no object. -/
theorem Vector.destructor_ofList (xs : List α) (cap : Nat) :
    Vector.destructor (Vector.ofList xs cap) =
      some (List.replicate xs.length none ++ List.replicate (cap - xs.length) none) := by
  have h := destroy_n_spec Region.own xs
    (⟨xs.map some ++ List.replicate (cap - xs.length) none, []⟩ : Mem α) []
    (List.replicate (cap - xs.length) none) 0 (by simp [Mem.block]) rfl
  simp only [Vector.destructor, Vector.ofList, h, Option.pure_def, Option.bind_eq_bind,
    Option.some_bind, Mem.setBlock]
  simp

/-- Copy assignment, branch `rhs.size_ > data_.Capacity()`. -/
theorem Vector.copyAssign_realloc (xs ys : List α) (cap capb : Nat) (h : cap < ys.length) :
    Vector.copyAssign (Vector.ofList xs cap) (Vector.ofList ys capb) =
      some (Vector.ofList ys ys.length, Vector.ofList ys capb) := by
  unfold Vector.copyAssign
  simp only [Vector.size_ofList, RawMemory.Capacity, Vector.capacity_ofList, gt_iff_lt, h,
    if_true, Vector.copyCtor_ofList, Option.pure_def, Option.bind_eq_bind, Option.some_bind]
  have hsw : (Vector.ofList xs cap).Swap (Vector.ofList ys ys.length) =
      (Vector.ofList ys ys.length, Vector.ofList xs cap) := rfl
  rw [hsw]
  simp only [Vector.destructor_ofList, Option.some_bind]

/-- Copy assignment in place, the source being shorter than the target: the target holds
`X1 ++ X2` with `X1` as long as the source `ys`. -/
theorem Vector.copyAssign_shrink (X1 X2 ys : List α) (cap capb : Nat)
    (hl : X1.length = ys.length) (h2 : X2 ≠ []) (hcap : X1.length + X2.length ≤ cap) :
    Vector.copyAssign (Vector.ofList (X1 ++ X2) cap) (Vector.ofList ys capb) =
      some (Vector.ofList ys cap, Vector.ofList ys capb) := by
  unfold Vector.copyAssign
  have hX2 : 0 < X2.length := List.length_pos.mpr h2
  have hn : ¬ (X1.length + X2.length < ys.length) := by omega
  have hn' : ¬ (cap < ys.length) := by omega
  have hlt : ys.length < X1.length + X2.length := by omega
  have hmin : min ys.length (X1.length + X2.length) = ys.length := by omega
  have hsub : X1.length + X2.length - ys.length = X2.length := by omega
  generalize hR : List.replicate (cap - (X1.length + X2.length)) (none : Option α) = R
  generalize hRb : List.replicate (capb - ys.length) (none : Option α) = Rb
  have hc := copyLoop_spec (show Region.ext ≠ Region.own by decide) ys X1
    (⟨X1.map some ++ (X2.map some ++ R), ys.map some ++ Rb⟩ : Mem α) [] Rb []
    (X2.map some ++ R) 0 0 hl (by simp [Mem.block]) (by simp [Mem.block]) rfl rfl
  have hd := destroy_n_spec Region.own X2
    (⟨ys.map some ++ (X2.map some ++ R), ys.map some ++ Rb⟩ : Mem α) (ys.map some) R
    ys.length (by simp [Mem.block]) (by simp)
  have hrep : List.replicate (cap - ys.length) (none : Option α) =
      List.replicate X2.length none ++ R := by
    rw [← hR, ← List.replicate_add]
    congr 1
    omega
  simp only [Vector.ofList, List.length_append, RawMemory.Capacity, gt_iff_lt, hn', if_false,
    List.map_append, List.append_assoc, hR, hRb, copy, true_and, Nat.zero_le, if_true, hmin,
    Nat.sub_zero, hc, Option.pure_def, Option.bind_eq_bind, Option.some_bind, Mem.setBlock,
    List.nil_append, hlt, hsub, hd, hrep]

/-- Copy assignment in place, the source being at least as long as the target: the source
holds `Y1 ++ Y2` with `Y1` as long as the target `xs`. -/
theorem Vector.copyAssign_grow (xs Y1 Y2 : List α) (cap capb : Nat)
    (hl : xs.length = Y1.length) (hcap : Y1.length + Y2.length ≤ cap) :
    Vector.copyAssign (Vector.ofList xs cap) (Vector.ofList (Y1 ++ Y2) capb) =
      some (Vector.ofList (Y1 ++ Y2) cap, Vector.ofList (Y1 ++ Y2) capb) := by
  unfold Vector.copyAssign
  have hn' : ¬ (cap < Y1.length + Y2.length) := by omega
  have hlt : ¬ (Y1.length + Y2.length < xs.length) := by omega
  have hmin : min (Y1.length + Y2.length) xs.length = Y1.length := by omega
  have hsub : Y1.length + Y2.length - xs.length = Y2.length := by omega
  generalize hRb : List.replicate (capb - (Y1.length + Y2.length)) (none : Option α) = Rb
  have hrep : List.replicate (cap - xs.length) (none : Option α) =
      List.replicate Y2.length none ++ List.replicate (cap - (Y1.length + Y2.length)) none := by
    rw [← List.replicate_add]
    congr 1
    omega
  generalize hR : List.replicate (cap - (Y1.length + Y2.length)) (none : Option α) = R at hrep
  have hc := copyLoop_spec (show Region.ext ≠ Region.own by decide) Y1 xs
    (⟨xs.map some ++ (List.replicate Y2.length none ++ R),
      Y1.map some ++ (Y2.map some ++ Rb)⟩ : Mem α) [] (Y2.map some ++ Rb) []
    (List.replicate Y2.length none ++ R) 0 0 hl (by simp [Mem.block]) (by simp [Mem.block])
    rfl rfl
  have hu := uninitialized_copy_n_spec (show Region.ext ≠ Region.own by decide) Y2
    (⟨Y1.map some ++ (List.replicate Y2.length none ++ R),
      Y1.map some ++ (Y2.map some ++ Rb)⟩ : Mem α) (Y1.map some) Rb (Y1.map some) R
    xs.length xs.length (by simp [Mem.block]) (by simp [Mem.block]) (by simp [hl])
    (by simp [hl])
  simp only [Vector.ofList, List.length_append, RawMemory.Capacity, gt_iff_lt, hn', if_false,
    List.map_append, List.append_assoc, hR, hRb, copy, true_and, Nat.zero_le, if_true, hmin,
    Nat.sub_zero, hc, Option.pure_def, Option.bind_eq_bind, Option.some_bind, Mem.setBlock,
    List.nil_append, hlt, hsub, hu, hrep]

/-- Copy assignment between well-formed containers, as a function on their lists of
elements. -/
theorem Vector.copyAssign_ofList (xs ys : List α) (cap capb : Nat) (hcap : xs.length ≤ cap) :
    Vector.copyAssign (Vector.ofList xs cap) (Vector.ofList ys capb) =
      some (Vector.ofList ys (if ys.length > cap then ys.length else cap),
        Vector.ofList ys capb) := by
  by_cases h : cap < ys.length
  · simp only [gt_iff_lt, h, if_true]
    exact Vector.copyAssign_realloc xs ys cap capb h
  · simp only [gt_iff_lt, h, if_false]
    by_cases hs : ys.length < xs.length
    · have h1 := Vector.copyAssign_shrink (xs.take ys.length) (xs.drop ys.length) ys cap capb
        (by simp [Nat.le_of_lt hs])
        (by intro hnil; have := congrArg List.length hnil; simp at this; omega)
        (by rw [← List.length_append, List.take_append_drop]; exact hcap)
      rw [List.take_append_drop] at h1
      exact h1
    · have h1 := Vector.copyAssign_grow xs (ys.take xs.length) (ys.drop xs.length) cap capb
        (by simp [Nat.le_of_not_lt hs])
        (by rw [← List.length_append, List.take_append_drop]; omega)
      rw [List.take_append_drop] at h1
      exact h1

end Construction

/-! ## Reserve, Resize and PopBack -/

section CapacityOps

variable {α : Type}

theorem replicate_none_split (c k : Nat) (h : k ≤ c) :
    List.replicate c (none : Option α) = List.replicate k none ++ List.replicate (c - k) none := by
  rw [← List.replicate_add]
  congr 1
  omega

/-- `Reserve` with `new_capacity > Capacity()`, on a well-formed container. -/
theorem Vector.Reserve_grow (T : ElemOps α) (xs : List α) (cap n : Nat)
    (hcap : xs.length ≤ cap) (hn : cap < n) (hfit : n * T.sizeofT < sizeModulus) :
    Vector.Reserve T (Vector.ofList xs cap) n = some (Vector.ofList xs n) := by
  unfold Vector.Reserve
  have hn' : ¬ (n ≤ cap) := by omega
  generalize hR : List.replicate (cap - xs.length) (none : Option α) = R
  obtain ⟨xs', hl, hr⟩ := relocate_spec T (show Region.own ≠ Region.ext by decide) xs
    (⟨xs.map some ++ R, List.replicate xs.length none ++ List.replicate (n - xs.length) none⟩ :
      Mem α)
    [] R [] (List.replicate (n - xs.length) none) 0 0 (by simp [Mem.block])
    (by simp [Mem.block]) rfl rfl
  have hd := destroy_n_spec Region.own xs'
    (⟨xs'.map some ++ R, xs.map some ++ List.replicate (n - xs.length) none⟩ : Mem α) [] R 0
    (by simp [Mem.block]) rfl
  rw [hl] at hd
  by_cases hT : T.relocateByMove = true <;>
    simp only [hT, if_true, if_false, Bool.false_eq_true, Mem.setBlock, List.nil_append,
      List.append_assoc] at hr <;>
    simp only [Vector.ofList, RawMemory.Capacity, hn', if_false, hR, RawMemory.sized,
      Allocate_eq T n hfit, replicate_none_split n xs.length (by omega), hT, if_true,
      Bool.false_eq_true, hr, Option.pure_def, Option.bind_eq_bind, Option.some_bind, hd,
      RawMemory.Swap, Mem.setBlock]

/-- `Reserve` on a well-formed container, as a function on its list of elements. -/
theorem Vector.Reserve_ofList (T : ElemOps α) (xs : List α) (cap n : Nat)
    (hcap : xs.length ≤ cap) (hfit : n ≤ cap ∨ n * T.sizeofT < sizeModulus) :
    Vector.Reserve T (Vector.ofList xs cap) n = some (Vector.ofList xs (max cap n)) := by
  by_cases h : n ≤ cap
  · have e : max cap n = cap := by omega
    rw [e]
    simp [Vector.Reserve, RawMemory.Capacity, h]
  · have e : max cap n = n := by omega
    rw [e]
    exact Vector.Reserve_grow T xs cap n hcap (by omega) (hfit.resolve_left h)

/-- `PopBack` on a non-empty well-formed container. -/
theorem Vector.PopBack_concat (xs : List α) (l : α) (cap : Nat)
    (hcap : xs.length + 1 ≤ cap) :
    Vector.PopBack (Vector.ofList (xs ++ [l]) cap) = some (Vector.ofList xs cap) := by
  unfold Vector.PopBack
  have hd := Mem.destroy_mid
    (⟨xs.map some ++ some l :: List.replicate (cap - (xs.length + 1)) none, []⟩ : Mem α)
    Region.own xs.length (xs.map some) (List.replicate (cap - (xs.length + 1)) none) l rfl
    (by simp)
  have e := replicate_none_succ (α := α) cap xs.length (by omega)
  simp only [Vector.ofList, List.length_append, List.length_singleton, gt_iff_lt,
    Nat.zero_lt_succ, if_true, Nat.add_sub_cancel, List.map_append, List.map_cons,
    List.map_nil, List.append_assoc, List.singleton_append, destroy_n, hd, Option.pure_def,
    Option.bind_eq_bind, Option.some_bind, Mem.setBlock, e]

/-- `PopBack` on a well-formed container, as a function on its list of elements. -/
theorem Vector.PopBack_ofList (xs : List α) (cap : Nat) (hcap : xs.length ≤ cap) :
    Vector.PopBack (Vector.ofList xs cap) = some (Vector.ofList xs.dropLast cap) := by
  rcases List.eq_nil_or_concat xs with h | ⟨ys, l, h⟩
  · subst h
    rfl
  · subst h
    simp only [List.concat_eq_append, List.length_append, List.length_singleton] at hcap
    rw [List.concat_eq_append, List.dropLast_concat]
    exact Vector.PopBack_concat ys l cap hcap

/-- `Resize` to fewer elements: the live elements are `A ++ B`, `B` non-empty, and `A` stays. -/
theorem Vector.Resize_shrink (T : ElemOps α) (A B : List α) (cap : Nat) (hB : 0 < B.length)
    (hcap : A.length + B.length ≤ cap) :
    Vector.Resize T (Vector.ofList (A ++ B) cap) A.length = some (Vector.ofList A cap) := by
  unfold Vector.Resize
  have h1 : A.length < A.length + B.length := by omega
  have h2 : A.length + B.length - A.length = B.length := by omega
  generalize hR : List.replicate (cap - (A.length + B.length)) (none : Option α) = R
  have hd := destroy_n_spec Region.own B (⟨A.map some ++ (B.map some ++ R), []⟩ : Mem α)
    (A.map some) R A.length (by simp [Mem.block]) (by simp)
  have hrep : List.replicate (cap - A.length) (none : Option α) =
      List.replicate B.length none ++ R := by
    rw [← hR, ← List.replicate_add]
    congr 1
    omega
  simp only [Vector.ofList, List.length_append, h1, if_true, h2, List.map_append,
    List.append_assoc, hR, hd, Option.pure_def, Option.bind_eq_bind, Option.some_bind,
    Mem.setBlock, hrep]

/-- `Resize` to more elements, on a well-formed container. -/
theorem Vector.Resize_grow (T : ElemOps α) (xs : List α) (cap n : Nat)
    (hcap : xs.length ≤ cap) (hn : xs.length < n)
    (hfit : n ≤ cap ∨ n * T.sizeofT < sizeModulus) :
    Vector.Resize T (Vector.ofList xs cap) n =
      some (Vector.ofList (xs ++ List.replicate (n - xs.length) T.valueInit) (max cap n)) := by
  unfold Vector.Resize
  have h1 : ¬ (n < xs.length) := by omega
  have hrep : List.replicate (max cap n - xs.length) (none : Option α) =
      List.replicate (n - xs.length) none ++ List.replicate (max cap n - n) none := by
    rw [← List.replicate_add]
    congr 1
    omega
  have hu := uninitialized_value_construct_n_spec T Region.own (n - xs.length)
    (⟨xs.map some ++ (List.replicate (n - xs.length) none ++
      List.replicate (max cap n - n) none), []⟩ : Mem α)
    (xs.map some) (List.replicate (max cap n - n) none) xs.length (by simp [Mem.block])
    (by simp)
  have hlen : xs.length + (n - xs.length) = n := by omega
  simp only [Vector.size_ofList, h1, if_false, gt_iff_lt, hn, if_true,
    Vector.Reserve_ofList T xs cap n hcap hfit, Option.pure_def, Option.bind_eq_bind,
    Option.some_bind]
  simp only [Vector.ofList, hrep, hu, Option.some_bind, Mem.setBlock, List.map_append,
    List.map_replicate, List.length_append, List.length_replicate, hlen, List.append_assoc]

/-- `Resize` on a well-formed container, as a function on its list of elements. -/
theorem Vector.Resize_ofList (T : ElemOps α) (xs : List α) (cap n : Nat)
    (hcap : xs.length ≤ cap) (hfit : n ≤ cap ∨ n * T.sizeofT < sizeModulus) :
    Vector.Resize T (Vector.ofList xs cap) n =
      some (if n ≤ xs.length then Vector.ofList (xs.take n) cap
        else Vector.ofList (xs ++ List.replicate (n - xs.length) T.valueInit) (max cap n)) := by
  by_cases hlt : n < xs.length
  · have h1 := Vector.Resize_shrink T (xs.take n) (xs.drop n) cap
      (by simp only [List.length_drop]; omega)
      (by rw [← List.length_append, List.take_append_drop]; exact hcap)
    rw [List.take_append_drop, List.length_take, Nat.min_eq_left (Nat.le_of_lt hlt)] at h1
    rw [if_pos (Nat.le_of_lt hlt)]
    exact h1
  · by_cases hgt : xs.length < n
    · rw [if_neg (by omega)]
      exact Vector.Resize_grow T xs cap n hcap hgt hfit
    · have e : n = xs.length := by omega
      subst e
      simp [Vector.Resize]

end CapacityOps

/-! ## The operations on a well-formed container -/

section WellFormed

variable {α : Type}

theorem Vector.Inv_default : (Vector.default : Vector α).Inv :=
  Vector.Inv_ofList [] 0 (Nat.le_refl _)

theorem Vector.Emplace_of_Inv (T : ElemOps α) {v : Vector α} (i : Nat) (x : α) (hv : v.Inv)
    (hi : i ≤ v.Size) :
    Vector.Emplace T v i x =
      some (Vector.ofList (v.toList.take i ++ x :: v.toList.drop i)
        (emplaceCapacity v.Size v.Capacity), i) := by
  have h := Vector.Emplace_ofList T v.toList v.data_.capacity_ i x hv.length_le
    (by rw [hv.2.2]; exact hi)
  rw [← hv.eq_ofList, hv.2.2] at h
  exact h

theorem Vector.length_insert_of_Inv {v : Vector α} (i : Nat) (x : α) (hv : v.Inv)
    (hi : i ≤ v.Size) :
    (v.toList.take i ++ x :: v.toList.drop i).length = v.Size + 1 := by
  have hsz : v.toList.length = v.Size := hv.2.2
  simp only [List.length_append, List.length_take, List.length_cons, List.length_drop]
  omega

theorem Vector.PushBack_of_Inv (T : ElemOps α) {v : Vector α} (x : α) (hv : v.Inv) :
    Vector.PushBack T v x =
      some (Vector.ofList (v.toList ++ [x]) (emplaceCapacity v.Size v.Capacity)) := by
  have h := Vector.PushBack_ofList T v.toList v.data_.capacity_ x hv.length_le
  rw [← hv.eq_ofList, hv.2.2] at h
  exact h

theorem Vector.EmplaceBack_of_Inv (T : ElemOps α) {v : Vector α} (x : α) (hv : v.Inv) :
    Vector.EmplaceBack T v x =
      some (Vector.ofList (v.toList ++ [x]) (emplaceCapacity v.Size v.Capacity), v.Size) := by
  have h := Vector.Emplace_of_Inv T v.Size x hv (Nat.le_refl _)
  have hsz : v.toList.length = v.Size := hv.2.2
  have ht : List.take v.Size v.toList = v.toList :=
    List.take_of_length_le (Nat.le_of_eq hsz)
  have hd : List.drop v.Size v.toList = [] :=
    List.drop_of_length_le (Nat.le_of_eq hsz)
  rw [ht, hd] at h
  exact h

theorem Vector.Erase_of_Inv (T : ElemOps α) {v : Vector α} (i : Nat) (hv : v.Inv)
    (hi : i < v.Size) :
    Vector.Erase T v i =
      some (Vector.ofList (v.toList.take i ++ v.toList.drop (i + 1)) v.Capacity, i) := by
  have h := Vector.Erase_ofList T v.toList v.data_.capacity_ i hv.length_le
    (by rw [hv.2.2]; exact hi)
  rw [← hv.eq_ofList] at h
  exact h

theorem Vector.length_erase_of_Inv {v : Vector α} (i : Nat) (hv : v.Inv) (hi : i < v.Size) :
    (v.toList.take i ++ v.toList.drop (i + 1)).length = v.Size - 1 := by
  have hsz : v.toList.length = v.Size := hv.2.2
  simp only [List.length_append, List.length_take, List.length_drop]
  omega

theorem Vector.PopBack_of_Inv {v : Vector α} (hv : v.Inv) :
    Vector.PopBack v = some (Vector.ofList v.toList.dropLast v.Capacity) := by
  have h := Vector.PopBack_ofList v.toList v.data_.capacity_ hv.length_le
  rw [← hv.eq_ofList] at h
  exact h

theorem Vector.Reserve_of_Inv (T : ElemOps α) {v : Vector α} (n : Nat) (hv : v.Inv)
    (hfit : n ≤ v.Capacity ∨ n * T.sizeofT < sizeModulus) :
    Vector.Reserve T v n = some (Vector.ofList v.toList (max v.Capacity n)) := by
  have h := Vector.Reserve_ofList T v.toList v.data_.capacity_ n hv.length_le hfit
  rw [← hv.eq_ofList] at h
  exact h

theorem Vector.Resize_of_Inv (T : ElemOps α) {v : Vector α} (n : Nat) (hv : v.Inv)
    (hfit : n ≤ v.Capacity ∨ n * T.sizeofT < sizeModulus) :
    Vector.Resize T v n =
      some (if n ≤ v.Size then Vector.ofList (v.toList.take n) v.Capacity
        else Vector.ofList (v.toList ++ List.replicate (n - v.Size) T.valueInit)
          (max v.Capacity n)) := by
  have h := Vector.Resize_ofList T v.toList v.data_.capacity_ n hv.length_le hfit
  rw [← hv.eq_ofList, hv.2.2] at h
  exact h

theorem Vector.copyCtor_of_Inv {w : Vector α} (hw : w.Inv) :
    Vector.copyCtor w = some (Vector.ofList w.toList w.Size, w) := by
  have h := Vector.copyCtor_ofList w.toList w.data_.capacity_
  rw [← hw.eq_ofList, hw.2.2] at h
  exact h

theorem Vector.copyAssign_of_Inv {v w : Vector α} (hv : v.Inv) (hw : w.Inv) :
    Vector.copyAssign v w =
      some (Vector.ofList w.toList (if w.Size > v.Capacity then w.Size else v.Capacity), w) := by
  have h := Vector.copyAssign_ofList v.toList w.toList v.data_.capacity_ w.data_.capacity_
    hv.length_le
  rw [← hv.eq_ofList, ← hw.eq_ofList, hw.2.2] at h
  exact h

theorem Vector.Inv.size_le {v : Vector α} (h : v.Inv) : v.Size ≤ v.Capacity := h.1

end WellFormed

/-! ## The standard algorithms when element operations throw -/

section Throwing

variable {α : Type}

@[simp] theorem Outcome.andThen_done {σ : Type} (s : σ) (f : σ → Outcome σ σ) :
    (Outcome.done s : Outcome σ σ).andThen f = f s := rfl

@[simp] theorem Outcome.andThen_threw {σ : Type} (s : σ) (f : σ → Outcome σ σ) :
    (Outcome.threw s : Outcome σ σ).andThen f = Outcome.threw s := rfl

@[simp] theorem Outcome.onThrow_done {σ : Type} (s : σ) (h : σ → Option σ) :
    (Outcome.done s : Outcome σ σ).onThrow h = Outcome.done s := rfl

theorem Outcome.onThrow_threw {σ : Type} (s s' : σ) (h : σ → Option σ) (hs : h s = some s') :
    (Outcome.threw s : Outcome σ σ).onThrow h = Outcome.threw s' := by
  simp only [Outcome.onThrow, hs]

@[simp] theorem Outcome.mapBoth_done {σ δ τ : Type} (s : σ) (f : σ → δ) (g : σ → τ) :
    (Outcome.done s : Outcome σ σ).mapBoth f g = Outcome.done (f s) := rfl

@[simp] theorem Outcome.mapBoth_threw {σ δ τ : Type} (s : σ) (f : σ → δ) (g : σ → τ) :
    (Outcome.threw s : Outcome σ σ).mapBoth f g = Outcome.threw (g s) := rfl

@[simp] theorem Outcome.ofOption_some {δ τ : Type} (r : δ) :
    (Outcome.ofOption (some r) : Outcome δ τ) = Outcome.done r := rfl

theorem uninitialized_copy_nE_spec (T : ThrowOps α) {rs rd : Region} (hne : rs ≠ rd)
    (ys : List α) :
    ∀ (m : Mem α) (spre spost dpre dpost : Block α) (ks kd : Nat),
      m.block rs = spre ++ ys.map some ++ spost →
      m.block rd = dpre ++ List.replicate ys.length none ++ dpost →
      ks = spre.length → kd = dpre.length →
      uninitialized_copy_nE T m ⟨rs, ks⟩ ys.length ⟨rd, kd⟩ =
        if ys.any T.copyThrows then Outcome.threw m
        else Outcome.done (m.setBlock rd (dpre ++ ys.map some ++ dpost)) := by
  induction ys with
  | nil =>
    intro m spre spost dpre dpost ks kd _ hd _ _
    simp only [uninitialized_copy_nE, List.length_nil, List.replicate_zero, List.map_nil,
      List.any_nil, Bool.false_eq_true, if_false] at hd ⊢
    rw [← hd, Mem.setBlock_block]
  | cons y ys ih =>
    intro m spre spost dpre dpost ks kd hs hd hks hkd
    have hs1 : m.block rs = spre ++ some y :: (ys.map some ++ spost) := by
      rw [hs]; simp
    have hd1 : m.block rd = dpre ++ none :: (List.replicate ys.length none ++ dpost) := by
      rw [hd, List.length_cons, List.replicate_succ]; simp
    rw [List.length_cons, uninitialized_copy_nE, Mem.copyConstructE,
      Mem.load_mid m rs ks spre _ y hs1 hks]
    simp only [Mem.constructE, List.any_cons]
    by_cases hy : T.copyThrows y = true
    · simp only [hy, if_true, Outcome.andThen_threw, Bool.true_or]
    · simp only [hy, Bool.false_eq_true, if_false, Bool.false_or,
        Mem.construct_mid m rd kd dpre _ y hd1 hkd, Outcome.ofOption_some,
        Outcome.andThen_done, Ptr.add]
      rw [ih _ (spre ++ [some y]) spost (dpre ++ [some y]) dpost (ks + 1) (kd + 1)
        (by rw [Mem.block_setBlock_ne _ _ (Ne.symm hne), hs1]; simp) (by simp)
        (by simp [hks]) (by simp [hkd])]
      by_cases hany : ys.any T.copyThrows = true
      · simp only [hany, if_true]
        rw [Outcome.onThrow_threw _ m _
          (by rw [Mem.destroy_mid _ rd kd dpre (List.replicate ys.length none ++ dpost) y
                (by simp) hkd, Mem.setBlock_setBlock, ← hd1, Mem.setBlock_block])]
      · simp only [hany, Bool.false_eq_true, if_false, Outcome.onThrow_done,
          Mem.setBlock_setBlock]
        simp

theorem ThrowOps.length_afterFailedMove (T : ThrowOps α) (ys : List α) :
    (T.afterFailedMove ys).length = ys.length := by
  induction ys with
  | nil => rfl
  | cons y ys ih =>
    simp only [ThrowOps.afterFailedMove]
    split
    · rfl
    · simp [ih]

theorem ThrowOps.afterFailedMove_of_none (T : ThrowOps α) (ys : List α)
    (h : ys.any T.moveFails = false) : T.afterFailedMove ys = ys.map T.movedFrom := by
  induction ys with
  | nil => rfl
  | cons y ys ih =>
    simp only [List.any_cons, Bool.or_eq_false_iff] at h
    simp [ThrowOps.afterFailedMove, h.1, ih h.2]

theorem ThrowOps.afterFailedMove_append (T : ThrowOps α) (A B : List α) :
    T.afterFailedMove (A ++ B) =
      if A.any T.moveFails then T.afterFailedMove A ++ B
      else A.map T.movedFrom ++ T.afterFailedMove B := by
  induction A with
  | nil => simp [ThrowOps.afterFailedMove]
  | cons a A ih =>
    by_cases ha : T.moveFails a = true
    · simp [ThrowOps.afterFailedMove, ha]
    · simp only [Bool.not_eq_true] at ha
      have e : T.afterFailedMove (a :: (A ++ B)) =
          T.movedFrom a :: T.afterFailedMove (A ++ B) := by
        simp [ThrowOps.afterFailedMove, ha]
      have e' : T.afterFailedMove (a :: A) = T.movedFrom a :: T.afterFailedMove A := by
        simp [ThrowOps.afterFailedMove, ha]
      rw [List.cons_append, e, ih, e']
      simp only [List.any_cons, ha, Bool.false_or, List.map_cons, List.cons_append]
      split <;> rfl

theorem Mem.moveConstruct_mid (T : ElemOps α) {rs rd : Region} (hne : rs ≠ rd) (m : Mem α)
    (spre spost dpre dpost : Block α) (y : α) (ks kd : Nat)
    (hs : m.block rs = spre ++ some y :: spost) (hd : m.block rd = dpre ++ none :: dpost)
    (hks : ks = spre.length) (hkd : kd = dpre.length) :
    m.moveConstruct T ⟨rd, kd⟩ ⟨rs, ks⟩ =
      some ((m.setBlock rd (dpre ++ some y :: dpost)).setBlock rs
        (spre ++ some (T.movedFrom y) :: spost)) := by
  rw [Mem.moveConstruct, Mem.load_mid m rs ks spre _ y hs hks]
  simp only [Option.bind_eq_bind, Option.some_bind]
  rw [Mem.construct_mid m rd kd dpre _ y hd hkd]
  simp only [Option.some_bind]
  rw [Mem.assign_mid _ rs ks spre spost y (T.movedFrom y)
    (by rw [Mem.block_setBlock_ne _ _ (Ne.symm hne), hs]) hks]

theorem uninitialized_move_nE_spec (T : ThrowOps α) {rs rd : Region} (hne : rs ≠ rd)
    (ys : List α) :
    ∀ (m : Mem α) (spre spost dpre dpost : Block α) (ks kd : Nat),
      m.block rs = spre ++ ys.map some ++ spost →
      m.block rd = dpre ++ List.replicate ys.length none ++ dpost →
      ks = spre.length → kd = dpre.length →
      uninitialized_move_nE T m ⟨rs, ks⟩ ys.length ⟨rd, kd⟩ =
        if ys.any T.moveFails then
          Outcome.threw (m.setBlock rs (spre ++ (T.afterFailedMove ys).map some ++ spost))
        else
          Outcome.done ((m.setBlock rd (dpre ++ ys.map some ++ dpost)).setBlock rs
            (spre ++ (ys.map T.movedFrom).map some ++ spost)) := by
  induction ys with
  | nil =>
    intro m spre spost dpre dpost ks kd hs hd _ _
    simp only [uninitialized_move_nE, List.length_nil, List.replicate_zero, List.map_nil,
      List.any_nil, Bool.false_eq_true, if_false] at hs hd ⊢
    rw [← hd, Mem.setBlock_block, ← hs, Mem.setBlock_block]
  | cons y ys ih =>
    intro m spre spost dpre dpost ks kd hs hd hks hkd
    have hs1 : m.block rs = spre ++ some y :: (ys.map some ++ spost) := by
      rw [hs]; simp
    have hd1 : m.block rd = dpre ++ none :: (List.replicate ys.length none ++ dpost) := by
      rw [hd, List.length_cons, List.replicate_succ]; simp
    rw [List.length_cons, uninitialized_move_nE, Mem.moveConstructE,
      Mem.load_mid m rs ks spre _ y hs1 hks]
    simp only [List.any_cons, ThrowOps.afterFailedMove]
    by_cases hy : T.moveFails y = true
    · simp only [hy, if_true, Bool.true_or,
        Mem.assign_mid m rs ks spre _ y (T.failedMove y) hs1 hks, Outcome.threwOf,
        Outcome.andThen_threw]
      simp
    · simp only [hy, Bool.false_eq_true, if_false, Bool.false_or,
        Mem.moveConstruct_mid T.toElemOps hne m spre _ dpre _ y ks kd hs1 hd1 hks hkd,
        Outcome.ofOption_some, Outcome.andThen_done, Ptr.add]
      rw [ih _ (spre ++ [some (T.movedFrom y)]) spost (dpre ++ [some y]) dpost (ks + 1) (kd + 1)
        (by simp) (by rw [Mem.block_setBlock_ne _ _ hne]; simp) (by simp [hks])
        (by simp [hkd])]
      by_cases hany : ys.any T.moveFails = true
      · simp only [hany, if_true]
        rw [Outcome.onThrow_threw _
          (m.setBlock rs (spre ++ (T.movedFrom y :: T.afterFailedMove ys).map some ++ spost))]
        rw [Mem.destroy_mid _ rd kd dpre (List.replicate ys.length none ++ dpost) y
          (by rw [Mem.block_setBlock_ne _ _ hne, Mem.block_setBlock_ne _ _ hne,
            Mem.block_setBlock_same]) hkd]
        cases m with
        | mk o e =>
          cases rs <;> cases rd <;>
            first
            | exact absurd rfl hne
            | (simp only [Mem.block] at hd1
               simp [Mem.setBlock, hd1])
      · simp only [hany, Bool.false_eq_true, if_false, Outcome.onThrow_done]
        cases rs <;> cases rd <;> first | exact absurd rfl hne | simp [Mem.setBlock]

theorem ThrowOps.length_afterFailedCopy (T : ThrowOps α) (zs ys : List α) :
    (T.afterFailedCopy zs ys).length = zs.length := by
  induction zs generalizing ys with
  | nil => cases ys <;> rfl
  | cons z zs ih =>
    cases ys with
    | nil => rfl
    | cons y ys =>
      simp only [ThrowOps.afterFailedCopy]
      split
      · rfl
      · simp [ih]

/-- When no assignment throws, `std::copy` leaves the source's values. -/
theorem ThrowOps.afterFailedCopy_of_none (T : ThrowOps α) (zs ys : List α)
    (hl : zs.length = ys.length)
    (h : (zs.zip ys).any (fun p => T.copyAssignThrows p.1 p.2) = false) :
    T.afterFailedCopy zs ys = ys := by
  induction zs generalizing ys with
  | nil =>
    cases ys with
    | nil => rfl
    | cons y ys => simp at hl
  | cons z zs ih =>
    cases ys with
    | nil => simp at hl
    | cons y ys =>
      simp only [List.zip_cons_cons, List.any_cons, Bool.or_eq_false_iff] at h
      simp only [ThrowOps.afterFailedCopy, h.1, Bool.false_eq_true, if_false]
      rw [ih ys (by simpa using hl) h.2]

/-- The targets beyond the source's length are not part of the copy. -/
theorem ThrowOps.afterFailedCopy_append_left (T : ThrowOps α) (X1 X2 ys : List α)
    (hl : X1.length = ys.length) :
    T.afterFailedCopy (X1 ++ X2) ys = T.afterFailedCopy X1 ys ++ X2 := by
  induction X1 generalizing ys with
  | nil =>
    cases ys with
    | nil => cases X2 <;> rfl
    | cons y ys => simp at hl
  | cons z zs ih =>
    cases ys with
    | nil => simp at hl
    | cons y ys =>
      have e := ih ys (by simpa using hl)
      by_cases hy : T.copyAssignThrows z y = true
      · simp [ThrowOps.afterFailedCopy, hy]
      · simp [ThrowOps.afterFailedCopy, hy, e]

/-- The sources beyond the target's length are not part of the copy. -/
theorem ThrowOps.afterFailedCopy_append_right (T : ThrowOps α) (xs Y1 Y2 : List α)
    (hl : xs.length = Y1.length) :
    T.afterFailedCopy xs (Y1 ++ Y2) = T.afterFailedCopy xs Y1 := by
  induction xs generalizing Y1 with
  | nil =>
    cases Y1 with
    | nil => cases Y2 <;> rfl
    | cons y ys => simp at hl
  | cons z zs ih =>
    cases Y1 with
    | nil => simp at hl
    | cons y ys =>
      have e := ih ys (by simpa using hl)
      by_cases hy : T.copyAssignThrows z y = true
      · simp [ThrowOps.afterFailedCopy, hy]
      · simp [ThrowOps.afterFailedCopy, hy, e]

/-- Where `std::copy` stops: at the first index `j` whose assignment throws. The targets below
`j` hold the source's values, the target `j` is in the state its failed assignment left it in,
and the targets above `j` are as they were. -/
theorem ThrowOps.afterFailedCopy_spec (T : ThrowOps α) (zs ys : List α)
    (h : (zs.zip ys).any (fun p => T.copyAssignThrows p.1 p.2) = true) :
    ∃ (j : Nat) (z y : α), zs[j]? = some z ∧ ys[j]? = some y ∧
      T.copyAssignThrows z y = true ∧
      ((zs.take j).zip (ys.take j)).any (fun p => T.copyAssignThrows p.1 p.2) = false ∧
      T.afterFailedCopy zs ys = ys.take j ++ T.failedCopyAssign z y :: zs.drop (j + 1) := by
  induction zs generalizing ys with
  | nil => simp at h
  | cons z zs ih =>
    cases ys with
    | nil => simp at h
    | cons y ys =>
      by_cases hy : T.copyAssignThrows z y = true
      · exact ⟨0, z, y, by simp, by simp, hy, by simp, by simp [ThrowOps.afterFailedCopy, hy]⟩
      · simp only [Bool.not_eq_true] at hy
        simp only [List.zip_cons_cons, List.any_cons, hy, Bool.false_or] at h
        obtain ⟨j, z', y', hz, hy', ht, hbefore, he⟩ := ih ys h
        refine ⟨j + 1, z', y', by simpa using hz, by simpa using hy', ht, ?_, ?_⟩
        · simp [hy, hbefore]
        · simp [ThrowOps.afterFailedCopy, hy, he]

/-- The loop of `std::copy` over a source `ys` and a target range holding `zs`: it completes
when no assignment throws, and otherwise leaves the targets as `afterFailedCopy` says. -/
theorem copyLoopE_spec (T : ThrowOps α) {rs rd : Region} (hne : rs ≠ rd) (ys : List α) :
    ∀ (zs : List α) (m : Mem α) (spre spost dpre dpost : Block α) (ks kd : Nat),
      zs.length = ys.length →
      m.block rs = spre ++ ys.map some ++ spost →
      m.block rd = dpre ++ zs.map some ++ dpost →
      ks = spre.length → kd = dpre.length →
      copyLoopE T m ⟨rs, ks⟩ ys.length ⟨rd, kd⟩ =
        if (zs.zip ys).any (fun p => T.copyAssignThrows p.1 p.2) then
          Outcome.threw (m.setBlock rd (dpre ++ (T.afterFailedCopy zs ys).map some ++ dpost))
        else Outcome.done (m.setBlock rd (dpre ++ ys.map some ++ dpost)) := by
  induction ys with
  | nil =>
    intro zs m spre spost dpre dpost ks kd hl _ hd _ _
    have hz : zs = [] := List.length_eq_zero.mp hl
    subst hz
    simp only [copyLoopE, List.length_nil, List.map_nil, List.zip_nil_right, List.any_nil,
      Bool.false_eq_true, if_false] at hd ⊢
    rw [← hd, Mem.setBlock_block]
  | cons y ys ih =>
    intro zs m spre spost dpre dpost ks kd hl hs hd hks hkd
    cases zs with
    | nil => simp at hl
    | cons z zs =>
      have hs1 : m.block rs = spre ++ some y :: (ys.map some ++ spost) := by
        rw [hs]; simp
      have hd1 : m.block rd = dpre ++ some z :: (zs.map some ++ dpost) := by
        rw [hd]; simp
      have hstep : copyLoopE T m ⟨rs, ks⟩ (y :: ys).length ⟨rd, kd⟩ =
          if T.copyAssignThrows z y then
            Outcome.threw (m.setBlock rd
              (dpre ++ some (T.failedCopyAssign z y) :: (zs.map some ++ dpost)))
          else copyLoopE T (m.setBlock rd (dpre ++ some y :: (zs.map some ++ dpost)))
            ⟨rs, ks + 1⟩ ys.length ⟨rd, kd + 1⟩ := by
        rw [List.length_cons, copyLoopE, Mem.copyAssignE, Mem.load_mid m rs ks spre _ y hs1 hks,
          Mem.load_mid m rd kd dpre _ z hd1 hkd]
        simp only [Ptr.add]
        split
        · rw [Mem.assign_mid m rd kd dpre _ z _ hd1 hkd]
          rfl
        · rw [Mem.assign_mid m rd kd dpre _ z y hd1 hkd]
          rfl
      rw [hstep]
      by_cases hy : T.copyAssignThrows z y = true
      · simp [hy, ThrowOps.afterFailedCopy]
      · simp only [hy, Bool.false_eq_true, if_false]
        rw [ih zs (m.setBlock rd (dpre ++ some y :: (zs.map some ++ dpost)))
          (spre ++ [some y]) spost (dpre ++ [some y]) dpost (ks + 1) (kd + 1)
          (by simpa using hl)
          (by rw [Mem.block_setBlock_ne _ _ (Ne.symm hne), hs1]; simp) (by simp)
          (by simp [hks]) (by simp [hkd])]
        simp only [Bool.not_eq_true] at hy
        simp only [List.zip_cons_cons, List.any_cons, ThrowOps.afterFailedCopy, hy,
          Bool.false_or, Bool.false_eq_true, if_false]
        simp

end Throwing

/-! ## The container when element operations throw -/

section ThrowingVector

variable {α : Type}

/-- The copy constructor on a well-formed source: it throws, leaving the source as it was, when
some element's copy construction throws, and completes otherwise. -/
theorem Vector.copyCtorE_ofList (T : ThrowOps α) (xs : List α) (cap : Nat) :
    Vector.copyCtorE T (Vector.ofList xs cap) =
      if xs.any T.copyThrows then Outcome.threw (Vector.ofList xs cap)
      else Outcome.done (Vector.ofList xs xs.length, Vector.ofList xs cap) := by
  have h := uninitialized_copy_nE_spec T (show Region.ext ≠ Region.own by decide) xs
    (⟨List.replicate xs.length none, xs.map some ++ List.replicate (cap - xs.length) none⟩ :
      Mem α)
    [] (List.replicate (cap - xs.length) none) [] [] 0 0 (by simp [Mem.block])
    (by simp [Mem.block]) rfl rfl
  simp only [Vector.copyCtorE, Vector.ofList, RawMemory.sizedLive, h]
  split
  · rfl
  · simp [Mem.setBlock]

/-- Copy assignment, branch `rhs.size_ > data_.Capacity()`, on well-formed operands. -/
theorem Vector.copyAssignE_realloc (T : ThrowOps α) (xs ys : List α) (cap capb : Nat)
    (h : cap < ys.length) :
    Vector.copyAssignE T (Vector.ofList xs cap) (Vector.ofList ys capb) =
      if ys.any T.copyThrows then
        Outcome.threw (Vector.ofList xs cap, Vector.ofList ys capb)
      else Outcome.done (Vector.ofList ys ys.length, Vector.ofList ys capb) := by
  unfold Vector.copyAssignE
  have hsw : (Vector.ofList xs cap).Swap (Vector.ofList ys ys.length) =
      (Vector.ofList ys ys.length, Vector.ofList xs cap) := rfl
  by_cases hany : ys.any T.copyThrows = true
  · simp only [Vector.size_ofList, RawMemory.Capacity, Vector.capacity_ofList, gt_iff_lt, h,
      if_true, Vector.copyCtorE_ofList, hany]
  · simp only [Vector.size_ofList, RawMemory.Capacity, Vector.capacity_ofList, gt_iff_lt, h,
      if_true, Vector.copyCtorE_ofList, hany, Bool.false_eq_true, if_false, hsw,
      Vector.destructor_ofList]

/-- `Reserve` with `new_capacity > Capacity()` on a well-formed container, under both
relocation policies: what it returns, and what an exception leaves. -/
theorem Vector.ReserveE_grow (T : ThrowOps α) (xs : List α) (cap n : Nat)
    (hcap : xs.length ≤ cap) (hn : cap < n) (hfit : n * T.sizeofT < sizeModulus) :
    Vector.ReserveE T (Vector.ofList xs cap) n =
      if T.relocateByMove then
        if xs.any T.moveFails then Outcome.threw (Vector.ofList (T.afterFailedMove xs) cap)
        else Outcome.done (Vector.ofList xs n)
      else
        if xs.any T.copyThrows then Outcome.threw (Vector.ofList xs cap)
        else Outcome.done (Vector.ofList xs n) := by
  unfold Vector.ReserveE
  have hn' : ¬ (n ≤ cap) := by omega
  have hlen := T.length_afterFailedMove xs
  generalize hR : List.replicate (cap - xs.length) (none : Option α) = R
  have hm := uninitialized_move_nE_spec T (show Region.own ≠ Region.ext by decide) xs
    (⟨xs.map some ++ R, List.replicate xs.length none ++ List.replicate (n - xs.length) none⟩ :
      Mem α)
    [] R [] (List.replicate (n - xs.length) none) 0 0 (by simp [Mem.block])
    (by simp [Mem.block]) rfl rfl
  have hc := uninitialized_copy_nE_spec T (show Region.own ≠ Region.ext by decide) xs
    (⟨xs.map some ++ R, List.replicate xs.length none ++ List.replicate (n - xs.length) none⟩ :
      Mem α)
    [] R [] (List.replicate (n - xs.length) none) 0 0 (by simp [Mem.block])
    (by simp [Mem.block]) rfl rfl
  have hd1 := destroy_n_spec Region.own (xs.map T.movedFrom)
    (⟨(xs.map T.movedFrom).map some ++ R,
      xs.map some ++ List.replicate (n - xs.length) none⟩ : Mem α) [] R 0
    (by simp [Mem.block]) rfl
  have hd2 := destroy_n_spec Region.own xs
    (⟨xs.map some ++ R, xs.map some ++ List.replicate (n - xs.length) none⟩ : Mem α) [] R 0
    (by simp [Mem.block]) rfl
  rw [List.length_map] at hd1
  simp only [Mem.setBlock, List.nil_append] at hm hc hd1 hd2
  simp only [Vector.ofList, RawMemory.Capacity, hn', if_false, hR, RawMemory.sized,
    Allocate_eq T.toElemOps n hfit, replicate_none_split n xs.length (by omega), hlen]
  by_cases hT : T.relocateByMove = true
  · by_cases hany : xs.any T.moveFails = true
    · simp only [hT, if_true, hm, hany, Outcome.andThen_threw, Outcome.mapBoth_threw]
    · simp only [hT, if_true, hm, hany, Bool.false_eq_true, if_false, Outcome.andThen_done, hd1,
        Outcome.ofOption_some, Outcome.mapBoth_done, RawMemory.Swap]
  · by_cases hany : xs.any T.copyThrows = true
    · simp only [hT, Bool.false_eq_true, if_false, hc, hany, if_true, Outcome.andThen_threw,
        Outcome.mapBoth_threw]
    · simp only [hT, Bool.false_eq_true, if_false, hc, hany, Outcome.andThen_done, hd2,
        Outcome.ofOption_some, Outcome.mapBoth_done, RawMemory.Swap]

/-- The reallocating branch of `Emplace` under the copying policy: the block layout is as in
`Vector.Emplace_realloc`. -/
theorem Vector.EmplaceE_realloc_copy (T : ThrowOps α) (A B : List α) (post : Block α)
    (cap : Nat) (x : α) (c : Bool) (h : ¬ (A.length + B.length < cap))
    (hT : T.relocateByMove = false) :
    Vector.EmplaceE T ⟨⟨A.map some ++ (B.map some ++ post), cap⟩, A.length + B.length⟩
        A.length x c =
      if c = true ∨ (A ++ B).any T.copyThrows = true then
        Outcome.threw ⟨⟨A.map some ++ (B.map some ++ post), cap⟩, A.length + B.length⟩
      else
        Outcome.done (⟨⟨A.map some ++ some x :: (B.map some ++
            List.replicate ((if A.length + B.length = 0 then 1 else (A.length + B.length) * 2) -
              (A.length + B.length + 1)) none),
          if A.length + B.length = 0 then 1 else (A.length + B.length) * 2⟩,
          A.length + B.length + 1⟩, A.length) := by
  unfold Vector.EmplaceE
  generalize hc' : (if A.length + B.length = 0 then 1 else (A.length + B.length) * 2) = c'
  have hc0 : c' ≠ 0 := by rw [← hc']; split <;> omega
  have hcle : A.length + B.length + 1 ≤ c' := by rw [← hc']; split <;> omega
  simp only [RawMemory.Capacity, Nat.le_add_right, not_true_eq_false, if_false, h,
    RawMemory.sizedLive, hc', Allocate_split A.length B.length c' hcle, hT,
    Bool.false_eq_true]
  generalize List.replicate (c' - (A.length + B.length + 1)) (none : Option α) = R
  by_cases hc : c = true
  · simp only [hc, Mem.constructE, if_true, Outcome.andThen_threw, Outcome.mapBoth_threw,
      true_or]
  · have hk := Mem.construct_mid
      (⟨A.map some ++ (B.map some ++ post),
        List.replicate A.length none ++ none :: (List.replicate B.length none ++ R)⟩ : Mem α)
      Region.ext A.length (List.replicate A.length none) (List.replicate B.length none ++ R) x
      rfl (by simp)
    have hr1 := uninitialized_copy_nE_spec T (show Region.own ≠ Region.ext by decide) A
      (⟨A.map some ++ (B.map some ++ post),
        List.replicate A.length none ++ some x :: (List.replicate B.length none ++ R)⟩ : Mem α)
      [] (B.map some ++ post) [] (some x :: (List.replicate B.length none ++ R)) 0 0
      (by simp [Mem.block]) (by simp [Mem.block]) rfl rfl
    have hh1 := destroy_n_spec Region.ext [x]
      (⟨A.map some ++ (B.map some ++ post),
        List.replicate A.length none ++ some x :: (List.replicate B.length none ++ R)⟩ : Mem α)
      (List.replicate A.length none) (List.replicate B.length none ++ R) A.length
      (by simp [Mem.block]) (by simp)
    have hr2 := uninitialized_copy_nE_spec T (show Region.own ≠ Region.ext by decide) B
      (⟨A.map some ++ (B.map some ++ post),
        A.map some ++ some x :: (List.replicate B.length none ++ R)⟩ : Mem α)
      (A.map some) post (A.map some ++ [some x]) R A.length (A.length + 1)
      (by simp [Mem.block]) (by simp [Mem.block]) (by simp) (by simp)
    have hh2 := destroy_n_spec Region.ext (A ++ [x])
      (⟨A.map some ++ (B.map some ++ post),
        A.map some ++ some x :: (List.replicate B.length none ++ R)⟩ : Mem α)
      [] (List.replicate B.length none ++ R) 0 (by simp [Mem.block]) rfl
    have hd := destroy_n_spec Region.own (A ++ B)
      (⟨A.map some ++ (B.map some ++ post), A.map some ++ some x :: (B.map some ++ R)⟩ : Mem α)
      [] post 0 (by simp [Mem.block]) rfl
    simp only [List.length_append, List.length_singleton, List.length_cons, List.length_nil,
      Nat.zero_add, Mem.setBlock, List.nil_append, List.append_assoc, List.singleton_append,
      List.cons_append] at hk hr1 hh1 hr2 hh2 hd
    simp only [hc, Bool.false_eq_true, Mem.constructE, if_false, hk, Outcome.ofOption_some,
      Outcome.andThen_done, Mem.setBlock, hr1, Nat.add_sub_cancel_left, false_or,
      List.any_append, Bool.or_eq_true]
    by_cases hA : A.any T.copyThrows = true
    · simp only [hA, if_true, Outcome.onThrow, hh1, Outcome.andThen_threw,
        Outcome.mapBoth_threw, true_or]
    · simp only [hA, Bool.false_eq_true, if_false, Outcome.onThrow_done, Outcome.andThen_done,
        hr2, false_or]
      by_cases hB : B.any T.copyThrows = true
      · simp only [hB, if_true, Outcome.onThrow, hh2, Outcome.andThen_threw,
          Outcome.mapBoth_threw]
      · simp only [hB, Bool.false_eq_true, if_false, Outcome.onThrow_done,
          Outcome.andThen_done, hd, Outcome.ofOption_some, Outcome.mapBoth_done,
          RawMemory.Swap]

/-- The reallocating branch of `Emplace` under the moving policy. -/
theorem Vector.EmplaceE_realloc_move (T : ThrowOps α) (A B : List α) (post : Block α)
    (cap : Nat) (x : α) (c : Bool) (h : ¬ (A.length + B.length < cap))
    (hT : T.relocateByMove = true) :
    Vector.EmplaceE T ⟨⟨A.map some ++ (B.map some ++ post), cap⟩, A.length + B.length⟩
        A.length x c =
      if c = true then
        Outcome.threw ⟨⟨A.map some ++ (B.map some ++ post), cap⟩, A.length + B.length⟩
      else if (A ++ B).any T.moveFails = true then
        Outcome.threw ⟨⟨(T.afterFailedMove (A ++ B)).map some ++ post, cap⟩,
          A.length + B.length⟩
      else
        Outcome.done (⟨⟨A.map some ++ some x :: (B.map some ++
            List.replicate ((if A.length + B.length = 0 then 1 else (A.length + B.length) * 2) -
              (A.length + B.length + 1)) none),
          if A.length + B.length = 0 then 1 else (A.length + B.length) * 2⟩,
          A.length + B.length + 1⟩, A.length) := by
  unfold Vector.EmplaceE
  generalize hc' : (if A.length + B.length = 0 then 1 else (A.length + B.length) * 2) = c'
  have hc0 : c' ≠ 0 := by rw [← hc']; split <;> omega
  have hcle : A.length + B.length + 1 ≤ c' := by rw [← hc']; split <;> omega
  simp only [RawMemory.Capacity, Nat.le_add_right, not_true_eq_false, if_false, h,
    RawMemory.sizedLive, hc', Allocate_split A.length B.length c' hcle, hT, if_true]
  generalize List.replicate (c' - (A.length + B.length + 1)) (none : Option α) = R
  by_cases hc : c = true
  · simp only [hc, Mem.constructE, if_true, Outcome.andThen_threw, Outcome.mapBoth_threw]
  · have hk := Mem.construct_mid
      (⟨A.map some ++ (B.map some ++ post),
        List.replicate A.length none ++ none :: (List.replicate B.length none ++ R)⟩ : Mem α)
      Region.ext A.length (List.replicate A.length none) (List.replicate B.length none ++ R) x
      rfl (by simp)
    have hr1 := uninitialized_move_nE_spec T (show Region.own ≠ Region.ext by decide) A
      (⟨A.map some ++ (B.map some ++ post),
        List.replicate A.length none ++ some x :: (List.replicate B.length none ++ R)⟩ : Mem α)
      [] (B.map some ++ post) [] (some x :: (List.replicate B.length none ++ R)) 0 0
      (by simp [Mem.block]) (by simp [Mem.block]) rfl rfl
    have hh1 := destroy_n_spec Region.ext [x]
      (⟨(T.afterFailedMove A).map some ++ (B.map some ++ post),
        List.replicate A.length none ++ some x :: (List.replicate B.length none ++ R)⟩ : Mem α)
      (List.replicate A.length none) (List.replicate B.length none ++ R) A.length
      (by simp [Mem.block]) (by simp)
    have hr2 := uninitialized_move_nE_spec T (show Region.own ≠ Region.ext by decide) B
      (⟨(A.map T.movedFrom).map some ++ (B.map some ++ post),
        A.map some ++ some x :: (List.replicate B.length none ++ R)⟩ : Mem α)
      ((A.map T.movedFrom).map some) post (A.map some ++ [some x]) R A.length (A.length + 1)
      (by simp [Mem.block]) (by simp [Mem.block]) (by simp) (by simp)
    have hh2 := destroy_n_spec Region.ext (A ++ [x])
      (⟨(A.map T.movedFrom).map some ++ ((T.afterFailedMove B).map some ++ post),
        A.map some ++ some x :: (List.replicate B.length none ++ R)⟩ : Mem α)
      [] (List.replicate B.length none ++ R) 0 (by simp [Mem.block]) rfl
    have hd := destroy_n_spec Region.own (A.map T.movedFrom ++ B.map T.movedFrom)
      (⟨(A.map T.movedFrom).map some ++ ((B.map T.movedFrom).map some ++ post),
        A.map some ++ some x :: (B.map some ++ R)⟩ : Mem α)
      [] post 0 (by simp [Mem.block]) rfl
    have happ := T.afterFailedMove_append A B
    simp only [List.length_append, List.length_singleton, List.length_cons, List.length_nil,
      List.length_map, Nat.zero_add, Mem.setBlock, List.nil_append, List.append_assoc,
      List.singleton_append, List.cons_append] at hk hr1 hh1 hr2 hh2 hd
    simp only [hc, Bool.false_eq_true, Mem.constructE, if_false, hk, Outcome.ofOption_some,
      Outcome.andThen_done, Mem.setBlock, hr1, Nat.add_sub_cancel_left,
      List.any_append, Bool.or_eq_true, happ]
    by_cases hA : A.any T.moveFails = true
    · simp only [hA, if_true, Outcome.onThrow, hh1, Outcome.andThen_threw,
        Outcome.mapBoth_threw, true_or, List.map_append, List.append_assoc]
    · simp only [hA, Bool.false_eq_true, if_false, Outcome.onThrow_done, Outcome.andThen_done,
        hr2, false_or]
      by_cases hB : B.any T.moveFails = true
      · simp only [hB, if_true, Outcome.onThrow, hh2, Outcome.andThen_threw,
          Outcome.mapBoth_threw, List.map_append, List.append_assoc]
      · simp only [hB, Bool.false_eq_true, if_false, Outcome.onThrow_done,
          Outcome.andThen_done, hd, Outcome.ofOption_some, Outcome.mapBoth_done,
          RawMemory.Swap]

/-- `Emplace` on a full well-formed container (so it reallocates), under both relocation
policies: what it returns, and what an exception leaves. -/
theorem Vector.EmplaceE_full (T : ThrowOps α) (xs : List α) (i : Nat) (x : α) (c : Bool)
    (hi : i ≤ xs.length) :
    Vector.EmplaceE T (Vector.ofList xs xs.length) i x c =
      if c = true then Outcome.threw (Vector.ofList xs xs.length)
      else if T.relocateByMove = true then
        if xs.any T.moveFails = true then
          Outcome.threw (Vector.ofList (T.afterFailedMove xs) xs.length)
        else
          Outcome.done (Vector.ofList (xs.take i ++ x :: xs.drop i)
            (emplaceCapacity xs.length xs.length), i)
      else
        if xs.any T.copyThrows = true then Outcome.threw (Vector.ofList xs xs.length)
        else
          Outcome.done (Vector.ofList (xs.take i ++ x :: xs.drop i)
            (emplaceCapacity xs.length xs.length), i) := by
  have hlen : (xs.take i).length = i := by simp [hi]
  have hsum : (xs.take i).length + (xs.drop i).length = xs.length := by
    rw [← List.length_append, List.take_append_drop]
  have hx : xs.take i ++ xs.drop i = xs := List.take_append_drop i xs
  have hv : (Vector.ofList xs xs.length : Vector α) =
      ⟨⟨(xs.take i).map some ++ ((xs.drop i).map some ++ []), xs.length⟩,
        (xs.take i).length + (xs.drop i).length⟩ := by
    simp only [Vector.ofList, Nat.sub_self, List.replicate_zero, List.append_nil, hsum,
      ← List.map_append, hx]
  have hnot : ¬ ((xs.take i).length + (xs.drop i).length < xs.length) := by omega
  have hlen' : (xs.take i ++ x :: xs.drop i).length = xs.length + 1 := by
    simp only [List.length_append, List.length_cons]; omega
  have hdone : (⟨⟨(xs.take i).map some ++ some x :: ((xs.drop i).map some ++
        List.replicate ((if xs.length = 0 then 1 else xs.length * 2) - (xs.length + 1)) none),
        if xs.length = 0 then 1 else xs.length * 2⟩, xs.length + 1⟩ : Vector α) =
      Vector.ofList (xs.take i ++ x :: xs.drop i) (emplaceCapacity xs.length xs.length) := by
    simp only [Vector.ofList, hlen', emplaceCapacity, Nat.lt_irrefl, if_false, List.map_append,
      List.map_cons, List.append_assoc, List.cons_append]
  by_cases hT : T.relocateByMove = true
  · have h := Vector.EmplaceE_realloc_move T (xs.take i) (xs.drop i) [] xs.length x c hnot hT
    rw [← hv, hx, hsum, hlen] at h
    rw [h]
    simp only [hT, if_true, hdone]
    have hthrew : (⟨⟨(T.afterFailedMove xs).map some ++ [], xs.length⟩, xs.length⟩ : Vector α) =
        Vector.ofList (T.afterFailedMove xs) xs.length := by
      simp only [Vector.ofList, T.length_afterFailedMove, Nat.sub_self, List.replicate_zero]
    rw [hthrew]
  · simp only [Bool.not_eq_true] at hT
    have h := Vector.EmplaceE_realloc_copy T (xs.take i) (xs.drop i) [] xs.length x c hnot hT
    rw [← hv, hx, hsum, hlen] at h
    rw [h]
    simp only [hT, Bool.false_eq_true, if_false, hdone]
    by_cases hc : c = true
    · simp [hc]
    · simp [hc]

theorem Vector.mk_eq_ofList (zs : List α) (R : Block α) (cap n : Nat) (hn : zs.length = n)
    (hR : R = List.replicate (cap - n) none) :
    (⟨⟨zs.map some ++ R, cap⟩, n⟩ : Vector α) = Vector.ofList zs cap := by
  subst hn; subst hR; rfl

/-- Copy assignment in place with the source shorter than the target (`X1 ++ X2`, `X1` as long
as the source `ys`): it completes, or `std::copy` stops at the first assignment that throws. -/
theorem Vector.copyAssignE_shrink (T : ThrowOps α) (X1 X2 ys : List α) (cap capb : Nat)
    (hl : X1.length = ys.length) (h2 : X2 ≠ []) (hcap : X1.length + X2.length ≤ cap) :
    Vector.copyAssignE T (Vector.ofList (X1 ++ X2) cap) (Vector.ofList ys capb) =
      if (X1.zip ys).any (fun p => T.copyAssignThrows p.1 p.2) then
        Outcome.threw (Vector.ofList (T.afterFailedCopy X1 ys ++ X2) cap, Vector.ofList ys capb)
      else Outcome.done (Vector.ofList ys cap, Vector.ofList ys capb) := by
  have hX2 : 0 < X2.length := List.length_pos.mpr h2
  have hn' : ¬ (cap < ys.length) := by omega
  have hlt : ys.length < X1.length + X2.length := by omega
  have hmin : min ys.length (X1.length + X2.length) = ys.length := by omega
  have hsub : X1.length + X2.length - ys.length = X2.length := by omega
  generalize hR : List.replicate (cap - (X1.length + X2.length)) (none : Option α) = R
  generalize hRb : List.replicate (capb - ys.length) (none : Option α) = Rb
  have hd := destroy_n_spec Region.own X2
    (⟨ys.map some ++ (X2.map some ++ R), ys.map some ++ Rb⟩ : Mem α) (ys.map some) R
    ys.length (by simp [Mem.block]) (by simp)
  have hrep : List.replicate (cap - ys.length) (none : Option α) =
      List.replicate X2.length none ++ R := by
    rw [← hR, ← List.replicate_add]
    congr 1
    omega
  simp only [Mem.setBlock, List.append_assoc] at hd
  have hself : (Vector.ofList (X1 ++ X2) cap : Vector α) =
      ⟨⟨X1.map some ++ (X2.map some ++ R), cap⟩, X1.length + X2.length⟩ := by
    simp only [Vector.ofList, List.length_append, List.map_append, List.append_assoc, hR]
  have hrhs : (Vector.ofList ys capb : Vector α) = ⟨⟨ys.map some ++ Rb, capb⟩, ys.length⟩ := by
    simp only [Vector.ofList, hRb]
  have hres : (Vector.ofList ys cap : Vector α) =
      ⟨⟨ys.map some ++ (List.replicate X2.length none ++ R), cap⟩, ys.length⟩ := by
    simp only [Vector.ofList, hrep]
  have hloop := copyLoopE_spec T (show Region.ext ≠ Region.own by decide) ys X1
    (⟨X1.map some ++ (X2.map some ++ R), ys.map some ++ Rb⟩ : Mem α) [] Rb []
    (X2.map some ++ R) 0 0 hl (by simp [Mem.block]) (by simp [Mem.block]) rfl rfl
  simp only [Mem.setBlock, List.nil_append] at hloop
  by_cases hany : (X1.zip ys).any (fun p => T.copyAssignThrows p.1 p.2) = true
  · rw [if_pos hany] at hloop
    rw [if_pos hany]
    have e2 := Vector.mk_eq_ofList (T.afterFailedCopy X1 ys ++ X2) R cap
      (X1.length + X2.length)
      (by simp only [List.length_append, T.length_afterFailedCopy]) hR.symm
    rw [← e2, hself, hrhs]
    simp only [Vector.copyAssignE, RawMemory.Capacity, gt_iff_lt, hn', if_false, copyE,
      true_and, Nat.zero_le, if_true, hmin, Nat.sub_zero, hlt, hloop, Outcome.andThen_threw,
      Outcome.mapBoth_threw, List.map_append, List.append_assoc]
  · rw [if_neg hany] at hloop
    rw [if_neg hany, hself, hrhs, hres]
    simp only [Vector.copyAssignE, RawMemory.Capacity, gt_iff_lt, hn', if_false, copyE,
      true_and, Nat.zero_le, if_true, hmin, Nat.sub_zero, hlt, hloop, Outcome.andThen_done,
      hsub, hd, Outcome.ofOption_some, Outcome.mapBoth_done]

/-- Copy assignment in place with the source at least as long as the target (`Y1 ++ Y2`, `Y1` as
long as the target `xs`): it completes, or `std::copy` stops at the first assignment that
throws, or the construction of the new tail throws and is rolled back. -/
theorem Vector.copyAssignE_grow (T : ThrowOps α) (xs Y1 Y2 : List α) (cap capb : Nat)
    (hl : xs.length = Y1.length) (hcap : Y1.length + Y2.length ≤ cap) :
    Vector.copyAssignE T (Vector.ofList xs cap) (Vector.ofList (Y1 ++ Y2) capb) =
      if (xs.zip Y1).any (fun p => T.copyAssignThrows p.1 p.2) then
        Outcome.threw (Vector.ofList (T.afterFailedCopy xs Y1) cap,
          Vector.ofList (Y1 ++ Y2) capb)
      else if Y2.any T.copyThrows then
        Outcome.threw (Vector.ofList Y1 cap, Vector.ofList (Y1 ++ Y2) capb)
      else Outcome.done (Vector.ofList (Y1 ++ Y2) cap, Vector.ofList (Y1 ++ Y2) capb) := by
  have hn' : ¬ (cap < Y1.length + Y2.length) := by omega
  have hlt : ¬ (Y1.length + Y2.length < xs.length) := by omega
  have hmin : min (Y1.length + Y2.length) xs.length = Y1.length := by omega
  have hsub : Y1.length + Y2.length - xs.length = Y2.length := by omega
  generalize hRb : List.replicate (capb - (Y1.length + Y2.length)) (none : Option α) = Rb
  have hrep : List.replicate (cap - xs.length) (none : Option α) =
      List.replicate Y2.length none ++ List.replicate (cap - (Y1.length + Y2.length)) none := by
    rw [← List.replicate_add]
    congr 1
    omega
  generalize hR : List.replicate (cap - (Y1.length + Y2.length)) (none : Option α) = R at hrep
  have hu := uninitialized_copy_nE_spec T (show Region.ext ≠ Region.own by decide) Y2
    (⟨Y1.map some ++ (List.replicate Y2.length none ++ R),
      Y1.map some ++ (Y2.map some ++ Rb)⟩ : Mem α) (Y1.map some) Rb (Y1.map some) R
    xs.length xs.length (by simp [Mem.block]) (by simp [Mem.block]) (by simp [hl])
    (by simp [hl])
  simp only [Mem.setBlock, List.append_assoc] at hu
  have hself : (Vector.ofList xs cap : Vector α) =
      ⟨⟨xs.map some ++ (List.replicate Y2.length none ++ R), cap⟩, xs.length⟩ := by
    simp only [Vector.ofList, hrep]
  have hrhs : (Vector.ofList (Y1 ++ Y2) capb : Vector α) =
      ⟨⟨Y1.map some ++ (Y2.map some ++ Rb), capb⟩, Y1.length + Y2.length⟩ := by
    simp only [Vector.ofList, List.length_append, List.map_append, List.append_assoc, hRb]
  have hres : (Vector.ofList (Y1 ++ Y2) cap : Vector α) =
      ⟨⟨Y1.map some ++ (Y2.map some ++ R), cap⟩, Y1.length + Y2.length⟩ := by
    simp only [Vector.ofList, List.length_append, List.map_append, List.append_assoc, hR]
  have hloop := copyLoopE_spec T (show Region.ext ≠ Region.own by decide) Y1 xs
    (⟨xs.map some ++ (List.replicate Y2.length none ++ R),
      Y1.map some ++ (Y2.map some ++ Rb)⟩ : Mem α) [] (Y2.map some ++ Rb) []
    (List.replicate Y2.length none ++ R) 0 0 hl (by simp [Mem.block]) (by simp [Mem.block])
    rfl rfl
  simp only [Mem.setBlock, List.nil_append] at hloop
  by_cases hany1 : (xs.zip Y1).any (fun p => T.copyAssignThrows p.1 p.2) = true
  · rw [if_pos hany1] at hloop
    rw [if_pos hany1]
    have e2 := Vector.mk_eq_ofList (T.afterFailedCopy xs Y1)
      (List.replicate Y2.length none ++ R) cap xs.length
      (T.length_afterFailedCopy xs Y1) hrep.symm
    rw [← e2, hself, hrhs]
    simp only [Vector.copyAssignE, RawMemory.Capacity, gt_iff_lt, hn', if_false, copyE,
      true_and, Nat.zero_le, if_true, hmin, Nat.sub_zero, hlt, hloop, Outcome.andThen_threw,
      Outcome.mapBoth_threw]
  · rw [if_neg hany1] at hloop
    rw [if_neg hany1]
    by_cases hany : Y2.any T.copyThrows = true
    · rw [if_pos hany]
      have e2 := Vector.mk_eq_ofList Y1 (List.replicate Y2.length none ++ R) cap xs.length
        hl.symm hrep.symm
      rw [← e2, hself, hrhs]
      simp only [Vector.copyAssignE, RawMemory.Capacity, gt_iff_lt, hn', if_false, copyE,
        true_and, Nat.zero_le, if_true, hmin, Nat.sub_zero, hlt, hloop, Outcome.andThen_done,
        hsub, hu, hany, Outcome.mapBoth_threw]
    · rw [if_neg hany, hself, hrhs, hres]
      simp only [Bool.not_eq_true] at hany
      simp only [Vector.copyAssignE, RawMemory.Capacity, gt_iff_lt, hn', if_false, copyE,
        true_and, Nat.zero_le, if_true, hmin, Nat.sub_zero, hlt, hloop, Outcome.andThen_done,
        hsub, hu, hany, Bool.false_eq_true, Outcome.mapBoth_done]

/-- Copy assignment in place (`rhs.size_ ≤ Capacity()`) between well-formed containers: it
completes when nothing throws. Otherwise the target keeps its size and capacity and holds what
`std::copy` left (`afterFailedCopy`): the source's values below the index whose assignment
threw, the state of the failed assignment at that index and the old values above it; when
`std::copy` completed and the construction of the new tail threw, that tail is rolled back. -/
theorem Vector.copyAssignE_inplace (T : ThrowOps α) (xs ys : List α) (cap capb : Nat)
    (hcap : xs.length ≤ cap) (hle : ys.length ≤ cap) :
    Vector.copyAssignE T (Vector.ofList xs cap) (Vector.ofList ys capb) =
      if (xs.zip ys).any (fun p => T.copyAssignThrows p.1 p.2) = true ∨
          (ys.drop xs.length).any T.copyThrows = true then
        Outcome.threw (Vector.ofList (T.afterFailedCopy xs ys) cap, Vector.ofList ys capb)
      else Outcome.done (Vector.ofList ys cap, Vector.ofList ys capb) := by
  by_cases hs : ys.length < xs.length
  · have hl : (xs.take ys.length).length = ys.length := by simp [Nat.le_of_lt hs]
    have hz : xs.zip ys = (xs.take ys.length).zip ys := by
      have e : xs.zip ys = (xs.take ys.length ++ xs.drop ys.length).zip (ys ++ []) := by
        rw [List.take_append_drop, List.append_nil]
      rw [e, List.zip_append hl, List.zip_nil_right, List.append_nil]
    have hdrop : ys.drop xs.length = [] := List.drop_of_length_le (Nat.le_of_lt hs)
    have h := Vector.copyAssignE_shrink T (xs.take ys.length) (xs.drop ys.length) ys cap capb hl
      (by intro hnil; have := congrArg List.length hnil; simp at this; omega)
      (by rw [← List.length_append, List.take_append_drop]; exact hcap)
    rw [← T.afterFailedCopy_append_left _ _ _ hl, List.take_append_drop, ← hz] at h
    rw [h, hdrop]
    by_cases hany1 : (xs.zip ys).any (fun p => T.copyAssignThrows p.1 p.2) = true
    · simp only [hany1, if_true, true_or]
    · simp only [hany1, if_false, List.any_nil, Bool.false_eq_true, or_self]
  · have hl : xs.length = (ys.take xs.length).length := by simp [Nat.le_of_not_lt hs]
    have hz : xs.zip ys = xs.zip (ys.take xs.length) := by
      have e : xs.zip ys = (xs ++ []).zip (ys.take xs.length ++ ys.drop xs.length) := by
        rw [List.take_append_drop, List.append_nil]
      rw [e, List.zip_append hl, List.zip_nil_left, List.append_nil]
    have h := Vector.copyAssignE_grow T xs (ys.take xs.length) (ys.drop xs.length) cap capb hl
      (by rw [← List.length_append, List.take_append_drop]; exact hle)
    have hfc := T.afterFailedCopy_append_right xs (ys.take xs.length) (ys.drop xs.length) hl
    rw [List.take_append_drop] at h hfc
    rw [← hfc, ← hz] at h
    rw [h]
    by_cases hany1 : (xs.zip ys).any (fun p => T.copyAssignThrows p.1 p.2) = true
    · simp [hany1]
    · have hnone := T.afterFailedCopy_of_none xs (ys.take xs.length) hl
        (by rw [← hz]; simpa using hany1)
      rw [← hfc] at hnone
      by_cases hany2 : (ys.drop xs.length).any T.copyThrows = true
      · simp only [hany1, hany2, Bool.false_eq_true, if_false, if_true, or_true, hnone]
      · simp only [hany1, hany2, Bool.false_eq_true, if_false, or_self]

end ThrowingVector

/-! ## The two parts agree -/

section Agreement

variable {α : Type}

/-- When no element operation throws, the operations with exceptions return, on well-formed
containers, exactly what the operations of the first part return. -/
theorem Vector.agrees_without_throw (T : ThrowOps α) (v w : Vector α) (i n : Nat) (x : α)
    (hv : v.Inv) (hw : w.Inv) (hcopy : ∀ y : α, T.copyThrows y = false)
    (hmove : ∀ y : α, T.moveFails y = false)
    (hassign : ∀ y z : α, T.copyAssignThrows y z = false)
    (hfit : n ≤ v.Capacity ∨ n * T.sizeofT < sizeModulus) :
    Vector.copyCtorE T w = Outcome.ofOption (Vector.copyCtor w) ∧
    Vector.copyAssignE T v w = Outcome.ofOption (Vector.copyAssign v w) ∧
    Vector.ReserveE T v n = Outcome.ofOption (Vector.Reserve T.toElemOps v n) ∧
    (v.Size = v.Capacity → i ≤ v.Size →
      Vector.EmplaceE T v i x false = Outcome.ofOption (Vector.Emplace T.toElemOps v i x)) := by
  have hanyc : ∀ xs : List α, xs.any T.copyThrows = false := fun xs =>
    List.any_eq_false.mpr (fun y _ => by simp [hcopy y])
  have hanym : ∀ xs : List α, xs.any T.moveFails = false := fun xs =>
    List.any_eq_false.mpr (fun y _ => by simp [hmove y])
  have hanya : ∀ ps : List (α × α), ps.any (fun p => T.copyAssignThrows p.1 p.2) = false :=
    fun ps => List.any_eq_false.mpr (fun p _ => by simp [hassign p.1 p.2])
  have hsv : v.toList.length = v.Size := hv.2.2
  have hsw : w.toList.length = w.Size := hw.2.2
  refine ⟨?_, ?_, ?_, ?_⟩
  · have h := Vector.copyCtorE_ofList T w.toList w.data_.capacity_
    rw [← hw.eq_ofList, hanyc, hsw] at h
    rw [h, Vector.copyCtor_of_Inv hw]
    rfl
  · rw [Vector.copyAssign_of_Inv hv hw]
    by_cases hgt : v.data_.capacity_ < w.toList.length
    · have h := Vector.copyAssignE_realloc T v.toList w.toList v.data_.capacity_
        w.data_.capacity_ hgt
      rw [← hv.eq_ofList, ← hw.eq_ofList, hanyc] at h
      have hgt' : w.Size > v.Capacity := by rw [← hsw]; exact hgt
      rw [h, if_pos hgt', hsw]
      rfl
    · have hdone := Vector.copyAssignE_inplace T v.toList w.toList v.data_.capacity_
        w.data_.capacity_ hv.length_le (by omega)
      rw [← hv.eq_ofList, ← hw.eq_ofList, hanya, hanyc] at hdone
      have hgt' : ¬ w.Size > v.Capacity := by rw [← hsw]; exact hgt
      rw [hdone, if_neg hgt']
      simp [Outcome.ofOption, Vector.Capacity, RawMemory.Capacity]
  · rw [Vector.Reserve_of_Inv T.toElemOps n hv hfit]
    by_cases hle : n ≤ v.data_.capacity_
    · have e : max v.Capacity n = v.data_.capacity_ := Nat.max_eq_left hle
      rw [e, ← hv.eq_ofList]
      simp [Vector.ReserveE, RawMemory.Capacity, hle, Outcome.ofOption]
    · have h := Vector.ReserveE_grow T v.toList v.data_.capacity_ n hv.length_le (by omega)
        (hfit.resolve_left hle)
      rw [← hv.eq_ofList, hanym, hanyc] at h
      have e : max v.Capacity n = n := Nat.max_eq_right (by
        show v.data_.capacity_ ≤ n
        omega)
      rw [h, e]
      simp [Outcome.ofOption]
  · intro hfull hi
    have hcap : v.data_.capacity_ = v.toList.length := by rw [hsv]; exact hfull.symm
    have hveq : v = Vector.ofList v.toList v.toList.length := by
      have e := hv.eq_ofList
      rw [hcap] at e
      exact e
    have h := Vector.EmplaceE_full T v.toList i x false (by rw [hsv]; exact hi)
    rw [← hveq, hanym, hanyc] at h
    rw [h, Vector.Emplace_of_Inv T.toElemOps i x hv hi, hsv, ← hfull]
    simp [Outcome.ofOption]

end Agreement

/-! ## Value-initialization, in-place insertion and erasure when element operations throw -/

section ThrowingInPlace

variable {α : Type}

@[simp] theorem Outcome.threwOf_some {δ τ : Type} (s : τ) :
    (Outcome.threwOf (some s) : Outcome δ τ) = Outcome.threw s := rfl

theorem any_range_succ (f : Nat → Bool) (n : Nat) :
    (List.range (n + 1)).any f = (f 0 || (List.range n).any (fun i => f (i + 1))) := by
  rw [List.range_succ_eq_map, List.any_cons, List.any_map]
  rfl

/-- `std::uninitialized_value_construct_n` over `n` uninitialized slots: it completes when no
construction throws, and otherwise leaves the memory as it found it. -/
theorem uninitialized_value_construct_nE_spec (T : ThrowOps α) (r : Region) (n : Nat) :
    ∀ (m : Mem α) (pre post : Block α) (k j : Nat),
      m.block r = pre ++ List.replicate n none ++ post → k = pre.length →
      uninitialized_value_construct_nE T m ⟨r, k⟩ j n =
        if (List.range n).any (fun i => T.valueInitThrows (j + i)) then Outcome.threw m
        else Outcome.done (m.setBlock r (pre ++ List.replicate n (some T.valueInit) ++ post)) := by
  induction n with
  | zero =>
    intro m pre post k j hb _
    simp only [uninitialized_value_construct_nE, List.replicate_zero, List.range_zero,
      List.any_nil, Bool.false_eq_true, if_false] at hb ⊢
    rw [← hb, Mem.setBlock_block]
  | succ n ih =>
    intro m pre post k j hb hk
    have hb1 : m.block r = pre ++ none :: (List.replicate n none ++ post) := by
      rw [hb, List.replicate_succ]; simp
    have hfun : (fun i => T.valueInitThrows (j + (i + 1))) =
        (fun i => T.valueInitThrows (j + 1 + i)) := by
      funext i
      congr 1
      omega
    rw [uninitialized_value_construct_nE, Mem.constructE, any_range_succ, hfun]
    by_cases h0 : T.valueInitThrows j = true
    · simp only [Nat.add_zero, h0, if_true, Outcome.andThen_threw, Bool.true_or]
    · simp only [Nat.add_zero, h0, Bool.false_eq_true, if_false, Bool.false_or,
        Mem.construct_mid m r k pre _ T.valueInit hb1 hk, Outcome.ofOption_some,
        Outcome.andThen_done, Ptr.add]
      rw [ih _ (pre ++ [some T.valueInit]) post (k + 1) (j + 1) (by simp) (by simp [hk])]
      by_cases hany : (List.range n).any (fun i => T.valueInitThrows (j + 1 + i)) = true
      · simp only [hany, if_true]
        rw [Outcome.onThrow_threw _ m _
          (by rw [Mem.destroy_mid _ r k pre (List.replicate n none ++ post) T.valueInit
                (by simp) hk, Mem.setBlock_setBlock, ← hb1, Mem.setBlock_block])]
      · simp only [hany, Bool.false_eq_true, if_false, Outcome.onThrow_done,
          Mem.setBlock_setBlock]
        simp [List.replicate_succ]

/-- The sized constructor when value-initializations can throw: a container of `n`
value-initialized elements, or no container. -/
theorem Vector.sizedE_eq (T : ThrowOps α) (n : Nat) (hn : n * T.sizeofT < sizeModulus) :
    Vector.sizedE T n =
      if (List.range n).any T.valueInitThrows then Outcome.threw ()
      else Outcome.done (Vector.ofList (List.replicate n T.valueInit) n) := by
  have h := uninitialized_value_construct_nE_spec T Region.own n
    (⟨List.replicate n none, []⟩ : Mem α) [] [] 0 0 (by simp [Mem.block]) rfl
  have hfun : (fun i => T.valueInitThrows (0 + i)) = T.valueInitThrows := by
    funext i
    rw [Nat.zero_add]
  rw [hfun] at h
  simp only [Vector.sizedE, RawMemory.sized, Allocate_eq T.toElemOps n hn, h]
  split
  · rfl
  · simp [Mem.setBlock, Vector.ofList]

/-! ### A run with exceptions follows the run without -/

theorem Outcome.Follows.andThen {σ : Type} {o : Outcome σ σ} {p : Option σ}
    {f : σ → Outcome σ σ} {g : σ → Option σ} (h : o.Follows p)
    (hf : ∀ s : σ, (f s).Follows (g s)) : (o.andThen f).Follows (p.bind g) := by
  intro r hr
  cases p with
  | none => simp at hr
  | some s =>
    rcases h s rfl with hd | ⟨t, ht⟩
    · rw [hd]
      exact hf s r hr
    · right
      exact ⟨t, by rw [ht]; rfl⟩

theorem Outcome.Follows.ofOption {σ : Type} (p : Option σ) :
    (Outcome.ofOption p : Outcome σ σ).Follows p := by
  intro r hr
  left
  rw [hr]
  rfl

theorem Outcome.Follows.threw {σ : Type} (s : σ) (p : Option σ) :
    (Outcome.threw s : Outcome σ σ).Follows p :=
  fun _ _ => Or.inr ⟨s, rfl⟩

/-- A live slot can be assigned. -/
theorem Mem.assign_of_load {m : Mem α} {p : Ptr} {y : α} (h : m.load p = some y) (x : α) :
    m.assign p x = some (m.setBlock p.region ((m.block p.region).set p.off (some x))) := by
  unfold Mem.load at h
  unfold Mem.assign
  split at h
  · rfl
  · simp at h

/-- A slot is live after an assignment to any slot if it was live before. -/
theorem Mem.load_after_assign {m m' : Mem α} {p q : Ptr} {x y : α}
    (ha : m.assign p x = some m') (hq : m.load q = some y) : ∃ z : α, m'.load q = some z := by
  have hp : ∃ w : α, m.load p = some w := by
    unfold Mem.assign at ha
    unfold Mem.load
    split at ha
    · rename_i w hw
      exact ⟨w, rfl⟩
    · simp at ha
  obtain ⟨w, hw⟩ := hp
  rw [Mem.assign_of_load hw x] at ha
  injection ha with ha
  subst ha
  by_cases hr : q.region = p.region
  · by_cases ho : q.off = p.off
    · refine ⟨x, ?_⟩
      have hlt : p.off < (m.block p.region).length := by
        unfold Mem.load at hw
        split at hw
        · rename_i z hz
          exact (List.getElem?_eq_some_iff.mp hz).1
        · simp at hw
      unfold Mem.load
      rw [hr, ho, Mem.block_setBlock_same]
      simp [hlt]
    · refine ⟨y, ?_⟩
      unfold Mem.load at hq ⊢
      rw [hr, Mem.block_setBlock_same, List.getElem?_set_ne (Ne.symm ho)]
      rw [hr] at hq
      exact hq
  · refine ⟨y, ?_⟩
    unfold Mem.load at hq ⊢
    rw [Mem.block_setBlock_ne _ _ (Ne.symm hr)]
    exact hq

theorem Mem.constructE_follows (m : Mem α) (p : Ptr) (x : α) (c : Bool) :
    (m.constructE p x c).Follows (m.construct p x) := by
  unfold Mem.constructE
  split
  · exact Outcome.Follows.threw _ _
  · exact Outcome.Follows.ofOption _

theorem Mem.copyConstructE_follows (T : ThrowOps α) (m : Mem α) (d s : Ptr) :
    (m.copyConstructE T d s).Follows (m.copyConstruct d s) := by
  unfold Mem.copyConstructE Mem.copyConstruct
  cases hl : m.load s with
  | none => intro r hr; simp at hr
  | some x => exact Mem.constructE_follows m d x _

theorem Mem.moveConstructE_follows (T : ThrowOps α) (m : Mem α) (d s : Ptr) :
    (m.moveConstructE T d s).Follows (m.moveConstruct T.toElemOps d s) := by
  unfold Mem.moveConstructE
  cases hl : m.load s with
  | none => intro r hr; simp [Mem.moveConstruct, hl] at hr
  | some x =>
    simp only
    split
    · rw [Mem.assign_of_load hl]
      exact Outcome.Follows.threw _ _
    · exact Outcome.Follows.ofOption _

theorem Mem.moveAssignE_follows (T : ThrowOps α) (m : Mem α) (d s : Ptr) :
    (m.moveAssignE T d s).Follows (m.moveAssign T.toElemOps d s) := by
  intro r hr
  unfold Mem.moveAssign at hr
  cases hl : m.load s with
  | none => simp [hl] at hr
  | some x =>
    simp only [hl, Option.bind_eq_bind, Option.some_bind] at hr
    cases hd : m.load d with
    | none =>
      exfalso
      unfold Mem.load at hd
      unfold Mem.assign at hr
      split at hd
      · simp at hd
      · rename_i hne
        split at hr
        · rename_i z hz
          exact hne z hz
        · simp at hr
    | some y =>
      unfold Mem.moveAssignE
      simp only [hl, hd]
      split
      · right
        obtain ⟨z, hz⟩ := Mem.load_after_assign
          (Mem.assign_of_load hd (T.failedMoveAssign y x).1) hl
        rw [Mem.assign_of_load hd]
        simp only [Option.bind_eq_bind, Option.some_bind]
        rw [Mem.assign_of_load hz]
        exact ⟨_, rfl⟩
      · left
        unfold Mem.moveAssign
        simp only [hl, Option.bind_eq_bind, Option.some_bind, hr]
        rfl

theorem Mem.moveAssignLocalE_follows (T : ThrowOps α) (m : Mem α) (d : Ptr) (temp : α) :
    (m.moveAssignLocalE T d temp).Follows (m.assign d temp) := by
  unfold Mem.moveAssignLocalE
  cases hd : m.load d with
  | none =>
    intro r hr
    exfalso
    unfold Mem.load at hd
    unfold Mem.assign at hr
    split at hd
    · simp at hd
    · rename_i hne
      split at hr
      · rename_i z hz
        exact hne z hz
      · simp at hr
  | some y =>
    simp only
    split
    · rw [Mem.assign_of_load hd]
      exact Outcome.Follows.threw _ _
    · exact Outcome.Follows.ofOption _

theorem moveLoopE_follows (T : ThrowOps α) (n : Nat) :
    ∀ (m : Mem α) (first d_first : Ptr),
      (moveLoopE T m first n d_first).Follows (moveLoop T.toElemOps m first n d_first) := by
  induction n with
  | zero =>
    intro m first d_first r hr
    left
    simp only [moveLoop] at hr
    injection hr with hr
    rw [moveLoopE, hr]
  | succ n ih =>
    intro m first d_first
    rw [moveLoopE, moveLoop]
    exact Outcome.Follows.andThen (Mem.moveAssignE_follows T m d_first first)
      (fun s => ih s _ _)

theorem moveE_follows (T : ThrowOps α) (m : Mem α) (first last d_first : Ptr) :
    (moveE T m first last d_first).Follows (move T.toElemOps m first last d_first) := by
  unfold moveE move
  split
  · exact moveLoopE_follows T _ m first d_first
  · intro r hr
    simp at hr

theorem moveBackwardLoopE_follows (T : ThrowOps α) (n : Nat) :
    ∀ (m : Mem α) (first d_last : Ptr),
      (moveBackwardLoopE T m first n d_last).Follows
        (moveBackwardLoop T.toElemOps m first n d_last) := by
  induction n with
  | zero =>
    intro m first d_last r hr
    left
    simp only [moveBackwardLoop] at hr
    injection hr with hr
    rw [moveBackwardLoopE, hr]
  | succ n ih =>
    intro m first d_last
    rw [moveBackwardLoopE, moveBackwardLoop]
    split
    · intro r hr
      simp at hr
    · exact Outcome.Follows.andThen (Mem.moveAssignE_follows T m _ _) (fun s => ih s _ _)

theorem move_backwardE_follows (T : ThrowOps α) (m : Mem α) (first last d_last : Ptr) :
    (move_backwardE T m first last d_last).Follows
      (move_backward T.toElemOps m first last d_last) := by
  unfold move_backwardE move_backward
  split
  · exact moveBackwardLoopE_follows T _ m first d_last
  · intro r hr
    simp at hr

theorem Outcome.andThen_done_right {σ : Type} (o : Outcome σ σ) (h : σ → Option σ) :
    (o.andThen fun m => (Outcome.done m : Outcome σ σ).onThrow h) = o := by
  cases o <;> rfl

/-- Relocating one element, as the in-place branch of `Emplace` does. -/
theorem relocate_oneE_follows (T : ThrowOps α) (m : Mem α) (s d : Ptr) :
    (if T.relocateByMove then uninitialized_move_nE T m s 1 d
      else uninitialized_copy_nE T m s 1 d).Follows
      (if T.relocateByMove then uninitialized_move_n T.toElemOps m s 1 d
        else uninitialized_copy_n m s 1 d) := by
  have e1 : uninitialized_move_nE T m s 1 d = m.moveConstructE T d s := by
    simp only [uninitialized_move_nE]
    exact Outcome.andThen_done_right _ _
  have e2 : uninitialized_copy_nE T m s 1 d = m.copyConstructE T d s := by
    simp only [uninitialized_copy_nE]
    exact Outcome.andThen_done_right _ _
  have e3 : uninitialized_move_n T.toElemOps m s 1 d = m.moveConstruct T.toElemOps d s := by
    simp only [uninitialized_move_n, Option.bind_eq_bind]
    cases m.moveConstruct T.toElemOps d s <;> rfl
  have e4 : uninitialized_copy_n m s 1 d = m.copyConstruct d s := by
    simp only [uninitialized_copy_n, Option.bind_eq_bind]
    cases m.copyConstruct d s <;> rfl
  rw [e1, e2, e3, e4]
  split
  · exact Mem.moveConstructE_follows T m d s
  · exact Mem.copyConstructE_follows T m d s

/-- From the memory level to the container: when the run without exceptions returns `f r`,
the run with exceptions returns the same or throws, leaving `g s` for some memory `s`. -/
theorem Outcome.Follows.mapBoth {σ δ τ : Type} {o : Outcome σ σ} {p : Option σ}
    (h : o.Follows p) (f : σ → δ) (g : σ → τ) {r : σ} (hp : p = some r) :
    o.mapBoth f g = Outcome.done (f r) ∨ ∃ s : σ, o.mapBoth f g = Outcome.threw (g s) := by
  rcases h r hp with hd | ⟨s, hs⟩
  · left
    rw [hd]
    rfl
  · right
    exact ⟨s, by rw [hs]; rfl⟩

end ThrowingInPlace

/-! ## Both ways out of every operation -/

section BothExits

variable {α : Type}

theorem Outcome.Both.mono {δ τ : Type} {P P' : δ → Prop} {Q Q' : τ → Prop}
    {o : Outcome δ τ} (h : o.Both P Q) (hP : ∀ r : δ, P r → P' r) (hQ : ∀ s : τ, Q s → Q' s) :
    o.Both P' Q' := by
  cases o with
  | done r => exact hP r h
  | threw s => exact hQ s h
  | undefined => exact h

theorem Outcome.both_of_done {δ τ : Type} {P : δ → Prop} {Q : τ → Prop} {o : Outcome δ τ}
    {r : δ} (ho : o = Outcome.done r) (h : P r) : o.Both P Q := by
  rw [ho]
  exact h

theorem Outcome.both_of_threw {δ τ : Type} {P : δ → Prop} {Q : τ → Prop} {o : Outcome δ τ}
    {s : τ} (ho : o = Outcome.threw s) (h : Q s) : o.Both P Q := by
  rw [ho]
  exact h

theorem Option.bind_chain {σ δ : Type} {A : Option σ} {B C : σ → Option σ} {f : σ → δ}
    {r : δ}
    (h : (A.bind fun y => (B y).bind fun m => (C m).bind fun y => some (f y)) = some r) :
    ∃ m : σ, (A.bind B).bind C = some m ∧ f m = r := by
  cases A with
  | none => simp at h
  | some a =>
    simp only [Option.some_bind] at h ⊢
    cases hB : B a with
    | none => simp [hB] at h
    | some b =>
      simp only [hB, Option.some_bind] at h ⊢
      cases hC : C b with
      | none => simp [hC] at h
      | some c =>
        simp only [hC, Option.some_bind] at h
        injection h with h
        exact ⟨c, rfl, h⟩

/-- The in-place branch of `Emplace` at the memory level, with and without exceptions. -/
theorem Vector.EmplaceE_inplace (T : ThrowOps α) (v : Vector α) (i : Nat) (x : α) (c : Bool)
    (hi : i ≤ v.size_) (hlt : v.size_ < v.data_.capacity_) (r : Vector α × Nat)
    (hr : Vector.Emplace T.toElemOps v i x = some r) :
    Vector.EmplaceE T v i x c = Outcome.done r ∨
      ∃ m : Mem α, Vector.EmplaceE T v i x c =
        Outcome.threw ⟨⟨m.own, v.data_.capacity_⟩, v.size_⟩ := by
  unfold Vector.Emplace at hr
  unfold Vector.EmplaceE
  simp only [hi, not_true_eq_false, if_false, RawMemory.Capacity, hlt, if_true,
    Option.pure_def, Option.bind_eq_bind] at hr ⊢
  by_cases hpos : i = v.size_
  · simp only [hpos, if_true] at hr ⊢
    cases hk : (⟨v.data_.buffer_, []⟩ : Mem α).construct ⟨Region.own, v.size_⟩ x with
    | none => simp [hk] at hr
    | some m =>
      simp only [hk, Option.some_bind] at hr
      injection hr with hr
      rcases (Mem.constructE_follows (⟨v.data_.buffer_, []⟩ : Mem α) ⟨Region.own, v.size_⟩ x
        c).mapBoth (fun m => ((⟨⟨m.own, v.data_.capacity_⟩, v.size_ + 1⟩ : Vector α), v.size_))
        (fun m => (⟨⟨m.own, v.data_.capacity_⟩, v.size_⟩ : Vector α)) hk with hd | ⟨s, hs⟩
      · left
        rw [hd, hr]
      · right
        exact ⟨s, hs⟩
  · simp only [hpos, if_false] at hr ⊢
    by_cases hc : c = true
    · right
      exact ⟨⟨v.data_.buffer_, []⟩, by simp only [hc, if_true, Outcome.mapBoth_threw]⟩
    · simp only [hc, Bool.false_eq_true, if_false]
      have hF := ((relocate_oneE_follows T (⟨v.data_.buffer_, []⟩ : Mem α)
        ⟨Region.own, v.size_ - 1⟩ ⟨Region.own, v.size_⟩).andThen
        (fun m => move_backwardE_follows T m ⟨Region.own, i⟩ ⟨Region.own, v.size_ - 1⟩
          ⟨Region.own, v.size_⟩)).andThen
        (fun m => Mem.moveAssignLocalE_follows T m ⟨Region.own, i⟩ x)
      by_cases hT : T.relocateByMove = true
      · simp only [hT, if_true] at hr hF ⊢
        obtain ⟨m, hk, hm⟩ := Option.bind_chain hr
        rcases hF.mapBoth
          (fun m => ((⟨⟨m.own, v.data_.capacity_⟩, v.size_ + 1⟩ : Vector α), i))
          (fun m => (⟨⟨m.own, v.data_.capacity_⟩, v.size_⟩ : Vector α)) hk with hd | ⟨s, hs⟩
        · left
          rw [hd, hm]
        · right
          exact ⟨s, hs⟩
      · simp only [hT, Bool.false_eq_true, if_false] at hr hF ⊢
        obtain ⟨m, hk, hm⟩ := Option.bind_chain hr
        rcases hF.mapBoth
          (fun m => ((⟨⟨m.own, v.data_.capacity_⟩, v.size_ + 1⟩ : Vector α), i))
          (fun m => (⟨⟨m.own, v.data_.capacity_⟩, v.size_⟩ : Vector α)) hk with hd | ⟨s, hs⟩
        · left
          rw [hd, hm]
        · right
          exact ⟨s, hs⟩

/-- `Emplace` on a well-formed container, both ways out: it returns what the run without
exceptions returns, or throws with `size_` and `capacity_` as they were. -/
theorem Vector.EmplaceE_both (T : ThrowOps α) {v : Vector α} (i : Nat) (x : α) (c : Bool)
    (hv : v.Inv) (hi : i ≤ v.Size) :
    (Vector.EmplaceE T v i x c).Both
      (fun r => Vector.Emplace T.toElemOps v i x = some r)
      (fun s => s.Size = v.Size ∧ s.Capacity = v.Capacity) := by
  have hplain := Vector.Emplace_of_Inv T.toElemOps i x hv hi
  by_cases hlt : v.size_ < v.data_.capacity_
  · rcases Vector.EmplaceE_inplace T v i x c hi hlt _ hplain with hd | ⟨m, hm⟩
    · exact Outcome.both_of_done hd hplain
    · exact Outcome.both_of_threw hm ⟨rfl, rfl⟩
  · have hsz : v.toList.length = v.Size := hv.2.2
    have hfull : v.data_.capacity_ = v.toList.length := by
      have := hv.1
      rw [hsz]
      show v.data_.capacity_ = v.size_
      omega
    have hveq : v = Vector.ofList v.toList v.toList.length := by
      have e := hv.eq_ofList
      rw [hfull] at e
      exact e
    have h := Vector.EmplaceE_full T v.toList i x c (by rw [hsz]; exact hi)
    rw [← hveq] at h
    have hcap : emplaceCapacity v.toList.length v.toList.length =
        emplaceCapacity v.Size v.Capacity := by
      rw [hsz]
      show _ = emplaceCapacity v.Size v.data_.capacity_
      rw [hfull, hsz]
    rw [hcap] at h
    have hlen := T.length_afterFailedMove v.toList
    by_cases hc : c = true
    · rw [if_pos hc] at h
      exact Outcome.both_of_threw h ⟨rfl, rfl⟩
    · rw [if_neg hc] at h
      by_cases hT : T.relocateByMove = true
      · rw [if_pos hT] at h
        by_cases hany : v.toList.any T.moveFails = true
        · rw [if_pos hany] at h
          exact Outcome.both_of_threw h
            ⟨by simp [Vector.Size, Vector.ofList, hlen, hsz],
              by simp [Vector.Capacity, RawMemory.Capacity, Vector.ofList, hfull]⟩
        · rw [if_neg hany] at h
          exact Outcome.both_of_done h hplain
      · rw [if_neg hT] at h
        by_cases hany : v.toList.any T.copyThrows = true
        · rw [if_pos hany] at h
          exact Outcome.both_of_threw h ⟨rfl, rfl⟩
        · rw [if_neg hany] at h
          exact Outcome.both_of_done h hplain

theorem Vector.EmplaceBackE_both (T : ThrowOps α) {v : Vector α} (x : α) (c : Bool)
    (hv : v.Inv) :
    (Vector.EmplaceBackE T v x c).Both
      (fun r => Vector.EmplaceBack T.toElemOps v x = some r)
      (fun s => s.Size = v.Size ∧ s.Capacity = v.Capacity) :=
  Vector.EmplaceE_both T v.size_ x c hv (Nat.le_refl _)

theorem Vector.InsertE_both (T : ThrowOps α) {v : Vector α} (i : Nat) (x : α)
    (hv : v.Inv) (hi : i ≤ v.Size) :
    (Vector.InsertE T v i x).Both
      (fun r => Vector.Insert T.toElemOps v i x = some r)
      (fun s => s.Size = v.Size ∧ s.Capacity = v.Capacity) :=
  Vector.EmplaceE_both T i x _ hv hi

theorem Vector.PushBackE_both (T : ThrowOps α) {v : Vector α} (x : α) (hv : v.Inv) :
    (Vector.PushBackE T v x).Both
      (fun r => Vector.PushBack T.toElemOps v x = some r)
      (fun s => s.Size = v.Size ∧ s.Capacity = v.Capacity) := by
  have h := Vector.EmplaceE_both T v.size_ x (T.copyThrows x) hv (Nat.le_refl _)
  unfold Vector.PushBackE
  cases he : Vector.EmplaceE T v v.size_ x (T.copyThrows x) with
  | done r =>
    rw [he] at h
    show Vector.PushBack T.toElemOps v x = some r.1
    have h' : Vector.Emplace T.toElemOps v v.size_ x = some r := h
    simp [Vector.PushBack, Vector.EmplaceBack, h']
  | threw s =>
    rw [he] at h
    exact h
  | undefined =>
    rw [he] at h
    exact h

/-- `Erase` on a well-formed container, both ways out. -/
theorem Vector.EraseE_both (T : ThrowOps α) {v : Vector α} (i : Nat) (hv : v.Inv)
    (hi : i < v.Size) :
    (Vector.EraseE T v i).Both
      (fun r => Vector.Erase T.toElemOps v i = some r)
      (fun s => s.Size = v.Size ∧ s.Capacity = v.Capacity) := by
  have hplain := Vector.Erase_of_Inv T.toElemOps i hv hi
  have hi' : i < v.size_ := hi
  have hr := hplain
  unfold Vector.Erase at hr
  unfold Vector.EraseE
  simp only [hi', not_true_eq_false, if_false, Option.pure_def, Option.bind_eq_bind] at hr ⊢
  have hF := (moveE_follows T (⟨v.data_.buffer_, []⟩ : Mem α) ⟨Region.own, i + 1⟩
    ⟨Region.own, v.size_⟩ ⟨Region.own, i⟩).andThen
    (fun m => Outcome.Follows.ofOption (destroy_n m ⟨Region.own, v.size_ - 1⟩ 1))
  cases hk : (move T.toElemOps (⟨v.data_.buffer_, []⟩ : Mem α) ⟨Region.own, i + 1⟩
      ⟨Region.own, v.size_⟩ ⟨Region.own, i⟩).bind
      (fun m => destroy_n m ⟨Region.own, v.size_ - 1⟩ 1) with
  | none =>
    exfalso
    cases hm : move T.toElemOps (⟨v.data_.buffer_, []⟩ : Mem α) ⟨Region.own, i + 1⟩
        ⟨Region.own, v.size_⟩ ⟨Region.own, i⟩ with
    | none => simp [hm] at hr
    | some m1 =>
      simp only [hm, Option.some_bind] at hr hk
      simp [hk] at hr
  | some m =>
    have hres : Vector.Erase T.toElemOps v i =
        some (⟨⟨m.own, v.data_.capacity_⟩, v.size_ - 1⟩, i) := by
      unfold Vector.Erase
      simp only [hi', not_true_eq_false, if_false, Option.pure_def, Option.bind_eq_bind]
      cases hm : move T.toElemOps (⟨v.data_.buffer_, []⟩ : Mem α) ⟨Region.own, i + 1⟩
          ⟨Region.own, v.size_⟩ ⟨Region.own, i⟩ with
      | none => simp [hm] at hk
      | some m1 =>
        simp only [hm, Option.some_bind] at hk ⊢
        simp [hk]
    rcases hF.mapBoth
      (fun m => ((⟨⟨m.own, v.data_.capacity_⟩, v.size_ - 1⟩ : Vector α), i))
      (fun m => (⟨⟨m.own, v.data_.capacity_⟩, v.size_⟩ : Vector α)) hk with hd | ⟨s, hs⟩
    · exact Outcome.both_of_done hd hres
    · exact Outcome.both_of_threw hs ⟨rfl, rfl⟩

/-- `Reserve` on a well-formed container, both ways out. -/
theorem Vector.ReserveE_both (T : ThrowOps α) {v : Vector α} (n : Nat) (hv : v.Inv)
    (hfit : n ≤ v.Capacity ∨ n * T.sizeofT < sizeModulus) :
    (Vector.ReserveE T v n).Both
      (fun r => Vector.Reserve T.toElemOps v n = some r)
      (fun s => s.Size = v.Size ∧ s.Capacity = v.Capacity ∧ s.Inv) := by
  have hplain := Vector.Reserve_of_Inv T.toElemOps n hv hfit
  have hsz : v.toList.length = v.Size := hv.2.2
  by_cases hle : n ≤ v.data_.capacity_
  · have e : max v.Capacity n = v.data_.capacity_ := Nat.max_eq_left hle
    rw [e, ← hv.eq_ofList] at hplain
    have hd : Vector.ReserveE T v n = Outcome.done v := by
      simp [Vector.ReserveE, RawMemory.Capacity, hle]
    exact Outcome.both_of_done hd hplain
  · have h := Vector.ReserveE_grow T v.toList v.data_.capacity_ n hv.length_le (by omega)
      (hfit.resolve_left hle)
    rw [← hv.eq_ofList] at h
    have e : max v.Capacity n = n := Nat.max_eq_right (by
      show v.data_.capacity_ ≤ n
      omega)
    rw [e] at hplain
    have hlen := T.length_afterFailedMove v.toList
    by_cases hT : T.relocateByMove = true
    · rw [if_pos hT] at h
      by_cases hany : v.toList.any T.moveFails = true
      · rw [if_pos hany] at h
        exact Outcome.both_of_threw h
          ⟨by simp [Vector.Size, Vector.ofList, hlen, hsz], rfl,
            Vector.Inv_ofList _ _ (by rw [hlen]; exact hv.length_le)⟩
      · rw [if_neg hany] at h
        exact Outcome.both_of_done h hplain
    · rw [if_neg hT] at h
      by_cases hany : v.toList.any T.copyThrows = true
      · rw [if_pos hany] at h
        exact Outcome.both_of_threw h ⟨rfl, rfl, hv⟩
      · rw [if_neg hany] at h
        exact Outcome.both_of_done h hplain

/-- The copy constructor on a well-formed source, both ways out. -/
theorem Vector.copyCtorE_both (T : ThrowOps α) {w : Vector α} (hw : w.Inv) :
    (Vector.copyCtorE T w).Both
      (fun r => Vector.copyCtor w = some r)
      (fun s => s = w) := by
  have hplain := Vector.copyCtor_of_Inv hw
  have h := Vector.copyCtorE_ofList T w.toList w.data_.capacity_
  rw [← hw.eq_ofList, hw.2.2] at h
  by_cases hany : w.toList.any T.copyThrows = true
  · rw [if_pos hany] at h
    exact Outcome.both_of_threw h rfl
  · rw [if_neg hany] at h
    exact Outcome.both_of_done h hplain

/-- Copy assignment between well-formed containers, both ways out. -/
theorem Vector.copyAssignE_both (T : ThrowOps α) {v w : Vector α} (hv : v.Inv) (hw : w.Inv) :
    (Vector.copyAssignE T v w).Both
      (fun r => Vector.copyAssign v w = some r)
      (fun s => s.1.Size = v.Size ∧ s.1.Capacity = v.Capacity ∧ s.1.Inv ∧ s.2 = w) := by
  have hplain := Vector.copyAssign_of_Inv hv hw
  have hsv : v.toList.length = v.Size := hv.2.2
  have hsw : w.toList.length = w.Size := hw.2.2
  by_cases hgt : v.data_.capacity_ < w.toList.length
  · have h := Vector.copyAssignE_realloc T v.toList w.toList v.data_.capacity_
      w.data_.capacity_ hgt
    rw [← hv.eq_ofList, ← hw.eq_ofList] at h
    have hgt' : w.Size > v.Capacity := by rw [← hsw]; exact hgt
    rw [if_pos hgt'] at hplain
    by_cases hany : w.toList.any T.copyThrows = true
    · rw [if_pos hany] at h
      exact Outcome.both_of_threw h ⟨rfl, rfl, hv, rfl⟩
    · rw [if_neg hany, hsw] at h
      exact Outcome.both_of_done h hplain
  · have h := Vector.copyAssignE_inplace T v.toList w.toList v.data_.capacity_
      w.data_.capacity_ hv.length_le (by omega)
    rw [← hw.eq_ofList] at h
    have hgt' : ¬ w.Size > v.Capacity := by rw [← hsw]; exact hgt
    rw [if_neg hgt'] at hplain
    have hlen := T.length_afterFailedCopy v.toList w.toList
    by_cases hany : (v.toList.zip w.toList).any (fun p => T.copyAssignThrows p.1 p.2) = true ∨
        (w.toList.drop v.toList.length).any T.copyThrows = true
    · rw [if_pos hany, ← hv.eq_ofList] at h
      exact Outcome.both_of_threw h
        ⟨by simp [Vector.Size, Vector.ofList, hlen, hsv], rfl,
          Vector.Inv_ofList _ _ (by rw [hlen]; exact hv.length_le), rfl⟩
    · rw [if_neg hany, ← hv.eq_ofList] at h
      exact Outcome.both_of_done h hplain

/-- The sized constructor, both ways out: a container, or none. -/
theorem Vector.sizedE_both (T : ThrowOps α) (n : Nat) (hn : n * T.sizeofT < sizeModulus) :
    (Vector.sizedE T n).Both (fun r => Vector.sized T.toElemOps n = some r)
      (fun _ => True) := by
  have h := Vector.sizedE_eq T n hn
  by_cases hany : (List.range n).any T.valueInitThrows = true
  · rw [if_pos hany] at h
    exact Outcome.both_of_threw h trivial
  · rw [if_neg hany] at h
    exact Outcome.both_of_done h (Vector.sized_eq T.toElemOps n hn)

/-- `Resize` on a well-formed container, both ways out: an exception leaves the size as it was
and the capacity as it was or, when `Reserve` had completed, grown. -/
theorem Vector.ResizeE_both (T : ThrowOps α) {v : Vector α} (n : Nat) (hv : v.Inv)
    (hfit : n ≤ v.Capacity ∨ n * T.sizeofT < sizeModulus) :
    (Vector.ResizeE T v n).Both
      (fun r => Vector.Resize T.toElemOps v n = some r)
      (fun s => s.Size = v.Size ∧ v.Capacity ≤ s.Capacity ∧ s.Inv) := by
  have hplain := Vector.Resize_of_Inv T.toElemOps n hv hfit
  have hsz : v.toList.length = v.Size := hv.2.2
  by_cases hlt : n < v.size_
  · have hr := hplain
    unfold Vector.Resize at hr
    unfold Vector.ResizeE
    simp only [hlt, if_true, Option.pure_def, Option.bind_eq_bind] at hr ⊢
    cases hk : destroy_n (⟨v.data_.buffer_, []⟩ : Mem α) ⟨Region.own, n⟩ (v.size_ - n) with
    | none => simp [hk] at hr
    | some m =>
      have hres : Vector.Resize T.toElemOps v n = some ⟨⟨m.own, v.data_.capacity_⟩, n⟩ := by
        unfold Vector.Resize
        simp only [hlt, if_true, Option.pure_def, Option.bind_eq_bind, hk, Option.some_bind]
      exact Outcome.both_of_done (by simp only [Outcome.ofOption_some, Outcome.mapBoth_done])
        hres
  · by_cases hgt : n > v.size_
    · have hR := Vector.ReserveE_both T n hv hfit
      have hRp := Vector.Reserve_of_Inv T.toElemOps n hv hfit
      unfold Vector.ResizeE
      simp only [hlt, if_false, hgt, if_true]
      cases he : Vector.ReserveE T v n with
      | done v1 =>
        rw [he] at hR
        have hv1 : v1 = Vector.ofList v.toList (max v.Capacity n) := by
          have h1 : Vector.Reserve T.toElemOps v n = some v1 := hR
          rw [hRp] at h1
          injection h1 with h1
          exact h1.symm
        have hn : v.toList.length < n := by rw [hsz]; exact hgt
        have hcap : v.toList.length ≤ max v.Capacity n := by omega
        have hrep : List.replicate (max v.Capacity n - v.toList.length) (none : Option α) =
            List.replicate (n - v.toList.length) none ++
              List.replicate (max v.Capacity n - n) none := by
          rw [← List.replicate_add]
          congr 1
          omega
        have hu := uninitialized_value_construct_nE_spec T Region.own (n - v.toList.length)
          (⟨v.toList.map some ++ (List.replicate (n - v.toList.length) none ++
            List.replicate (max v.Capacity n - n) none), []⟩ : Mem α)
          (v.toList.map some) (List.replicate (max v.Capacity n - n) none) v.toList.length 0
          (by simp [Mem.block]) (by simp)
        have hv1' : v1 = ⟨⟨v.toList.map some ++ (List.replicate (n - v.toList.length) none ++
            List.replicate (max v.Capacity n - n) none), max v.Capacity n⟩,
              v.toList.length⟩ := by
          rw [hv1, Vector.ofList, hrep]
        have hlen : v.toList.length + (n - v.toList.length) = n := by omega
        rw [hv1']
        simp only [hu]
        split
        · refine ⟨by simp [Vector.Size, hsz], by simp [Vector.Capacity, RawMemory.Capacity],
            ?_⟩
          rw [← hrep]
          exact Vector.Inv_ofList _ _ hcap
        · show Vector.Resize T.toElemOps v n = some _
          rw [hplain, if_neg (by show ¬ n ≤ v.size_; omega)]
          rw [← hsz]
          simp only [Outcome.mapBoth_done, Mem.setBlock, Vector.ofList, List.map_append,
            List.map_replicate, List.length_append, List.length_replicate, hlen,
            List.append_assoc]
      | threw s =>
        rw [he] at hR
        exact ⟨hR.1, Nat.le_of_eq hR.2.1.symm, hR.2.2⟩
      | undefined =>
        rw [he] at hR
        exact hR
    · have e : n = v.size_ := by omega
      have hd : Vector.ResizeE T v n = Outcome.done v := by
        simp [Vector.ResizeE, e]
      have hres : Vector.Resize T.toElemOps v n = some v := by
        simp [Vector.Resize, e]
      exact Outcome.both_of_done hd hres

end BothExits

/-! ## Containers in the free store -/

section Addresses

variable {α : Type}

/-- A representation that can be viewed points to no block or to a block of the store. -/
theorem Heap.valid_of_view {h : Heap α} {r : VectorRep} {v : Vector α}
    (hv : h.view r = some v) :
    r.buffer_ = none ∨ ∃ a : Nat, r.buffer_ = some a ∧ a < h.length := by
  cases hb : r.buffer_ with
  | none => exact Or.inl rfl
  | some a =>
    right
    refine ⟨a, rfl, ?_⟩
    unfold Heap.view Heap.block at hv
    rw [hb] at hv
    simp only [Option.map_eq_some'] at hv
    obtain ⟨b, hb', _⟩ := hv
    exact (List.getElem?_eq_some_iff.mp hb').1

/-- What a view of a valid representation reads does not change when the store hands out a
new block. -/
theorem Heap.view_append (h : Heap α) (b : Block α) (q : VectorRep)
    (hq : q.buffer_ = none ∨ ∃ a : Nat, q.buffer_ = some a ∧ a < h.length) :
    (h ++ [b]).view q = h.view q := by
  unfold Heap.view Heap.block
  rcases hq with hn | ⟨a, ha, hlt⟩
  · rw [hn]
  · rw [ha]
    simp only
    rw [List.getElem?_append_left hlt]

/-- What a view reads does not change when a block at another address is written. -/
theorem Heap.view_store_ne (h : Heap α) (p : Option Nat) (b : Block α) (q : VectorRep)
    (hq : q.buffer_ = none ∨ q.buffer_ ≠ p) :
    (h.store p b).view q = h.view q := by
  unfold Heap.view Heap.block Heap.store
  cases p with
  | none => rfl
  | some a' =>
    cases hb : q.buffer_ with
    | none => rfl
    | some a =>
      have hne : a' ≠ a := by
        rcases hq with hn | hne
        · rw [hb] at hn
          exact absurd hn (by simp)
        · intro e
          apply hne
          rw [hb, e]
      simp only
      rw [List.getElem?_set_ne hne]

theorem set_of_getElem? {β : Type} :
    ∀ (l : List β) (i : Nat) (b : β), l[i]? = some b → l.set i b = l
  | [], _, _, h => by simp at h
  | a :: l, 0, b, h => by
    simp only [List.getElem?_cons_zero, Option.some.injEq] at h
    simp [h]
  | a :: l, i + 1, b, h => by
    simp only [List.getElem?_cons_succ] at h
    simp [set_of_getElem? l i b h]

/-- Writing back the block a view has read changes nothing. -/
theorem Heap.store_of_view {h : Heap α} {r : VectorRep} {v : Vector α}
    (hv : h.view r = some v) : h.store r.buffer_ v.data_.buffer_ = h := by
  unfold Heap.view Heap.block at hv
  unfold Heap.store
  cases hb : r.buffer_ with
  | none => rfl
  | some a =>
    rw [hb] at hv
    simp only [Option.map_eq_some'] at hv
    obtain ⟨b, hb', hveq⟩ := hv
    subst hveq
    exact set_of_getElem? h a b hb'

/-- The frame of a member function call: a container whose block is not the block of the
container called reads the same before and after. -/
theorem VectorRep.call_frame {h h2 : Heap α} {r r' : VectorRep}
    {f : Vector α → Option (Vector α)} {moved : Bool}
    (hc : r.call h f moved = some (h2, r')) (q : VectorRep)
    (hq : q.buffer_ = none ∨ ∃ a : Nat, q.buffer_ = some a ∧ a < h.length)
    (hne : q.buffer_ = none ∨ q.buffer_ ≠ r.buffer_) :
    h2.view q = h.view q := by
  unfold VectorRep.call at hc
  cases hv : h.view r with
  | none => simp [hv] at hc
  | some v =>
    cases hf : f v with
    | none => simp [hv, hf] at hc
    | some v' =>
      simp only [hv, hf, Option.pure_def, Option.bind_eq_bind, Option.some_bind] at hc
      cases moved with
      | true =>
        simp only [if_true, Heap.allocate, Option.some.injEq, Prod.mk.injEq] at hc
        rw [← hc.1]
        exact Heap.view_append h _ q hq
      | false =>
        simp only [Bool.false_eq_true, if_false, Option.some.injEq, Prod.mk.injEq] at hc
        rw [← hc.1]
        exact Heap.view_store_ne h _ _ q hne

/-- The copy constructor in the store, on a well-formed source: the store gains one block (none
for an empty source), at an address that is not the source's, holding the copy; every block
already in the store is as it was. -/
theorem VectorRep.copyCtor_in_store {h : Heap α} {A : VectorRep} {Av : Vector α}
    (hA : h.view A = some Av) (hInv : Av.Inv) :
    VectorRep.copyCtor h A =
      some (if A.size_ ≠ 0 then
          (h ++ [(Vector.ofList Av.toList Av.Size).data_.buffer_],
            ⟨some h.length, Av.Size, Av.Size⟩)
        else (h, ⟨none, Av.Size, Av.Size⟩)) := by
  have hsz : Av.toList.length = Av.Size := hInv.2.2
  unfold VectorRep.copyCtor
  simp only [hA, Vector.copyCtor_of_Inv hInv, Option.pure_def, Option.bind_eq_bind,
    Option.some_bind, Heap.store_of_view hA, Heap.allocate]
  split <;> simp [Vector.ofList, hsz]

theorem Heap.size_of_view {h : Heap α} {r : VectorRep} {v : Vector α}
    (hv : h.view r = some v) : v.size_ = r.size_ ∧ v.data_.capacity_ = r.capacity_ := by
  unfold Heap.view at hv
  simp only [Option.map_eq_some'] at hv
  obtain ⟨b, _, hveq⟩ := hv
  subst hveq
  exact ⟨rfl, rfl⟩

/-- Two representations that share a block are not independent: a `PopBack` through one of
them changes what the other reads. -/
theorem VectorRep.shared_block_interferes :
    ∃ (h2 : Heap Int) (r' : VectorRep),
      sampleRep.call sampleHeap Vector.PopBack false = some (h2, r') ∧
      h2.view sampleRep ≠ sampleHeap.view sampleRep := by
  refine ⟨[[some 1, some 2, none, none, none]], ⟨some 0, 5, 2⟩, by decide, by decide⟩

end Addresses

/-! ## Where a relocation by move stops -/

section FailedMove

variable {α : Type}

/-- Where a relocation by move stops: at the first index `j` whose move throws. The elements
below `j` are moved-from, the element `j` is in the state its failed move constructor left it
in, and the elements above `j` are as they were. -/
theorem ThrowOps.afterFailedMove_spec (T : ThrowOps α) (ys : List α)
    (h : ys.any T.moveFails = true) :
    ∃ (j : Nat) (y : α), ys[j]? = some y ∧ T.moveFails y = true ∧
      (ys.take j).any T.moveFails = false ∧
      T.afterFailedMove ys = (ys.take j).map T.movedFrom ++ T.failedMove y :: ys.drop (j + 1) := by
  induction ys with
  | nil => simp at h
  | cons y ys ih =>
    by_cases hy : T.moveFails y = true
    · exact ⟨0, y, by simp, hy, by simp, by simp [ThrowOps.afterFailedMove, hy]⟩
    · simp only [Bool.not_eq_true] at hy
      simp only [List.any_cons, hy, Bool.false_or] at h
      obtain ⟨j, y', hy', ht, hbefore, he⟩ := ih h
      refine ⟨j + 1, y', by simpa using hy', ht, ?_, ?_⟩
      · simp [hy, hbefore]
      · simp [ThrowOps.afterFailedMove, hy, he]

/-- Reading a list of the shape `take j bs ++ z :: drop (j + 1) as`, with `j` inside both
lists. -/
theorem getElem?_patch {β : Type} (as bs : List β) (z : β) (j i : Nat)
    (hj : j < bs.length) :
    (bs.take j ++ z :: as.drop (j + 1))[i]? =
      if i < j then bs[i]? else if i = j then some z else as[i]? := by
  have hlen : (bs.take j).length = j := by
    simp only [List.length_take]
    omega
  by_cases h1 : i < j
  · rw [if_pos h1, List.getElem?_append_left (by rw [hlen]; exact h1),
      List.getElem?_take_of_lt h1]
  · rw [if_neg h1, List.getElem?_append_right (by rw [hlen]; omega), hlen]
    by_cases h2 : i = j
    · rw [if_pos h2, h2, Nat.sub_self, List.getElem?_cons_zero]
    · rw [if_neg h2]
      have e : i - j = (i - j - 1) + 1 := by omega
      rw [e, List.getElem?_cons_succ, List.getElem?_drop]
      congr 1
      omega

end FailedMove

/-! ## What a call that returns leaves in `size_` and `capacity_`, for every argument -/

section Fields

variable {α : Type}

/-- A `Vector(n)` that returns has `size_ = capacity_ = n`, whatever block was obtained. -/
theorem Vector.sized_fields (T : ElemOps α) (n : Nat) (r : Vector α)
    (hr : Vector.sized T n = some r) : r.size_ = n ∧ r.data_.capacity_ = n := by
  unfold Vector.sized at hr
  simp only [Option.pure_def, Option.bind_eq_bind, Option.bind_eq_some] at hr
  obtain ⟨m1, _, hr⟩ := hr
  injection hr with hr
  rw [← hr]
  exact ⟨rfl, rfl⟩

/-- A `Reserve(n)` that returns keeps `size_` and leaves a capacity that is at least the old
one and at least `n`. -/
theorem Vector.Reserve_fields (T : ElemOps α) (u : Vector α) (n : Nat) (r : Vector α)
    (hr : Vector.Reserve T u n = some r) :
    r.size_ = u.size_ ∧ u.data_.capacity_ ≤ r.data_.capacity_ ∧ n ≤ r.data_.capacity_ := by
  unfold Vector.Reserve at hr
  split at hr
  · rename_i hle
    injection hr with hr
    rw [← hr]
    exact ⟨rfl, Nat.le_refl _, hle⟩
  · rename_i hgt
    have hcap : u.data_.capacity_ ≤ n := Nat.le_of_lt (Nat.not_le.mp hgt)
    split at hr <;>
      (simp only [Option.pure_def, Option.bind_eq_bind, Option.bind_eq_some] at hr
       obtain ⟨m1, _, m2, _, hr⟩ := hr
       injection hr with hr
       rw [← hr]
       exact ⟨rfl, hcap, Nat.le_refl _⟩)

/-- A `Resize(n)` that returns leaves `size_ = n` and has not lowered the capacity; it leaves
`size_ ≤ capacity_` if that held before. -/
theorem Vector.Resize_fields (T : ElemOps α) (u : Vector α) (n : Nat) (r : Vector α)
    (hr : Vector.Resize T u n = some r) :
    r.size_ = n ∧ u.data_.capacity_ ≤ r.data_.capacity_ ∧
      (u.size_ ≤ u.data_.capacity_ → r.size_ ≤ r.data_.capacity_) := by
  unfold Vector.Resize at hr
  split at hr
  · rename_i hlt
    simp only [Option.pure_def, Option.bind_eq_bind, Option.bind_eq_some] at hr
    obtain ⟨m1, _, hr⟩ := hr
    injection hr with hr
    rw [← hr]
    exact ⟨rfl, Nat.le_refl _, fun h => Nat.le_trans (Nat.le_of_lt hlt) h⟩
  · split at hr
    · simp only [Option.pure_def, Option.bind_eq_bind, Option.bind_eq_some] at hr
      obtain ⟨v1, hv1, m1, _, hr⟩ := hr
      injection hr with hr
      have hf := Vector.Reserve_fields T u n v1 hv1
      rw [← hr]
      exact ⟨rfl, hf.2.1, fun _ => hf.2.2⟩
    · rename_i h1 h2
      injection hr with hr
      rw [← hr]
      exact ⟨by omega, Nat.le_refl _, fun h => h⟩

end Fields

/-! ## The claims -/

section Claims

variable {α : Type}

/-- C1: on a well-formed container holding `[a0..a(n-1)]`, `Insert` and `Emplace` at
`begin() + i` with `0 ≤ i ≤ n` complete, leave exactly `[a0..a(i-1), x, ai..a(n-1)]` in a
well-formed container of size `n + 1`, whichever branch runs (in place or reallocating), and
return the position of index `i`, which holds `x`. -/
theorem Vector.Insert_places_value (T : ElemOps α) (v : Vector α) (i : Nat) (x : α)
    (hv : v.Inv) (hi : i ≤ v.Size) :
    ∃ v' : Vector α,
      Vector.Insert T v i x = some (v', i) ∧ Vector.Emplace T v i x = some (v', i) ∧
      v'.Inv ∧ v'.toList = v.toList.take i ++ x :: v.toList.drop i ∧
      v'.Size = v.Size + 1 ∧ v'.index i = some x := by
  have hle := hv.length_le
  have hsz : v.toList.length = v.Size := hv.2.2
  have hi' : i ≤ v.toList.length := by rw [hsz]; exact hi
  have hlen : (v.toList.take i ++ x :: v.toList.drop i).length = v.Size + 1 := by
    simp only [List.length_append, List.length_take, List.length_cons, List.length_drop]
    omega
  have hcap : v.Size + 1 ≤ emplaceCapacity v.toList.length v.data_.capacity_ := by
    unfold emplaceCapacity
    split
    · omega
    · split <;> omega
  have hE := Vector.Emplace_ofList T v.toList v.data_.capacity_ i x hle hi'
  rw [← hv.eq_ofList] at hE
  refine ⟨_, hE, hE, Vector.Inv_ofList _ _ (by rw [hlen]; exact hcap), Vector.toList_ofList _ _,
    hlen, ?_⟩
  rw [Vector.index_ofList _ _ _ (by rw [hlen]; exact hcap),
    List.getElem?_append_right (by simp [hi'])]
  simp [hi']

/-- C1 at `[1, 2, 3]`, index 1, value 99: once with a spare slot, once with a full block. -/
theorem Vector.Insert_places_value_witness :
    ((Vector.ofList [1, 2, 3] 4).Inv ∧ 1 ≤ (Vector.ofList [1, 2, 3] 4).Size ∧
      ∃ v' : Vector Int,
        Vector.Insert intOps (Vector.ofList [1, 2, 3] 4) 1 99 = some (v', 1) ∧
        Vector.Emplace intOps (Vector.ofList [1, 2, 3] 4) 1 99 = some (v', 1) ∧
        v'.Inv ∧
        v'.toList = (Vector.ofList [1, 2, 3] 4).toList.take 1 ++
          99 :: (Vector.ofList [1, 2, 3] 4).toList.drop 1 ∧
        v'.Size = (Vector.ofList [1, 2, 3] 4).Size + 1 ∧ v'.index 1 = some 99) ∧
    ((Vector.ofList [1, 2, 3] 3).Inv ∧ 1 ≤ (Vector.ofList [1, 2, 3] 3).Size ∧
      ∃ v' : Vector Int,
        Vector.Insert intMoveOps (Vector.ofList [1, 2, 3] 3) 1 99 = some (v', 1) ∧
        Vector.Emplace intMoveOps (Vector.ofList [1, 2, 3] 3) 1 99 = some (v', 1) ∧
        v'.Inv ∧
        v'.toList = (Vector.ofList [1, 2, 3] 3).toList.take 1 ++
          99 :: (Vector.ofList [1, 2, 3] 3).toList.drop 1 ∧
        v'.Size = (Vector.ofList [1, 2, 3] 3).Size + 1 ∧ v'.index 1 = some 99) :=
  ⟨⟨by decide, by decide,
      Vector.Insert_places_value intOps (Vector.ofList [1, 2, 3] 4) 1 99 (by decide)
        (by decide)⟩,
    ⟨by decide, by decide,
      Vector.Insert_places_value intMoveOps (Vector.ofList [1, 2, 3] 3) 1 99 (by decide)
        (by decide)⟩⟩

/-- C2: on a well-formed container holding `[a0..a(n-1)]`, `n ≥ 1`, `Erase` at `begin() + i`
with `0 ≤ i < n` completes, leaves exactly `[a0..a(i-1), a(i+1)..a(n-1)]` in a well-formed
container of size `n - 1` with the same capacity, and returns the position of index `i`: it
designates the element that followed the erased one, and is `end()` when `i` was the last
index. -/
theorem Vector.Erase_removes_index (T : ElemOps α) (v : Vector α) (i : Nat)
    (hv : v.Inv) (hi : i < v.Size) :
    ∃ v' : Vector α,
      Vector.Erase T v i = some (v', i) ∧ v'.Inv ∧
      v'.toList = v.toList.take i ++ v.toList.drop (i + 1) ∧
      v'.Size = v.Size - 1 ∧ v'.Capacity = v.Capacity ∧
      v'.index i = v.index (i + 1) ∧ (i + 1 = v.Size → i = v'.Size) := by
  have hle := hv.length_le
  have hsz : v.toList.length = v.Size := hv.2.2
  have hi' : i < v.toList.length := by rw [hsz]; exact hi
  have hlen : (v.toList.take i ++ v.toList.drop (i + 1)).length = v.Size - 1 := by
    simp only [List.length_append, List.length_take, List.length_drop]
    omega
  have hE := Vector.Erase_ofList T v.toList v.data_.capacity_ i hle hi'
  rw [← hv.eq_ofList] at hE
  have hcap : (v.toList.take i ++ v.toList.drop (i + 1)).length ≤ v.data_.capacity_ := by
    rw [hlen]; omega
  refine ⟨_, hE, Vector.Inv_ofList _ _ hcap, Vector.toList_ofList _ _, hlen, rfl, ?_, ?_⟩
  · rw [Vector.index_ofList _ _ _ hcap, Vector.index_of_Inv hv,
      List.getElem?_append_right (by simp [Nat.le_of_lt hi'])]
    simp [Nat.le_of_lt hi', Nat.add_comm]
  · intro h
    show i = (v.toList.take i ++ v.toList.drop (i + 1)).length
    rw [hlen]; omega

/-- C2 at `[1, 2, 3]` in a block of 4 slots, index 0. -/
theorem Vector.Erase_removes_index_witness :
    (Vector.ofList [1, 2, 3] 4).Inv ∧ 0 < (Vector.ofList [1, 2, 3] 4).Size ∧
      ∃ v' : Vector Int,
        Vector.Erase intOps (Vector.ofList [1, 2, 3] 4) 0 = some (v', 0) ∧ v'.Inv ∧
        v'.toList = (Vector.ofList [1, 2, 3] 4).toList.take 0 ++
          (Vector.ofList [1, 2, 3] 4).toList.drop (0 + 1) ∧
        v'.Size = (Vector.ofList [1, 2, 3] 4).Size - 1 ∧
        v'.Capacity = (Vector.ofList [1, 2, 3] 4).Capacity ∧
        v'.index 0 = (Vector.ofList [1, 2, 3] 4).index (0 + 1) ∧
        (0 + 1 = (Vector.ofList [1, 2, 3] 4).Size → 0 = v'.Size) :=
  ⟨by decide, by decide,
    Vector.Erase_removes_index intOps (Vector.ofList [1, 2, 3] 4) 0 (by decide) (by decide)⟩

/-- C3: on a well-formed container (so `size ≤ capacity`), `PushBack`, `EmplaceBack`, `Insert`
and `Emplace` at a valid position complete; when `size == capacity` they leave the capacity
equal to `max(1, 2 * old capacity)` (exactly 1 when the old capacity was 0), and when
`size < capacity` they leave the capacity unchanged. -/
theorem Vector.growth_capacity (T : ElemOps α) (v : Vector α) (i : Nat) (x : α)
    (hv : v.Inv) (hi : i ≤ v.Size) :
    ∃ vb vi : Vector α,
      Vector.PushBack T v x = some vb ∧ Vector.EmplaceBack T v x = some (vb, v.Size) ∧
      Vector.Insert T v i x = some (vi, i) ∧ Vector.Emplace T v i x = some (vi, i) ∧
      (v.Size = v.Capacity →
        vb.Capacity = max 1 (2 * v.Capacity) ∧ vi.Capacity = max 1 (2 * v.Capacity) ∧
        (v.Capacity = 0 → vb.Capacity = 1 ∧ vi.Capacity = 1)) ∧
      (v.Size < v.Capacity → vb.Capacity = v.Capacity ∧ vi.Capacity = v.Capacity) := by
  have hle := hv.length_le
  have hsz : v.toList.length = v.Size := hv.2.2
  have hB := Vector.Emplace_ofList T v.toList v.data_.capacity_ v.toList.length x hle
    (Nat.le_refl _)
  have hI := Vector.Emplace_ofList T v.toList v.data_.capacity_ i x hle (by rw [hsz]; exact hi)
  rw [← hv.eq_ofList] at hB hI
  rw [hsz] at hB hI
  refine ⟨_, _, ?_, hB, hI, hI, ?_, ?_⟩
  · simp only [Vector.PushBack, Vector.EmplaceBack]
    rw [show v.size_ = v.Size from rfl, hB]
    rfl
  · intro hfull
    have e : emplaceCapacity v.Size v.data_.capacity_ = max 1 (2 * v.data_.capacity_) := by
      rw [hfull]; exact emplaceCapacity_full _
    refine ⟨e, e, ?_⟩
    intro h0
    have h0' : v.data_.capacity_ = 0 := h0
    have e1 : emplaceCapacity v.Size v.data_.capacity_ = 1 := by
      rw [e, h0']; rfl
    exact ⟨e1, e1⟩
  · intro hlt
    have e : emplaceCapacity v.Size v.data_.capacity_ = v.data_.capacity_ :=
      emplaceCapacity_spare hlt
    exact ⟨e, e⟩

/-- C3 at the full container `[1, 2, 3]` (capacity 3), inserting 99 at index 1. -/
theorem Vector.growth_capacity_witness :
    (Vector.ofList [1, 2, 3] 3).Inv ∧ 1 ≤ (Vector.ofList [1, 2, 3] 3).Size ∧
      ∃ vb vi : Vector Int,
        Vector.PushBack intOps (Vector.ofList [1, 2, 3] 3) 99 = some vb ∧
        Vector.EmplaceBack intOps (Vector.ofList [1, 2, 3] 3) 99 =
          some (vb, (Vector.ofList [1, 2, 3] 3).Size) ∧
        Vector.Insert intOps (Vector.ofList [1, 2, 3] 3) 1 99 = some (vi, 1) ∧
        Vector.Emplace intOps (Vector.ofList [1, 2, 3] 3) 1 99 = some (vi, 1) ∧
        ((Vector.ofList [1, 2, 3] 3).Size = (Vector.ofList [1, 2, 3] 3).Capacity →
          vb.Capacity = max 1 (2 * (Vector.ofList [1, 2, 3] 3).Capacity) ∧
          vi.Capacity = max 1 (2 * (Vector.ofList [1, 2, 3] 3).Capacity) ∧
          ((Vector.ofList [1, 2, 3] 3).Capacity = 0 → vb.Capacity = 1 ∧ vi.Capacity = 1)) ∧
        ((Vector.ofList [1, 2, 3] 3).Size < (Vector.ofList [1, 2, 3] 3).Capacity →
          vb.Capacity = (Vector.ofList [1, 2, 3] 3).Capacity ∧
          vi.Capacity = (Vector.ofList [1, 2, 3] 3).Capacity) :=
  ⟨by decide, by decide,
    Vector.growth_capacity intOps (Vector.ofList [1, 2, 3] 3) 1 99 (by decide) (by decide)⟩

/-- C4: starting from the default-constructed container, `k ≥ 1` successive `PushBack` calls
complete and leave size `k`, the pushed values in push order, and as capacity the least power
of two that is `≥ k`; at each of these pushes the capacity changes exactly when the push finds
`size == capacity`. -/
theorem Vector.pushAll_from_default (T : ElemOps α) (xs : List α) (hk : 1 ≤ xs.length) :
    ∃ v : Vector α,
      Vector.pushAll T Vector.default xs = some v ∧ v.Size = xs.length ∧ v.toList = xs ∧
      (∃ e : Nat, v.Capacity = 2 ^ e ∧ xs.length ≤ v.Capacity ∧
        ∀ e' : Nat, xs.length ≤ 2 ^ e' → v.Capacity ≤ 2 ^ e') ∧
      ∀ (j : Nat) (hj : j < xs.length), ∃ u u' : Vector α,
        Vector.pushAll T Vector.default (xs.take j) = some u ∧
        Vector.PushBack T u xs[j] = some u' ∧
        Vector.pushAll T Vector.default (xs.take (j + 1)) = some u' ∧
        (u'.Capacity ≠ u.Capacity ↔ u.Size = u.Capacity) := by
  have h0 : Doubling ([] : List α).length 0 := Or.inl ⟨rfl, rfl⟩
  obtain ⟨cap, hp, hle, hd⟩ := Vector.pushAll_ofList T xs [] 0 (Nat.le_refl _) h0
  simp only [List.nil_append] at hp hle hd
  rw [← Vector.default_eq_ofList] at hp
  refine ⟨_, hp, rfl, Vector.toList_ofList _ _, hd.least hk, ?_⟩
  intro j hj
  obtain ⟨c, hpj, hlej, _⟩ := Vector.pushAll_ofList T (xs.take j) [] 0 (Nat.le_refl _) h0
  simp only [List.nil_append] at hpj hlej
  rw [← Vector.default_eq_ofList] at hpj
  have hpush := Vector.PushBack_ofList T (xs.take j) c xs[j] hlej
  have htake : xs.take (j + 1) = xs.take j ++ [xs[j]] := by
    rw [← List.take_concat_get xs j hj, List.concat_eq_append]
  refine ⟨_, _, hpj, hpush, ?_, ?_⟩
  · rw [htake, Vector.pushAll_append, hpj]
    simp only [Option.some_bind, Vector.pushAll, hpush, Option.bind_eq_bind]
  · exact emplaceCapacity_ne_iff hlej

/-- C4 at the pushes of 1, 2, 3: the sequence is `[1, 2, 3]`, size 3, capacity 4. -/
theorem Vector.pushAll_from_default_witness :
    (1 ≤ [(1 : Int), 2, 3].length ∧
      ∃ v : Vector Int,
        Vector.pushAll intOps Vector.default [1, 2, 3] = some v ∧
        v.Size = [(1 : Int), 2, 3].length ∧ v.toList = [1, 2, 3] ∧
        (∃ e : Nat, v.Capacity = 2 ^ e ∧ [(1 : Int), 2, 3].length ≤ v.Capacity ∧
          ∀ e' : Nat, [(1 : Int), 2, 3].length ≤ 2 ^ e' → v.Capacity ≤ 2 ^ e') ∧
        ∀ (j : Nat) (hj : j < [(1 : Int), 2, 3].length), ∃ u u' : Vector Int,
          Vector.pushAll intOps Vector.default ([(1 : Int), 2, 3].take j) = some u ∧
          Vector.PushBack intOps u [(1 : Int), 2, 3][j] = some u' ∧
          Vector.pushAll intOps Vector.default ([(1 : Int), 2, 3].take (j + 1)) = some u' ∧
          (u'.Capacity ≠ u.Capacity ↔ u.Size = u.Capacity)) ∧
    Vector.pushAll intOps Vector.default [1, 2, 3] = some (Vector.ofList [1, 2, 3] 4) :=
  ⟨⟨by decide, Vector.pushAll_from_default intOps [1, 2, 3] (by decide)⟩, by decide⟩

/-- C5 as stated fails: for the 4-byte element type `intOps`, `Vector(2^62)` asks for
`2^62 * 4` bytes, which is 0 in `size_t`; the block obtained has no slot, the first
value-initialization constructs past it, and the call yields no container. -/
theorem Vector.sized_byte_count_wraps :
    Vector.sized intOps (2 ^ 62) = none ∧
    ¬ ∃ v : Vector Int,
      Vector.sized intOps (2 ^ 62) = some v ∧ v.Size = 2 ^ 62 ∧ v.Capacity = 2 ^ 62 := by
  have h : Vector.sized intOps (2 ^ 62) = none := by decide
  refine ⟨h, ?_⟩
  rintro ⟨v, hv, _⟩
  rw [h] at hv
  exact absurd hv (by simp)

/-- C5, amended: for every `n` whose byte count `n * sizeof(T)` does not wrap in `size_t`, the
sized constructor `Vector(n)` completes and yields a well-formed container with `size() == n`
and `capacity() == n` in which every index in `[0, n)` holds a value-initialized element. -/
theorem Vector.sized_spec (T : ElemOps α) (n : Nat) (hn : n * T.sizeofT < sizeModulus) :
    ∃ v : Vector α,
      Vector.sized T n = some v ∧ v.Size = n ∧ v.Capacity = n ∧ v.Inv ∧
      v.toList = List.replicate n T.valueInit ∧
      ∀ i : Nat, i < n → v.index i = some T.valueInit := by
  refine ⟨_, Vector.sized_eq T n hn, by simp [Vector.Size], rfl,
    Vector.Inv_ofList _ _ (by simp), Vector.toList_ofList _ _, ?_⟩
  intro i hi
  rw [Vector.index_ofList _ _ _ (by simp), List.getElem?_replicate, if_pos hi]

/-- C5, amended, at `n = 3` and at `n = 0`. -/
theorem Vector.sized_spec_witness :
    Vector.sized intOps 3 = some (Vector.ofList [0, 0, 0] 3) ∧
    Vector.sized intOps 0 = some Vector.default ∧
    3 * intOps.sizeofT < sizeModulus ∧
    ∃ v : Vector Int,
      Vector.sized intOps 3 = some v ∧ v.Size = 3 ∧ v.Capacity = 3 ∧ v.Inv ∧
      v.toList = List.replicate 3 intOps.valueInit ∧
      ∀ i : Nat, i < 3 → v.index i = some intOps.valueInit :=
  ⟨by decide, by decide, by decide, Vector.sized_spec intOps 3 (by decide)⟩

/-- C6: let `A` be a well-formed container whose block lies in the free store `h`. The copy
constructor completes. The copy `c` has `A`'s size and an equal element at every index and has
capacity exactly `A.size()`; `A` reads as before the call (size, capacity, elements). The
copy's block is not `A`'s block (it is a block allocated by the call, or no block when `A` is
empty), and so a later member function call on either container, whatever it does to that
container and whether or not it reallocates, leaves the other one reading as before. -/
theorem Vector.copyCtor_spec (h : Heap α) (A : VectorRep) (Av : Vector α)
    (hA : h.view A = some Av) (hInv : Av.Inv) :
    ∃ (h1 : Heap α) (c : VectorRep) (cv : Vector α),
      VectorRep.copyCtor h A = some (h1, c) ∧ h1.view c = some cv ∧
      Vector.copyCtor Av = some (cv, Av) ∧
      cv.Inv ∧ cv.Size = Av.Size ∧ cv.toList = Av.toList ∧
      (∀ i : Nat, cv.index i = Av.index i) ∧ cv.Capacity = Av.Size ∧
      h1.view A = some Av ∧
      (c.buffer_ = none ↔ Av.Size = 0) ∧ (c.buffer_ = none ∨ c.buffer_ ≠ A.buffer_) ∧
      (∀ (f : Vector α → Option (Vector α)) (moved : Bool) (h2 : Heap α) (c' : VectorRep),
        c.call h1 f moved = some (h2, c') → h2.view A = some Av) ∧
      (∀ (f : Vector α → Option (Vector α)) (moved : Bool) (h2 : Heap α) (A' : VectorRep),
        A.call h1 f moved = some (h2, A') → h2.view c = some cv) := by
  have hsz : Av.toList.length = Av.Size := hInv.2.2
  have hvalid := Heap.valid_of_view hA
  have hfields := Heap.size_of_view hA
  have hC := VectorRep.copyCtor_in_store hA hInv
  have hcInv : (Vector.ofList Av.toList Av.Size).Inv :=
    Vector.Inv_ofList _ _ (Nat.le_of_eq hsz)
  have hidx : ∀ i : Nat, (Vector.ofList Av.toList Av.Size).index i = Av.index i := by
    intro i
    rw [Vector.index_ofList _ _ _ (Nat.le_of_eq hsz), Vector.index_of_Inv hInv]
  by_cases h0 : A.size_ ≠ 0
  · rw [if_pos h0] at hC
    have hview : (h ++ [(Vector.ofList Av.toList Av.Size).data_.buffer_]).view
        ⟨some h.length, Av.Size, Av.Size⟩ = some (Vector.ofList Av.toList Av.Size) := by
      simp [Heap.view, Heap.block, Vector.ofList, hsz]
    have hAv1 : (h ++ [(Vector.ofList Av.toList Av.Size).data_.buffer_]).view A = some Av := by
      rw [Heap.view_append h _ A hvalid]
      exact hA
    have hne : (some h.length : Option Nat) ≠ A.buffer_ := by
      rcases hvalid with hn | ⟨a, ha, hlt⟩
      · rw [hn]
        simp
      · rw [ha]
        intro e
        injection e with e
        omega
    have hnz : ¬ Av.Size = 0 := by
      show ¬ Av.size_ = 0
      rw [hfields.1]
      exact h0
    refine ⟨_, _, _, hC, hview, Vector.copyCtor_of_Inv hInv, hcInv, hsz.symm ▸ hsz,
      Vector.toList_ofList _ _, hidx, rfl, hAv1, ?_, Or.inr hne, ?_, ?_⟩
    · simp [hnz]
    · intro f moved h2 c' hcall
      rw [VectorRep.call_frame hcall A
        (by
          rcases hvalid with hn | ⟨a, ha, hlt⟩
          · exact Or.inl hn
          · exact Or.inr ⟨a, ha, by simp; omega⟩)
        (by
          by_cases hn : A.buffer_ = none
          · exact Or.inl hn
          · exact Or.inr (fun e => hne e.symm))]
      exact hAv1
    · intro f moved h2 A' hcall
      rw [VectorRep.call_frame hcall ⟨some h.length, Av.Size, Av.Size⟩
        (Or.inr ⟨h.length, rfl, by simp⟩) (Or.inr hne)]
      exact hview
  · rw [if_neg h0] at hC
    have hz : Av.Size = 0 := by
      show Av.size_ = 0
      rw [hfields.1]
      omega
    have hnil : Av.toList = [] := List.length_eq_zero.mp (by rw [hsz]; exact hz)
    have hview : h.view ⟨none, Av.Size, Av.Size⟩ = some (Vector.ofList Av.toList Av.Size) := by
      simp [Heap.view, Heap.block, Vector.ofList, hz, hnil]
    refine ⟨_, _, _, hC, hview, Vector.copyCtor_of_Inv hInv, hcInv, hsz.symm ▸ hsz,
      Vector.toList_ofList _ _, hidx, rfl, hA, ?_, Or.inl rfl, ?_, ?_⟩
    · simp [hz]
    · intro f moved h2 c' hcall
      rw [VectorRep.call_frame hcall A hvalid
        (by
          by_cases hn : A.buffer_ = none
          · exact Or.inl hn
          · exact Or.inr (fun e => hn e))]
      exact hA
    · intro f moved h2 A' hcall
      rw [VectorRep.call_frame hcall ⟨none, Av.Size, Av.Size⟩ (Or.inl rfl) (Or.inl rfl)]
      exact hview

/-- C6 at `[1, 2, 3]` stored at address 0 in a block of 5 slots: the copy lies at address 1
and has capacity 3; a reallocating `PushBack(9)` on the copy and an in-place `PopBack()` on
the source each leave the other container reading `[1, 2, 3]`. -/
theorem Vector.copyCtor_spec_witness :
    sampleHeap.view sampleRep = some (Vector.ofList [1, 2, 3] 5) ∧
    (Vector.ofList [(1 : Int), 2, 3] 5).Inv ∧
    VectorRep.copyCtor sampleHeap sampleRep =
      some (sampleHeap ++ [[some 1, some 2, some 3]], ⟨some 1, 3, 3⟩) ∧
    (∃ (h2 : Heap Int) (c' : VectorRep),
      VectorRep.call (sampleHeap ++ [[some 1, some 2, some 3]]) ⟨some 1, 3, 3⟩
        (fun v => Vector.PushBack intOps v 9) true = some (h2, c') ∧
      h2.view c' = some (Vector.ofList [1, 2, 3, 9] 6) ∧
      h2.view sampleRep = some (Vector.ofList [1, 2, 3] 5)) ∧
    (∃ (h2 : Heap Int) (A' : VectorRep),
      VectorRep.call (sampleHeap ++ [[some 1, some 2, some 3]]) sampleRep
        Vector.PopBack false = some (h2, A') ∧
      h2.view A' = some (Vector.ofList [1, 2] 5) ∧
      h2.view ⟨some 1, 3, 3⟩ = some (Vector.ofList [1, 2, 3] 3)) ∧
    ∃ (h1 : Heap Int) (c : VectorRep) (cv : Vector Int),
      VectorRep.copyCtor sampleHeap sampleRep = some (h1, c) ∧ h1.view c = some cv ∧
      Vector.copyCtor (Vector.ofList [1, 2, 3] 5) = some (cv, Vector.ofList [1, 2, 3] 5) ∧
      cv.Inv ∧ cv.Size = (Vector.ofList [(1 : Int), 2, 3] 5).Size ∧
      cv.toList = (Vector.ofList [(1 : Int), 2, 3] 5).toList ∧
      (∀ i : Nat, cv.index i = (Vector.ofList [(1 : Int), 2, 3] 5).index i) ∧
      cv.Capacity = (Vector.ofList [(1 : Int), 2, 3] 5).Size ∧
      h1.view sampleRep = some (Vector.ofList [1, 2, 3] 5) ∧
      (c.buffer_ = none ↔ (Vector.ofList [(1 : Int), 2, 3] 5).Size = 0) ∧
      (c.buffer_ = none ∨ c.buffer_ ≠ sampleRep.buffer_) ∧
      (∀ (f : Vector Int → Option (Vector Int)) (moved : Bool) (h2 : Heap Int)
          (c' : VectorRep),
        c.call h1 f moved = some (h2, c') →
          h2.view sampleRep = some (Vector.ofList [1, 2, 3] 5)) ∧
      (∀ (f : Vector Int → Option (Vector Int)) (moved : Bool) (h2 : Heap Int)
          (A' : VectorRep),
        sampleRep.call h1 f moved = some (h2, A') → h2.view c = some cv) :=
  ⟨by decide, by decide, by decide,
    ⟨sampleHeap ++ [[some 1, some 2, some 3]] ++
        [(Vector.ofList [(1 : Int), 2, 3, 9] 6).data_.buffer_], ⟨some 2, 6, 4⟩,
      by decide, by decide, by decide⟩,
    ⟨[(Vector.ofList [(1 : Int), 2] 5).data_.buffer_, [some 1, some 2, some 3]],
      ⟨some 0, 5, 2⟩, by decide, by decide, by decide⟩,
    Vector.copyCtor_spec sampleHeap sampleRep (Vector.ofList [1, 2, 3] 5) (by decide)
      (by decide)⟩

/-- C7: for distinct well-formed containers `a` and `b`, the copy assignment `a = b` completes;
afterwards `a` has `b`'s size and an element equal to `b`'s at every index, `b` is as it was,
and `a`'s capacity is `b.size()` if `b.size()` exceeded `a`'s old capacity and is unchanged
otherwise. This covers the reallocating branch and the three in-place shapes. -/
theorem Vector.copyAssign_spec (a b : Vector α) (ha : a.Inv) (hb : b.Inv) :
    ∃ a' b' : Vector α,
      Vector.copyAssign a b = some (a', b') ∧ b' = b ∧ a'.Inv ∧ a'.Size = b.Size ∧
      a'.toList = b.toList ∧ (∀ i : Nat, a'.index i = b.index i) ∧
      (b.Size > a.Capacity → a'.Capacity = b.Size) ∧
      (¬ b.Size > a.Capacity → a'.Capacity = a.Capacity) := by
  have hla := ha.length_le
  have hsb : b.toList.length = b.Size := hb.2.2
  have hC := Vector.copyAssign_ofList a.toList b.toList a.data_.capacity_ b.data_.capacity_ hla
  rw [← ha.eq_ofList, ← hb.eq_ofList] at hC
  have hcap : b.toList.length ≤
      (if b.toList.length > a.data_.capacity_ then b.toList.length else a.data_.capacity_) := by
    split <;> omega
  refine ⟨_, _, hC, rfl, Vector.Inv_ofList _ _ hcap, hsb, Vector.toList_ofList _ _, ?_, ?_, ?_⟩
  · intro i
    rw [Vector.index_ofList _ _ _ hcap, Vector.index_of_Inv hb]
  · intro h
    have h' : b.toList.length > a.data_.capacity_ := by rw [hsb]; exact h
    show (if b.toList.length > a.data_.capacity_ then b.toList.length else a.data_.capacity_) =
      b.Size
    rw [if_pos h', hsb]
  · intro h
    have h' : ¬ b.toList.length > a.data_.capacity_ := by rw [hsb]; exact h
    show (if b.toList.length > a.data_.capacity_ then b.toList.length else a.data_.capacity_) =
      a.data_.capacity_
    rw [if_neg h']

/-- C7 at a target `[1, 2, 3]` in 4 slots and a source `[7, 8, 9, 10, 11]` (the reallocating
branch), with the three in-place shapes evaluated beside it. -/
theorem Vector.copyAssign_spec_witness :
    Vector.copyAssign (Vector.ofList [(1 : Int), 2, 3] 4) (Vector.ofList [7] 6) =
      some (Vector.ofList [7] 4, Vector.ofList [7] 6) ∧
    Vector.copyAssign (Vector.ofList [(1 : Int), 2, 3] 4) (Vector.ofList [7, 8, 9] 6) =
      some (Vector.ofList [7, 8, 9] 4, Vector.ofList [7, 8, 9] 6) ∧
    Vector.copyAssign (Vector.ofList [(1 : Int), 2, 3] 4) (Vector.ofList [7, 8, 9, 10] 6) =
      some (Vector.ofList [7, 8, 9, 10] 4, Vector.ofList [7, 8, 9, 10] 6) ∧
    (Vector.ofList [(1 : Int), 2, 3] 4).Inv ∧ (Vector.ofList [(7 : Int), 8, 9, 10, 11] 6).Inv ∧
    ∃ a' b' : Vector Int,
      Vector.copyAssign (Vector.ofList [1, 2, 3] 4) (Vector.ofList [7, 8, 9, 10, 11] 6) =
        some (a', b') ∧
      b' = Vector.ofList [7, 8, 9, 10, 11] 6 ∧ a'.Inv ∧
      a'.Size = (Vector.ofList [(7 : Int), 8, 9, 10, 11] 6).Size ∧
      a'.toList = (Vector.ofList [(7 : Int), 8, 9, 10, 11] 6).toList ∧
      (∀ i : Nat, a'.index i = (Vector.ofList [(7 : Int), 8, 9, 10, 11] 6).index i) ∧
      ((Vector.ofList [(7 : Int), 8, 9, 10, 11] 6).Size >
          (Vector.ofList [(1 : Int), 2, 3] 4).Capacity →
        a'.Capacity = (Vector.ofList [(7 : Int), 8, 9, 10, 11] 6).Size) ∧
      (¬ (Vector.ofList [(7 : Int), 8, 9, 10, 11] 6).Size >
          (Vector.ofList [(1 : Int), 2, 3] 4).Capacity →
        a'.Capacity = (Vector.ofList [(1 : Int), 2, 3] 4).Capacity) :=
  ⟨by decide, by decide, by decide, by decide, by decide,
    Vector.copyAssign_spec (Vector.ofList [1, 2, 3] 4) (Vector.ofList [7, 8, 9, 10, 11] 6)
      (by decide) (by decide)⟩

/-- C8: move-constructing `a` from any container `b` gives `a` exactly `b`'s former elements,
size and capacity (its whole former state), and leaves `b` with `size() == 0` and
`capacity() == 0`. -/
theorem Vector.moveCtor_spec (b : Vector α) :
    (Vector.moveCtor b).1 = b ∧
    (Vector.moveCtor b).1.toList = b.toList ∧ (Vector.moveCtor b).1.Size = b.Size ∧
    (Vector.moveCtor b).1.Capacity = b.Capacity ∧
    (Vector.moveCtor b).2.Size = 0 ∧ (Vector.moveCtor b).2.Capacity = 0 ∧
    (Vector.moveCtor b).2 = Vector.default := by
  cases b with
  | mk d n =>
    cases d with
    | mk buf c => exact ⟨rfl, rfl, rfl, rfl, rfl, rfl, rfl⟩

/-- C9 as stated fails: move-assigning the empty default container `b` into the non-empty
`a = [1]` leaves the moved-from `b` with size 1 and capacity 1. -/
theorem Vector.moveAssign_source_not_emptied :
    (Vector.moveAssign (Vector.ofList [(1 : Int)] 1) Vector.default).2.Size = 1 ∧
    (Vector.moveAssign (Vector.ofList [(1 : Int)] 1) Vector.default).2.Capacity = 1 ∧
    ¬ ((Vector.moveAssign (Vector.ofList [(1 : Int)] 1) Vector.default).2.Size = 0 ∧
      (Vector.moveAssign (Vector.ofList [(1 : Int)] 1) Vector.default).2.Capacity = 0) := by
  decide

/-- C9, amended: after the move assignment `a = std::move(b)` of distinct containers, the
moved-from `b` has `a`'s former size and capacity; it has `size() == 0` and
`capacity() == 0` exactly when `a` had size 0 and capacity 0 before the assignment. -/
theorem Vector.moveAssign_source_gets_target_state (a b : Vector α) :
    (Vector.moveAssign a b).2.Size = a.Size ∧
    (Vector.moveAssign a b).2.Capacity = a.Capacity ∧
    (((Vector.moveAssign a b).2.Size = 0 ∧ (Vector.moveAssign a b).2.Capacity = 0) ↔
      (a.Size = 0 ∧ a.Capacity = 0)) := by
  cases a with
  | mk d n =>
    cases d with
    | mk buf c => exact ⟨rfl, rfl, Iff.rfl⟩

/-- C10: the move assignment `a = std::move(b)` of distinct containers exchanges the two
states: `a` ends with `b`'s former elements, size and capacity and `b` with `a`'s.
`Vector::Swap` does the same (it swaps the blocks through `RawMemory::Swap` and the sizes), and
applying it twice restores both containers. -/
theorem Vector.moveAssign_exchanges (a b : Vector α) :
    Vector.moveAssign a b = (b, a) ∧
    (Vector.moveAssign a b).1.toList = b.toList ∧ (Vector.moveAssign a b).1.Size = b.Size ∧
    (Vector.moveAssign a b).1.Capacity = b.Capacity ∧
    (Vector.moveAssign a b).2.toList = a.toList ∧ (Vector.moveAssign a b).2.Size = a.Size ∧
    (Vector.moveAssign a b).2.Capacity = a.Capacity ∧
    Vector.Swap a b = (b, a) ∧ RawMemory.Swap a.data_ b.data_ = (b.data_, a.data_) ∧
    Vector.Swap (Vector.Swap a b).1 (Vector.Swap a b).2 = (a, b) := by
  cases a with
  | mk da na =>
    cases b with
    | mk db nb =>
      cases da with
      | mk bufa ca =>
        cases db with
        | mk bufb cb => exact ⟨rfl, rfl, rfl, rfl, rfl, rfl, rfl, rfl, rfl, rfl⟩

/-- C11 as stated fails: for the 4-byte element type `intOps`, `Reserve(2^62)` on `[1]` asks for
`2^62 * 4` bytes, which is 0 in `size_t`; the relocation constructs past the block obtained
and the call has no defined result. -/
theorem Vector.Reserve_byte_count_wraps :
    (Vector.ofList [(1 : Int)] 1).Inv ∧
    Vector.Reserve intOps (Vector.ofList [1] 1) (2 ^ 62) = none ∧
    ¬ ∃ v' : Vector Int,
      Vector.Reserve intOps (Vector.ofList [1] 1) (2 ^ 62) = some v' ∧
      v'.Size = 1 ∧ v'.toList = [1] ∧ v'.Capacity = 2 ^ 62 := by
  have h : Vector.Reserve intOps (Vector.ofList [1] 1) (2 ^ 62) = none := by decide
  refine ⟨by decide, h, ?_⟩
  rintro ⟨v, hv, _⟩
  rw [h] at hv
  exact absurd hv (by simp)

/-- C11, amended: on a well-formed container and for `n ≤ capacity()` or `n * sizeof(T)` not
wrapping in `size_t`, `Reserve(n)` completes and leaves the size and every element as they
were, with capacity `max(old capacity, n)`; for `n > capacity()` the new capacity is exactly
`n`. For `n ≤ capacity()` nothing observable changes: the container is what it was and, seen in
the free store, its object representation (the address of its block included) and every block
of the store are what they were, so every element is at the address it had. For
`n > capacity()` the elements lie in a block allocated by the call. -/
theorem Vector.Reserve_spec (T : ElemOps α) (v : Vector α) (n : Nat) (hv : v.Inv)
    (hfit : n ≤ v.Capacity ∨ n * T.sizeofT < sizeModulus) :
    (∃ v' : Vector α,
      Vector.Reserve T v n = some v' ∧ v'.Inv ∧ v'.Size = v.Size ∧ v'.toList = v.toList ∧
      (∀ i : Nat, v'.index i = v.index i) ∧ v'.Capacity = max v.Capacity n ∧
      (n ≤ v.Capacity → v' = v) ∧ (n > v.Capacity → v'.Capacity = n)) ∧
    (∀ (h : Heap α) (r : VectorRep), h.view r = some v →
      (n ≤ v.Capacity → VectorRep.Reserve T h r n = some (h, r)) ∧
      (n > v.Capacity →
        ∃ (h' : Heap α) (r' : VectorRep) (v' : Vector α),
          VectorRep.Reserve T h r n = some (h', r') ∧ h'.view r' = some v' ∧
          Vector.Reserve T v n = some v' ∧ r'.buffer_ = some h.length ∧
          r'.buffer_ ≠ r.buffer_)) := by
  have hle := hv.length_le
  have hR := Vector.Reserve_ofList T v.toList v.data_.capacity_ n hle hfit
  rw [← hv.eq_ofList] at hR
  have hcap : v.toList.length ≤ max v.data_.capacity_ n := by omega
  refine ⟨⟨_, hR, Vector.Inv_ofList _ _ hcap, hv.2.2, Vector.toList_ofList _ _, ?_, rfl, ?_, ?_⟩,
    ?_⟩
  · intro i
    rw [Vector.index_ofList _ _ _ hcap, Vector.index_of_Inv hv]
  · intro h
    have h' : n ≤ v.data_.capacity_ := h
    have e : max v.data_.capacity_ n = v.data_.capacity_ := by omega
    rw [e]
    exact hv.eq_ofList.symm
  · intro h
    have h' : n > v.data_.capacity_ := h
    show max v.data_.capacity_ n = n
    omega
  · intro h r hview
    have hfields := Heap.size_of_view hview
    constructor
    · intro hn
      have hn' : n ≤ r.capacity_ := by rw [← hfields.2]; exact hn
      simp [VectorRep.Reserve, hn']
    · intro hn
      have hn' : ¬ n ≤ r.capacity_ := by
        rw [← hfields.2]
        exact Nat.not_le.mpr hn
      refine ⟨h ++ [(Vector.ofList v.toList (max v.data_.capacity_ n)).data_.buffer_],
        ⟨some h.length, (Vector.ofList v.toList (max v.data_.capacity_ n)).data_.capacity_,
          (Vector.ofList v.toList (max v.data_.capacity_ n)).size_⟩, _, by
        simp only [VectorRep.Reserve, hn', if_false, VectorRep.call, hview, hR,
          Option.pure_def, Option.bind_eq_bind, Option.some_bind, if_true, Heap.allocate],
        by simp [Heap.view, Heap.block, Vector.ofList], hR, rfl, ?_⟩
      rcases Heap.valid_of_view hview with hnone | ⟨a, ha, hlt⟩
      · rw [hnone]
        simp
      · rw [ha]
        intro e
        injection e with e
        omega

/-- C11, amended, at `[1, 2, 3]` in a block of 5 slots at address 0: `Reserve(10)` gives
capacity 10 in a block at address 1, and `Reserve(2)` changes neither the store nor the
container's representation. -/
theorem Vector.Reserve_spec_witness :
    Vector.Reserve intOps (Vector.ofList [1, 2, 3] 5) 2 = some (Vector.ofList [1, 2, 3] 5) ∧
    Vector.Reserve intMoveOps (Vector.ofList [1, 2, 3] 5) 10 =
      some (Vector.ofList [1, 2, 3] 10) ∧
    VectorRep.Reserve intOps sampleHeap sampleRep 2 = some (sampleHeap, sampleRep) ∧
    VectorRep.Reserve intOps sampleHeap sampleRep 10 =
      some (sampleHeap ++ [(Vector.ofList [(1 : Int), 2, 3] 10).data_.buffer_],
        ⟨some 1, 10, 3⟩) ∧
    (Vector.ofList [(1 : Int), 2, 3] 5).Inv ∧
    ((10 : Nat) ≤ (Vector.ofList [(1 : Int), 2, 3] 5).Capacity ∨
      10 * intOps.sizeofT < sizeModulus) ∧
    ((∃ v' : Vector Int,
      Vector.Reserve intOps (Vector.ofList [1, 2, 3] 5) 10 = some v' ∧ v'.Inv ∧
      v'.Size = (Vector.ofList [(1 : Int), 2, 3] 5).Size ∧
      v'.toList = (Vector.ofList [(1 : Int), 2, 3] 5).toList ∧
      (∀ i : Nat, v'.index i = (Vector.ofList [(1 : Int), 2, 3] 5).index i) ∧
      v'.Capacity = max (Vector.ofList [(1 : Int), 2, 3] 5).Capacity 10 ∧
      (10 ≤ (Vector.ofList [(1 : Int), 2, 3] 5).Capacity →
        v' = Vector.ofList [(1 : Int), 2, 3] 5) ∧
      (10 > (Vector.ofList [(1 : Int), 2, 3] 5).Capacity → v'.Capacity = 10)) ∧
    (∀ (h : Heap Int) (r : VectorRep), h.view r = some (Vector.ofList [(1 : Int), 2, 3] 5) →
      (10 ≤ (Vector.ofList [(1 : Int), 2, 3] 5).Capacity →
        VectorRep.Reserve intOps h r 10 = some (h, r)) ∧
      (10 > (Vector.ofList [(1 : Int), 2, 3] 5).Capacity →
        ∃ (h' : Heap Int) (r' : VectorRep) (v' : Vector Int),
          VectorRep.Reserve intOps h r 10 = some (h', r') ∧ h'.view r' = some v' ∧
          Vector.Reserve intOps (Vector.ofList [(1 : Int), 2, 3] 5) 10 = some v' ∧
          r'.buffer_ = some h.length ∧ r'.buffer_ ≠ r.buffer_))) :=
  ⟨by decide, by decide, by decide, by decide, by decide, by decide,
    Vector.Reserve_spec intOps (Vector.ofList [1, 2, 3] 5) 10 (by decide) (by decide)⟩

/-- C12 as stated fails: for the 4-byte element type `intOps`, `Resize(2^62)` on `[1]` calls
`Reserve(2^62)`, whose byte count `2^62 * 4` is 0 in `size_t`; the relocation constructs past
the block obtained and the call has no defined result. -/
theorem Vector.Resize_byte_count_wraps :
    (Vector.ofList [(1 : Int)] 1).Inv ∧
    Vector.Resize intOps (Vector.ofList [1] 1) (2 ^ 62) = none ∧
    ¬ ∃ v' : Vector Int,
      Vector.Resize intOps (Vector.ofList [1] 1) (2 ^ 62) = some v' ∧ v'.Size = 2 ^ 62 := by
  have h : Vector.Resize intOps (Vector.ofList [1] 1) (2 ^ 62) = none := by decide
  refine ⟨by decide, h, ?_⟩
  rintro ⟨v, hv, _⟩
  rw [h] at hv
  exact absurd hv (by simp)

/-- C12, amended: on a well-formed container holding `[a0..a(s-1)]` and for `n ≤ capacity()` or
`n * sizeof(T)` not wrapping in `size_t`, `Resize(n)` completes and leaves size `n`; for
`n ≤ s` the elements are the first `n` of `[a0..a(s-1)]` and the capacity is unchanged; for
`n > s` the elements are `[a0..a(s-1)]` followed by `n - s` value-initialized elements and the
capacity is `max(old capacity, n)`. -/
theorem Vector.Resize_spec (T : ElemOps α) (v : Vector α) (n : Nat) (hv : v.Inv)
    (hfit : n ≤ v.Capacity ∨ n * T.sizeofT < sizeModulus) :
    ∃ v' : Vector α,
      Vector.Resize T v n = some v' ∧ v'.Inv ∧ v'.Size = n ∧
      (n ≤ v.Size → v'.toList = v.toList.take n ∧ v'.Capacity = v.Capacity) ∧
      (n > v.Size →
        v'.toList = v.toList ++ List.replicate (n - v.Size) T.valueInit ∧
        v'.Capacity = max v.Capacity n) := by
  have hle := hv.length_le
  have hsz : v.toList.length = v.Size := hv.2.2
  have hR := Vector.Resize_ofList T v.toList v.data_.capacity_ n hle hfit
  rw [← hv.eq_ofList] at hR
  by_cases h : n ≤ v.toList.length
  · rw [if_pos h] at hR
    have hlen : (v.toList.take n).length = n := by simp [h]
    refine ⟨_, hR, Vector.Inv_ofList _ _ (by rw [hlen]; omega), hlen, ?_, ?_⟩
    · intro _
      exact ⟨Vector.toList_ofList _ _, rfl⟩
    · intro hgt
      have : n > v.toList.length := by rw [hsz]; exact hgt
      omega
  · rw [if_neg h] at hR
    have hlen : (v.toList ++ List.replicate (n - v.toList.length) T.valueInit).length = n := by
      simp only [List.length_append, List.length_replicate]; omega
    refine ⟨_, hR, Vector.Inv_ofList _ _ (by rw [hlen]; omega), hlen, ?_, ?_⟩
    · intro hle'
      have : n ≤ v.toList.length := by rw [hsz]; exact hle'
      omega
    · intro _
      refine ⟨?_, rfl⟩
      rw [Vector.toList_ofList, hsz]

/-- C12, amended, at `[1, 2, 3]` in a block of 4 slots: `Resize(6)` appends three zeros and
gives capacity 6, `Resize(1)` keeps `[1]` and capacity 4. -/
theorem Vector.Resize_spec_witness :
    Vector.Resize intOps (Vector.ofList [1, 2, 3] 4) 1 = some (Vector.ofList [1] 4) ∧
    Vector.Resize intOps (Vector.ofList [1, 2, 3] 4) 6 =
      some (Vector.ofList [1, 2, 3, 0, 0, 0] 6) ∧
    (Vector.ofList [(1 : Int), 2, 3] 4).Inv ∧
    ((6 : Nat) ≤ (Vector.ofList [(1 : Int), 2, 3] 4).Capacity ∨
      6 * intOps.sizeofT < sizeModulus) ∧
    ∃ v' : Vector Int,
      Vector.Resize intOps (Vector.ofList [1, 2, 3] 4) 6 = some v' ∧ v'.Inv ∧ v'.Size = 6 ∧
      (6 ≤ (Vector.ofList [(1 : Int), 2, 3] 4).Size →
        v'.toList = (Vector.ofList [(1 : Int), 2, 3] 4).toList.take 6 ∧
        v'.Capacity = (Vector.ofList [(1 : Int), 2, 3] 4).Capacity) ∧
      (6 > (Vector.ofList [(1 : Int), 2, 3] 4).Size →
        v'.toList = (Vector.ofList [(1 : Int), 2, 3] 4).toList ++
          List.replicate (6 - (Vector.ofList [(1 : Int), 2, 3] 4).Size) intOps.valueInit ∧
        v'.Capacity = max (Vector.ofList [(1 : Int), 2, 3] 4).Capacity 6) :=
  ⟨by decide, by decide, by decide, by decide,
    Vector.Resize_spec intOps (Vector.ofList [1, 2, 3] 4) 6 (by decide) (by decide)⟩

/-- C13: on a well-formed container, `PushBack(x)` followed immediately by `PopBack()` completes,
restores the size and leaves the element sequence exactly as it was: every index reads what it
read before the push. -/
theorem Vector.PushBack_PopBack (T : ElemOps α) (v : Vector α) (x : α) (hv : v.Inv) :
    ∃ v1 v2 : Vector α,
      Vector.PushBack T v x = some v1 ∧ Vector.PopBack v1 = some v2 ∧
      v2.Inv ∧ v2.Size = v.Size ∧ v2.toList = v.toList ∧
      ∀ i : Nat, v2.index i = v.index i := by
  have hle := hv.length_le
  have hP := Vector.PushBack_ofList T v.toList v.data_.capacity_ x hle
  rw [← hv.eq_ofList] at hP
  have hc := succ_le_emplaceCapacity hle
  have hQ := Vector.PopBack_concat v.toList x (emplaceCapacity v.toList.length v.data_.capacity_)
    hc
  have hcap : v.toList.length ≤ emplaceCapacity v.toList.length v.data_.capacity_ := by omega
  refine ⟨_, _, hP, hQ, Vector.Inv_ofList _ _ hcap, hv.2.2, Vector.toList_ofList _ _, ?_⟩
  intro i
  rw [Vector.index_ofList _ _ _ hcap, Vector.index_of_Inv hv]

/-- C13 at the full container `[1, 2, 3]` (capacity 3) and the value 9. -/
theorem Vector.PushBack_PopBack_witness :
    (Vector.ofList [(1 : Int), 2, 3] 3).Inv ∧
    ∃ v1 v2 : Vector Int,
      Vector.PushBack intOps (Vector.ofList [1, 2, 3] 3) 9 = some v1 ∧
      Vector.PopBack v1 = some v2 ∧ v2.Inv ∧
      v2.Size = (Vector.ofList [(1 : Int), 2, 3] 3).Size ∧
      v2.toList = (Vector.ofList [(1 : Int), 2, 3] 3).toList ∧
      ∀ i : Nat, v2.index i = (Vector.ofList [(1 : Int), 2, 3] 3).index i :=
  ⟨by decide, Vector.PushBack_PopBack intOps (Vector.ofList [1, 2, 3] 3) 9 (by decide)⟩

/-- C14: `PopBack` on a container of size 0 returns it as it was (size 0, same capacity, same
block); on a non-empty well-formed container it completes, removes exactly the last element,
decrements the size by 1 and leaves the remaining elements and the capacity as they were. -/
theorem Vector.PopBack_spec (v : Vector α) :
    (v.Size = 0 → Vector.PopBack v = some v) ∧
    (v.Inv → 0 < v.Size →
      ∃ v' : Vector α,
        Vector.PopBack v = some v' ∧ v'.Inv ∧ v'.toList = v.toList.dropLast ∧
        v'.Size = v.Size - 1 ∧ v'.Capacity = v.Capacity ∧
        (∀ i : Nat, i < v.Size - 1 → v'.index i = v.index i) ∧
        v'.index (v.Size - 1) = none) := by
  refine ⟨?_, ?_⟩
  · intro h
    have h' : v.size_ = 0 := h
    simp [Vector.PopBack, h']
  · intro hv hpos
    have hle := hv.length_le
    have hsz : v.toList.length = v.Size := hv.2.2
    have hP := Vector.PopBack_ofList v.toList v.data_.capacity_ hle
    rw [← hv.eq_ofList] at hP
    have hlen : v.toList.dropLast.length = v.Size - 1 := by
      rw [List.length_dropLast, hsz]
    have hcap : v.toList.dropLast.length ≤ v.data_.capacity_ := by rw [hlen]; omega
    refine ⟨_, hP, Vector.Inv_ofList _ _ hcap, Vector.toList_ofList _ _, hlen, rfl, ?_, ?_⟩
    · intro i hi
      rw [Vector.index_ofList _ _ _ hcap, Vector.index_of_Inv hv, List.dropLast_eq_take,
        List.getElem?_take_of_lt (by omega)]
    · rw [Vector.index_ofList _ _ _ hcap]
      exact List.getElem?_eq_none (by rw [hlen])

/-- C14 at the empty container with a block of 2 slots and at `[1, 2, 3]` in 4 slots. -/
theorem Vector.PopBack_spec_witness :
    Vector.PopBack (Vector.ofList ([] : List Int) 2) = some (Vector.ofList [] 2) ∧
    Vector.PopBack (Vector.ofList [(1 : Int), 2, 3] 4) = some (Vector.ofList [1, 2] 4) ∧
    (Vector.ofList [(1 : Int), 2, 3] 4).Inv ∧ 0 < (Vector.ofList [(1 : Int), 2, 3] 4).Size ∧
    ∃ v' : Vector Int,
      Vector.PopBack (Vector.ofList [1, 2, 3] 4) = some v' ∧ v'.Inv ∧
      v'.toList = (Vector.ofList [(1 : Int), 2, 3] 4).toList.dropLast ∧
      v'.Size = (Vector.ofList [(1 : Int), 2, 3] 4).Size - 1 ∧
      v'.Capacity = (Vector.ofList [(1 : Int), 2, 3] 4).Capacity ∧
      (∀ i : Nat, i < (Vector.ofList [(1 : Int), 2, 3] 4).Size - 1 →
        v'.index i = (Vector.ofList [(1 : Int), 2, 3] 4).index i) ∧
      v'.index ((Vector.ofList [(1 : Int), 2, 3] 4).Size - 1) = none :=
  ⟨by decide, by decide, by decide, by decide,
    (Vector.PopBack_spec (Vector.ofList [1, 2, 3] 4)).2 (by decide) (by decide)⟩

/-- C15: `size ≤ capacity` holds of every container a constructor produces (default, sized,
copy, move) and is preserved by every public mutating operation called within its precondition
on well-formed operands: copy-assign, move-assign, `Swap`, `Reserve`, `Resize`, `PushBack`,
`EmplaceBack`, `PopBack`, `Emplace`, `Insert` and `Erase`. This holds on both ways out of a
call. None of the calls is undefined, whatever the element operations throw; a call that
returns leaves `size ≤ capacity` and the whole data-model invariant `Inv`; a call that an
exception leaves keeps `size ≤ capacity` (a sized or copy constructor that throws produces no
container). The next ten conjuncts say that the runs in which nothing throws return. For these
the byte counts of the caller-supplied sizes `k` and `n` are assumed not to wrap in `size_t`,
a call with a wrapping byte count being outside the precondition. The last three conjuncts
need no such assumption: for every `m`, a `Vector(m)`, `Reserve(m)` or `Resize(m)` that
returns leaves `size ≤ capacity`. -/
theorem Vector.size_le_capacity_preserved (T : ThrowOps α) (v w : Vector α) (i n k : Nat)
    (x : α) (c : Bool) (hv : v.Inv) (hw : w.Inv) (hk : k * T.sizeofT < sizeModulus)
    (hfit : n ≤ v.Capacity ∨ n * T.sizeofT < sizeModulus) :
    ((Vector.default : Vector α).Size ≤ (Vector.default : Vector α).Capacity ∧
      (Vector.default : Vector α).Inv) ∧
    (Vector.sizedE T k).Both (fun s => s.Size ≤ s.Capacity ∧ s.Inv) (fun _ => True) ∧
    (Vector.copyCtorE T w).Both
      (fun r => r.1.Size ≤ r.1.Capacity ∧ r.1.Inv ∧ r.2.Size ≤ r.2.Capacity ∧ r.2.Inv)
      (fun s => s.Size ≤ s.Capacity ∧ s.Inv) ∧
    ((Vector.moveCtor w).1.Size ≤ (Vector.moveCtor w).1.Capacity ∧ (Vector.moveCtor w).1.Inv ∧
      (Vector.moveCtor w).2.Size ≤ (Vector.moveCtor w).2.Capacity ∧
      (Vector.moveCtor w).2.Inv) ∧
    (Vector.copyAssignE T v w).Both
      (fun r => r.1.Size ≤ r.1.Capacity ∧ r.1.Inv ∧ r.2.Size ≤ r.2.Capacity ∧ r.2.Inv)
      (fun s => s.1.Size ≤ s.1.Capacity ∧ s.1.Inv ∧ s.2.Size ≤ s.2.Capacity ∧ s.2.Inv) ∧
    ((Vector.copyAssignSelf v).Size ≤ (Vector.copyAssignSelf v).Capacity ∧
      (Vector.copyAssignSelf v).Inv) ∧
    ((Vector.moveAssign v w).1.Size ≤ (Vector.moveAssign v w).1.Capacity ∧
      (Vector.moveAssign v w).1.Inv ∧
      (Vector.moveAssign v w).2.Size ≤ (Vector.moveAssign v w).2.Capacity ∧
      (Vector.moveAssign v w).2.Inv) ∧
    ((Vector.Swap v w).1.Size ≤ (Vector.Swap v w).1.Capacity ∧ (Vector.Swap v w).1.Inv ∧
      (Vector.Swap v w).2.Size ≤ (Vector.Swap v w).2.Capacity ∧ (Vector.Swap v w).2.Inv) ∧
    (Vector.ReserveE T v n).Both (fun r => r.Size ≤ r.Capacity ∧ r.Inv)
      (fun s => s.Size ≤ s.Capacity ∧ s.Inv) ∧
    (Vector.ResizeE T v n).Both (fun r => r.Size ≤ r.Capacity ∧ r.Inv)
      (fun s => s.Size ≤ s.Capacity ∧ s.Inv) ∧
    (Vector.PushBackE T v x).Both (fun r => r.Size ≤ r.Capacity ∧ r.Inv)
      (fun s => s.Size ≤ s.Capacity) ∧
    (Vector.EmplaceBackE T v x c).Both (fun r => r.1.Size ≤ r.1.Capacity ∧ r.1.Inv)
      (fun s => s.Size ≤ s.Capacity) ∧
    (∃ r : Vector α, Vector.PopBack v = some r ∧ r.Size ≤ r.Capacity ∧ r.Inv) ∧
    (i ≤ v.Size →
      (Vector.EmplaceE T v i x c).Both (fun r => r.1.Size ≤ r.1.Capacity ∧ r.1.Inv)
        (fun s => s.Size ≤ s.Capacity)) ∧
    (i ≤ v.Size →
      (Vector.InsertE T v i x).Both (fun r => r.1.Size ≤ r.1.Capacity ∧ r.1.Inv)
        (fun s => s.Size ≤ s.Capacity)) ∧
    (i < v.Size →
      (Vector.EraseE T v i).Both (fun r => r.1.Size ≤ r.1.Capacity ∧ r.1.Inv)
        (fun s => s.Size ≤ s.Capacity)) ∧
    (∃ r : Vector α, Vector.sized T.toElemOps k = some r ∧ r.Size ≤ r.Capacity ∧ r.Inv) ∧
    (∃ r : Vector α × Vector α, Vector.copyCtor w = some r ∧ r.1.Size ≤ r.1.Capacity ∧
      r.1.Inv ∧ r.2.Size ≤ r.2.Capacity ∧ r.2.Inv) ∧
    (∃ r : Vector α × Vector α, Vector.copyAssign v w = some r ∧ r.1.Size ≤ r.1.Capacity ∧
      r.1.Inv ∧ r.2.Size ≤ r.2.Capacity ∧ r.2.Inv) ∧
    (∃ r : Vector α, Vector.Reserve T.toElemOps v n = some r ∧ r.Size ≤ r.Capacity ∧ r.Inv) ∧
    (∃ r : Vector α, Vector.Resize T.toElemOps v n = some r ∧ r.Size ≤ r.Capacity ∧ r.Inv) ∧
    (∃ r : Vector α, Vector.PushBack T.toElemOps v x = some r ∧ r.Size ≤ r.Capacity ∧ r.Inv) ∧
    (∃ r : Vector α × Nat, Vector.EmplaceBack T.toElemOps v x = some r ∧
      r.1.Size ≤ r.1.Capacity ∧ r.1.Inv) ∧
    (i ≤ v.Size → ∃ r : Vector α × Nat, Vector.Emplace T.toElemOps v i x = some r ∧
      r.1.Size ≤ r.1.Capacity ∧ r.1.Inv) ∧
    (i ≤ v.Size → ∃ r : Vector α × Nat, Vector.Insert T.toElemOps v i x = some r ∧
      r.1.Size ≤ r.1.Capacity ∧ r.1.Inv) ∧
    (i < v.Size → ∃ r : Vector α × Nat, Vector.Erase T.toElemOps v i = some r ∧
      r.1.Size ≤ r.1.Capacity ∧ r.1.Inv) ∧
    (∀ (m : Nat) (r : Vector α), Vector.sized T.toElemOps m = some r →
      r.Size ≤ r.Capacity) ∧
    (∀ (m : Nat) (r : Vector α), Vector.Reserve T.toElemOps v m = some r →
      r.Size ≤ r.Capacity) ∧
    (∀ (m : Nat) (r : Vector α), Vector.Resize T.toElemOps v m = some r →
      r.Size ≤ r.Capacity) := by
  have good : ∀ (xs : List α) (cap : Nat), xs.length ≤ cap →
      (Vector.ofList xs cap).Size ≤ (Vector.ofList xs cap).Capacity ∧
        (Vector.ofList xs cap).Inv :=
    fun xs cap h => ⟨h, Vector.Inv_ofList xs cap h⟩
  have same : ∀ {β : Type} {o : Option β} {a b : β}, o = some a → o = some b → a = b :=
    fun h1 h2 => Option.some.inj (h1.symm.trans h2)
  have hsz : v.toList.length = v.Size := hv.2.2
  have hszw : w.toList.length = w.Size := hw.2.2
  have hle : v.Size ≤ v.Capacity := hv.1
  have keep : ∀ s : Vector α, s.Size = v.Size ∧ s.Capacity = v.Capacity →
      s.Size ≤ s.Capacity := fun s hs => by rw [hs.1, hs.2]; exact hle
  have hpush : (v.toList ++ [x]).length ≤ emplaceCapacity v.Size v.Capacity := by
    rw [List.length_append, List.length_singleton, hsz]
    exact succ_le_emplaceCapacity hle
  have hmc1 : (Vector.moveCtor w).1 = w := by
    cases w with
    | mk d m => cases d with
      | mk b c => rfl
  have hmc2 : (Vector.moveCtor w).2 = Vector.default := by
    cases w with
    | mk d m => cases d with
      | mk b c => rfl
  have hsw : Vector.Swap v w = (w, v) := by
    cases v with
    | mk d m => cases d with
      | mk b c => cases w with
        | mk d' m' => cases d' with
          | mk b' c' => rfl
  have hsized := Vector.sized_eq T.toElemOps k hk
  have hcopy := Vector.copyCtor_of_Inv hw
  have hassign := Vector.copyAssign_of_Inv hv hw
  have hreserve := Vector.Reserve_of_Inv T.toElemOps n hv hfit
  have hresize := Vector.Resize_of_Inv T.toElemOps n hv hfit
  have hpb := Vector.PushBack_of_Inv T.toElemOps x hv
  have heb := Vector.EmplaceBack_of_Inv T.toElemOps x hv
  have gsized : ∀ r : Vector α, Vector.sized T.toElemOps k = some r →
      r.Size ≤ r.Capacity ∧ r.Inv := by
    intro r hr
    rw [same hr hsized]
    exact good _ _ (by simp)
  have gcopy : ∀ r : Vector α × Vector α, Vector.copyCtor w = some r →
      r.1.Size ≤ r.1.Capacity ∧ r.1.Inv ∧ r.2.Size ≤ r.2.Capacity ∧ r.2.Inv := by
    intro r hr
    rw [same hr hcopy]
    exact ⟨(good _ _ (Nat.le_of_eq hszw)).1, (good _ _ (Nat.le_of_eq hszw)).2, hw.1, hw⟩
  have gassign : ∀ r : Vector α × Vector α, Vector.copyAssign v w = some r →
      r.1.Size ≤ r.1.Capacity ∧ r.1.Inv ∧ r.2.Size ≤ r.2.Capacity ∧ r.2.Inv := by
    intro r hr
    rw [same hr hassign]
    have g := good w.toList (if w.Size > v.Capacity then w.Size else v.Capacity)
      (by rw [hszw]; split <;> omega)
    exact ⟨g.1, g.2, hw.1, hw⟩
  have greserve : ∀ r : Vector α, Vector.Reserve T.toElemOps v n = some r →
      r.Size ≤ r.Capacity ∧ r.Inv := by
    intro r hr
    rw [same hr hreserve]
    exact good _ _ (by rw [hsz]; omega)
  have gresize : ∀ r : Vector α, Vector.Resize T.toElemOps v n = some r →
      r.Size ≤ r.Capacity ∧ r.Inv := by
    intro r hr
    rw [same hr hresize]
    split
    · exact good _ _ (by simp only [List.length_take]; omega)
    · exact good _ _ (by simp only [List.length_append, List.length_replicate]; omega)
  have gpush : ∀ r : Vector α, Vector.PushBack T.toElemOps v x = some r →
      r.Size ≤ r.Capacity ∧ r.Inv := by
    intro r hr
    rw [same hr hpb]
    exact good _ _ hpush
  have geb : ∀ r : Vector α × Nat, Vector.EmplaceBack T.toElemOps v x = some r →
      r.1.Size ≤ r.1.Capacity ∧ r.1.Inv := by
    intro r hr
    rw [same hr heb]
    exact good _ _ hpush
  have gins : i ≤ v.Size → ∀ r : Vector α × Nat, Vector.Emplace T.toElemOps v i x = some r →
      r.1.Size ≤ r.1.Capacity ∧ r.1.Inv := by
    intro hi r hr
    rw [same hr (Vector.Emplace_of_Inv T.toElemOps i x hv hi)]
    exact good _ _ (by
      rw [Vector.length_insert_of_Inv i x hv hi]; exact succ_le_emplaceCapacity hle)
  have gera : i < v.Size → ∀ r : Vector α × Nat, Vector.Erase T.toElemOps v i = some r →
      r.1.Size ≤ r.1.Capacity ∧ r.1.Inv := by
    intro hi r hr
    rw [same hr (Vector.Erase_of_Inv T.toElemOps i hv hi)]
    exact good _ _ (by rw [Vector.length_erase_of_Inv i hv hi]; omega)
  refine ⟨⟨Vector.Inv_default.1, Vector.Inv_default⟩, ?_, ?_, ?_, ?_, ⟨hv.1, hv⟩, ?_, ?_, ?_,
    ?_, ?_, ?_,
    ⟨_, Vector.PopBack_of_Inv hv, good _ _ (by rw [List.length_dropLast, hsz]; omega)⟩,
    ?_, ?_, ?_, ⟨_, hsized, gsized _ hsized⟩, ⟨_, hcopy, gcopy _ hcopy⟩,
    ⟨_, hassign, gassign _ hassign⟩, ⟨_, hreserve, greserve _ hreserve⟩,
    ⟨_, hresize, gresize _ hresize⟩, ⟨_, hpb, gpush _ hpb⟩, ⟨_, heb, geb _ heb⟩, ?_, ?_, ?_,
    ?_, ?_, ?_⟩
  · exact (Vector.sizedE_both T k hk).mono gsized (fun _ _ => trivial)
  · exact (Vector.copyCtorE_both T hw).mono gcopy (fun s hs => by rw [hs]; exact ⟨hw.1, hw⟩)
  · rw [hmc1, hmc2]
    exact ⟨hw.1, hw, Vector.Inv_default.1, Vector.Inv_default⟩
  · exact (Vector.copyAssignE_both T hv hw).mono gassign
      (fun s hs => ⟨keep s.1 ⟨hs.1, hs.2.1⟩, hs.2.2.1, by rw [hs.2.2.2]; exact hw.1,
        by rw [hs.2.2.2]; exact hw⟩)
  · show (Vector.Swap v w).1.Size ≤ _ ∧ _
    rw [hsw]
    exact ⟨hw.1, hw, hv.1, hv⟩
  · rw [hsw]
    exact ⟨hw.1, hw, hv.1, hv⟩
  · exact (Vector.ReserveE_both T n hv hfit).mono greserve
      (fun s hs => ⟨keep s ⟨hs.1, hs.2.1⟩, hs.2.2⟩)
  · exact (Vector.ResizeE_both T n hv hfit).mono gresize (fun s hs => ⟨hs.2.2.1, hs.2.2⟩)
  · exact (Vector.PushBackE_both T x hv).mono gpush keep
  · exact (Vector.EmplaceBackE_both T x c hv).mono geb keep
  · intro hi
    exact (Vector.EmplaceE_both T i x c hv hi).mono (gins hi) keep
  · intro hi
    exact (Vector.InsertE_both T i x hv hi).mono (gins hi) keep
  · intro hi
    exact (Vector.EraseE_both T i hv hi).mono (gera hi) keep
  · intro hi
    exact ⟨_, Vector.Emplace_of_Inv T.toElemOps i x hv hi,
      gins hi _ (Vector.Emplace_of_Inv T.toElemOps i x hv hi)⟩
  · intro hi
    exact ⟨_, Vector.Emplace_of_Inv T.toElemOps i x hv hi,
      gins hi _ (Vector.Emplace_of_Inv T.toElemOps i x hv hi)⟩
  · intro hi
    exact ⟨_, Vector.Erase_of_Inv T.toElemOps i hv hi,
      gera hi _ (Vector.Erase_of_Inv T.toElemOps i hv hi)⟩
  · intro m r hr
    have hf := Vector.sized_fields T.toElemOps m r hr
    show r.size_ ≤ r.data_.capacity_
    rw [hf.1, hf.2]
  · intro m r hr
    have hf := Vector.Reserve_fields T.toElemOps v m r hr
    show r.size_ ≤ r.data_.capacity_
    rw [hf.1]
    exact Nat.le_trans hle hf.2.1
  · intro m r hr
    exact (Vector.Resize_fields T.toElemOps v m r hr).2.2 hle

/-- C15 at `v = [1, 2, 3]` in 4 slots, `w = [7, 8]` in 2 slots, position 1, sizes 6, and the
value 2 for an element type whose copy construction of 2 throws: `PushBack(2)` and
`Insert(begin() + 1, 2)` throw and leave `v` as it was, `Erase(begin() + 1)` returns. -/
theorem Vector.size_le_capacity_preserved_witness :
    sampleV.Inv ∧ sampleW.Inv ∧ 6 * copyFaultOps.sizeofT < sizeModulus ∧
    ((6 : Nat) ≤ sampleV.Capacity ∨ 6 * copyFaultOps.sizeofT < sizeModulus) ∧
    Vector.PushBackE copyFaultOps sampleV 2 = Outcome.threw sampleV ∧
    Vector.InsertE copyFaultOps sampleV 1 2 = Outcome.threw sampleV ∧
    Vector.EraseE copyFaultOps sampleV 1 = Outcome.done (Vector.ofList [1, 3] 4, 1) ∧
    Vector.ResizeE copyFaultOps sampleV 6 = Outcome.threw sampleV ∧
    Vector.ResizeE copyFaultOps sampleW 4 = Outcome.done (Vector.ofList [7, 8, 0, 0] 4) ∧
    Vector.ReserveE copyFaultOps sampleV 6 = Outcome.threw sampleV ∧
    (
((Vector.default : Vector Int).Size ≤ (Vector.default : Vector Int).Capacity ∧
      (Vector.default : Vector Int).Inv) ∧
    (Vector.sizedE copyFaultOps 6).Both (fun s => s.Size ≤ s.Capacity ∧ s.Inv) (fun _ => True) ∧
    (Vector.copyCtorE copyFaultOps sampleW).Both
      (fun r => r.1.Size ≤ r.1.Capacity ∧ r.1.Inv ∧ r.2.Size ≤ r.2.Capacity ∧ r.2.Inv)
      (fun s => s.Size ≤ s.Capacity ∧ s.Inv) ∧
    ((Vector.moveCtor sampleW).1.Size ≤ (Vector.moveCtor sampleW).1.Capacity ∧ (Vector.moveCtor sampleW).1.Inv ∧
      (Vector.moveCtor sampleW).2.Size ≤ (Vector.moveCtor sampleW).2.Capacity ∧
      (Vector.moveCtor sampleW).2.Inv) ∧
    (Vector.copyAssignE copyFaultOps sampleV sampleW).Both
      (fun r => r.1.Size ≤ r.1.Capacity ∧ r.1.Inv ∧ r.2.Size ≤ r.2.Capacity ∧ r.2.Inv)
      (fun s => s.1.Size ≤ s.1.Capacity ∧ s.1.Inv ∧ s.2.Size ≤ s.2.Capacity ∧ s.2.Inv) ∧
    ((Vector.copyAssignSelf sampleV).Size ≤ (Vector.copyAssignSelf sampleV).Capacity ∧
      (Vector.copyAssignSelf sampleV).Inv) ∧
    ((Vector.moveAssign sampleV sampleW).1.Size ≤ (Vector.moveAssign sampleV sampleW).1.Capacity ∧
      (Vector.moveAssign sampleV sampleW).1.Inv ∧
      (Vector.moveAssign sampleV sampleW).2.Size ≤ (Vector.moveAssign sampleV sampleW).2.Capacity ∧
      (Vector.moveAssign sampleV sampleW).2.Inv) ∧
    ((Vector.Swap sampleV sampleW).1.Size ≤ (Vector.Swap sampleV sampleW).1.Capacity ∧ (Vector.Swap sampleV sampleW).1.Inv ∧
      (Vector.Swap sampleV sampleW).2.Size ≤ (Vector.Swap sampleV sampleW).2.Capacity ∧ (Vector.Swap sampleV sampleW).2.Inv) ∧
    (Vector.ReserveE copyFaultOps sampleV 6).Both (fun r => r.Size ≤ r.Capacity ∧ r.Inv)
      (fun s => s.Size ≤ s.Capacity ∧ s.Inv) ∧
    (Vector.ResizeE copyFaultOps sampleV 6).Both (fun r => r.Size ≤ r.Capacity ∧ r.Inv)
      (fun s => s.Size ≤ s.Capacity ∧ s.Inv) ∧
    (Vector.PushBackE copyFaultOps sampleV 2).Both (fun r => r.Size ≤ r.Capacity ∧ r.Inv)
      (fun s => s.Size ≤ s.Capacity) ∧
    (Vector.EmplaceBackE copyFaultOps sampleV 2 true).Both (fun r => r.1.Size ≤ r.1.Capacity ∧ r.1.Inv)
      (fun s => s.Size ≤ s.Capacity) ∧
    (∃ r : Vector Int, Vector.PopBack sampleV = some r ∧ r.Size ≤ r.Capacity ∧ r.Inv) ∧
    (1 ≤ sampleV.Size →
      (Vector.EmplaceE copyFaultOps sampleV 1 2 true).Both (fun r => r.1.Size ≤ r.1.Capacity ∧ r.1.Inv)
        (fun s => s.Size ≤ s.Capacity)) ∧
    (1 ≤ sampleV.Size →
      (Vector.InsertE copyFaultOps sampleV 1 2).Both (fun r => r.1.Size ≤ r.1.Capacity ∧ r.1.Inv)
        (fun s => s.Size ≤ s.Capacity)) ∧
    (1 < sampleV.Size →
      (Vector.EraseE copyFaultOps sampleV 1).Both (fun r => r.1.Size ≤ r.1.Capacity ∧ r.1.Inv)
        (fun s => s.Size ≤ s.Capacity)) ∧
    (∃ r : Vector Int, Vector.sized copyFaultOps.toElemOps 6 = some r ∧ r.Size ≤ r.Capacity ∧ r.Inv) ∧
    (∃ r : Vector Int × Vector Int, Vector.copyCtor sampleW = some r ∧ r.1.Size ≤ r.1.Capacity ∧
      r.1.Inv ∧ r.2.Size ≤ r.2.Capacity ∧ r.2.Inv) ∧
    (∃ r : Vector Int × Vector Int, Vector.copyAssign sampleV sampleW = some r ∧ r.1.Size ≤ r.1.Capacity ∧
      r.1.Inv ∧ r.2.Size ≤ r.2.Capacity ∧ r.2.Inv) ∧
    (∃ r : Vector Int, Vector.Reserve copyFaultOps.toElemOps sampleV 6 = some r ∧ r.Size ≤ r.Capacity ∧ r.Inv) ∧
    (∃ r : Vector Int, Vector.Resize copyFaultOps.toElemOps sampleV 6 = some r ∧ r.Size ≤ r.Capacity ∧ r.Inv) ∧
    (∃ r : Vector Int, Vector.PushBack copyFaultOps.toElemOps sampleV 2 = some r ∧ r.Size ≤ r.Capacity ∧ r.Inv) ∧
    (∃ r : Vector Int × Nat, Vector.EmplaceBack copyFaultOps.toElemOps sampleV 2 = some r ∧
      r.1.Size ≤ r.1.Capacity ∧ r.1.Inv) ∧
    (1 ≤ sampleV.Size → ∃ r : Vector Int × Nat, Vector.Emplace copyFaultOps.toElemOps sampleV 1 2 = some r ∧
      r.1.Size ≤ r.1.Capacity ∧ r.1.Inv) ∧
    (1 ≤ sampleV.Size → ∃ r : Vector Int × Nat, Vector.Insert copyFaultOps.toElemOps sampleV 1 2 = some r ∧
      r.1.Size ≤ r.1.Capacity ∧ r.1.Inv) ∧
    (1 < sampleV.Size → ∃ r : Vector Int × Nat, Vector.Erase copyFaultOps.toElemOps sampleV 1 = some r ∧
      r.1.Size ≤ r.1.Capacity ∧ r.1.Inv) ∧
    (∀ (m : Nat) (r : Vector Int), Vector.sized copyFaultOps.toElemOps m = some r →
      r.Size ≤ r.Capacity) ∧
    (∀ (m : Nat) (r : Vector Int), Vector.Reserve copyFaultOps.toElemOps sampleV m = some r →
      r.Size ≤ r.Capacity) ∧
    (∀ (m : Nat) (r : Vector Int), Vector.Resize copyFaultOps.toElemOps sampleV m = some r →
      r.Size ≤ r.Capacity)) :=
  ⟨by decide, by decide, by decide, by decide, by decide, by decide, by decide, by decide,
    by decide, by decide,
    Vector.size_le_capacity_preserved copyFaultOps sampleV sampleW 1 6 6 2 true (by decide)
      (by decide) (by decide) (by decide)⟩

/-- C20: on well-formed containers none of `PopBack`, `Erase`, `Resize`, `Reserve`, `PushBack`,
`EmplaceBack`, `Emplace`, `Insert` and copy assignment (from any source) lowers the capacity of
the container it is called on. The first nine conjuncts: when nothing throws, each call returns
with `capacity()` at least its value before, and `PopBack`, `Erase` and a `Resize` that does not
grow leave it exactly unchanged (for `Reserve(n)` and `Resize(n)` the byte count of `n` is
assumed not to wrap in `size_t`). The next two: for every `m`, a `Reserve(m)` or `Resize(m)`
that returns has not lowered the capacity. The next eight: the same on both ways out of a call
when element operations can throw; an exception leaves the capacity as it was (in `Resize`, as
it was or as `Reserve` raised it). Last: being swapped, move-assigned to or moved from can
lower the capacity. -/
theorem Vector.capacity_not_reduced (T : ThrowOps α) (v w : Vector α) (i n : Nat) (x : α)
    (c : Bool) (hv : v.Inv) (hw : w.Inv)
    (hfit : n ≤ v.Capacity ∨ n * T.sizeofT < sizeModulus) :
    (∃ r : Vector α, Vector.PopBack v = some r ∧ r.Capacity = v.Capacity) ∧
    (i < v.Size → ∃ r : Vector α × Nat, Vector.Erase T.toElemOps v i = some r ∧
      r.1.Capacity = v.Capacity) ∧
    (∃ r : Vector α, Vector.Resize T.toElemOps v n = some r ∧ v.Capacity ≤ r.Capacity ∧
      (n ≤ v.Size → r.Capacity = v.Capacity)) ∧
    (∃ r : Vector α, Vector.Reserve T.toElemOps v n = some r ∧ v.Capacity ≤ r.Capacity) ∧
    (∃ r : Vector α, Vector.PushBack T.toElemOps v x = some r ∧ v.Capacity ≤ r.Capacity) ∧
    (∃ r : Vector α × Nat, Vector.EmplaceBack T.toElemOps v x = some r ∧
      v.Capacity ≤ r.1.Capacity) ∧
    (i ≤ v.Size → ∃ r : Vector α × Nat, Vector.Emplace T.toElemOps v i x = some r ∧
      v.Capacity ≤ r.1.Capacity) ∧
    (i ≤ v.Size → ∃ r : Vector α × Nat, Vector.Insert T.toElemOps v i x = some r ∧
      v.Capacity ≤ r.1.Capacity) ∧
    (∃ r : Vector α × Vector α, Vector.copyAssign v w = some r ∧
      v.Capacity ≤ r.1.Capacity) ∧
    (∀ (m : Nat) (r : Vector α), Vector.Reserve T.toElemOps v m = some r →
      v.Capacity ≤ r.Capacity) ∧
    (∀ (m : Nat) (r : Vector α), Vector.Resize T.toElemOps v m = some r →
      v.Capacity ≤ r.Capacity) ∧
    (i < v.Size →
      (Vector.EraseE T v i).Both (fun r => r.1.Capacity = v.Capacity)
        (fun s => s.Capacity = v.Capacity)) ∧
    (Vector.ResizeE T v n).Both
      (fun r => v.Capacity ≤ r.Capacity ∧ (n ≤ v.Size → r.Capacity = v.Capacity))
      (fun s => v.Capacity ≤ s.Capacity) ∧
    (Vector.ReserveE T v n).Both (fun r => v.Capacity ≤ r.Capacity)
      (fun s => s.Capacity = v.Capacity) ∧
    (Vector.PushBackE T v x).Both (fun r => v.Capacity ≤ r.Capacity)
      (fun s => s.Capacity = v.Capacity) ∧
    (Vector.EmplaceBackE T v x c).Both (fun r => v.Capacity ≤ r.1.Capacity)
      (fun s => s.Capacity = v.Capacity) ∧
    (i ≤ v.Size →
      (Vector.EmplaceE T v i x c).Both (fun r => v.Capacity ≤ r.1.Capacity)
        (fun s => s.Capacity = v.Capacity)) ∧
    (i ≤ v.Size →
      (Vector.InsertE T v i x).Both (fun r => v.Capacity ≤ r.1.Capacity)
        (fun s => s.Capacity = v.Capacity)) ∧
    (Vector.copyAssignE T v w).Both (fun r => v.Capacity ≤ r.1.Capacity)
      (fun s => s.1.Capacity = v.Capacity) ∧
    (∃ a b : Vector α, a.Inv ∧ b.Inv ∧ (Vector.Swap a b).1.Capacity < a.Capacity ∧
      (Vector.moveAssign a b).1.Capacity < a.Capacity ∧
      (Vector.moveCtor a).2.Capacity < a.Capacity) := by
  have same : ∀ {β : Type} {o : Option β} {a b : β}, o = some a → o = some b → a = b :=
    fun h1 h2 => Option.some.inj (h1.symm.trans h2)
  have hle : v.Size ≤ v.Capacity := hv.1
  have hgrow : v.Capacity ≤ emplaceCapacity v.Size v.Capacity := by
    have := succ_le_emplaceCapacity hle
    unfold emplaceCapacity at this ⊢
    split
    · exact Nat.le_refl _
    · split <;> omega
  have hassign := Vector.copyAssign_of_Inv hv hw
  have hreserve := Vector.Reserve_of_Inv T.toElemOps n hv hfit
  have hresize := Vector.Resize_of_Inv T.toElemOps n hv hfit
  have hpb := Vector.PushBack_of_Inv T.toElemOps x hv
  have heb := Vector.EmplaceBack_of_Inv T.toElemOps x hv
  have gassign : v.Capacity ≤
      (Vector.ofList w.toList (if w.Size > v.Capacity then w.Size else v.Capacity)).Capacity := by
    show v.Capacity ≤ (if w.Size > v.Capacity then w.Size else v.Capacity)
    split <;> omega
  have gresize : v.Capacity ≤ (if n ≤ v.Size then Vector.ofList (v.toList.take n) v.Capacity
      else Vector.ofList (v.toList ++ List.replicate (n - v.Size) T.valueInit)
        (max v.Capacity n)).Capacity ∧
      (n ≤ v.Size → (if n ≤ v.Size then Vector.ofList (v.toList.take n) v.Capacity
      else Vector.ofList (v.toList ++ List.replicate (n - v.Size) T.valueInit)
        (max v.Capacity n)).Capacity = v.Capacity) := by
    constructor
    · split
      · exact Nat.le_refl _
      · exact Nat.le_max_left _ _
    · intro h
      rw [if_pos h]
      rfl
  refine ⟨⟨_, Vector.PopBack_of_Inv hv, rfl⟩, ?_, ⟨_, hresize, gresize⟩,
    ⟨_, hreserve, Nat.le_max_left _ _⟩, ⟨_, hpb, hgrow⟩, ⟨_, heb, hgrow⟩, ?_, ?_,
    ⟨_, hassign, gassign⟩,
    fun m r hr => (Vector.Reserve_fields T.toElemOps v m r hr).2.1,
    fun m r hr => (Vector.Resize_fields T.toElemOps v m r hr).2.1,
    ?_, ?_, ?_, ?_, ?_, ?_, ?_, ?_, ?_⟩
  · intro hi
    exact ⟨_, Vector.Erase_of_Inv T.toElemOps i hv hi, rfl⟩
  · intro hi
    exact ⟨_, Vector.Emplace_of_Inv T.toElemOps i x hv hi, hgrow⟩
  · intro hi
    exact ⟨_, Vector.Emplace_of_Inv T.toElemOps i x hv hi, hgrow⟩
  · intro hi
    exact (Vector.EraseE_both T i hv hi).mono
      (fun r hr => by rw [same hr (Vector.Erase_of_Inv T.toElemOps i hv hi)]; rfl)
      (fun s hs => hs.2)
  · exact (Vector.ResizeE_both T n hv hfit).mono
      (fun r hr => by rw [same hr hresize]; exact gresize) (fun s hs => hs.2.1)
  · exact (Vector.ReserveE_both T n hv hfit).mono
      (fun r hr => by rw [same hr hreserve]; exact Nat.le_max_left _ _) (fun s hs => hs.2.1)
  · exact (Vector.PushBackE_both T x hv).mono
      (fun r hr => by rw [same hr hpb]; exact hgrow) (fun s hs => hs.2)
  · exact (Vector.EmplaceBackE_both T x c hv).mono
      (fun r hr => by rw [same hr heb]; exact hgrow) (fun s hs => hs.2)
  · intro hi
    exact (Vector.EmplaceE_both T i x c hv hi).mono
      (fun r hr => by rw [same hr (Vector.Emplace_of_Inv T.toElemOps i x hv hi)]; exact hgrow)
      (fun s hs => hs.2)
  · intro hi
    exact (Vector.InsertE_both T i x hv hi).mono
      (fun r hr => by rw [same hr (Vector.Emplace_of_Inv T.toElemOps i x hv hi)]; exact hgrow)
      (fun s hs => hs.2)
  · exact (Vector.copyAssignE_both T hv hw).mono
      (fun r hr => by rw [same hr hassign]; exact gassign) (fun s hs => hs.2.1)
  · exact ⟨Vector.ofList [] 1, Vector.default, Vector.Inv_ofList [] 1 (Nat.zero_le _),
      Vector.Inv_default, Nat.zero_lt_one, Nat.zero_lt_one, Nat.zero_lt_one⟩

/-- C20 at `v = [1, 2, 3]` in 4 slots, `w = [7, 8]` in 2 slots, position 1, `n = 6` and the
value 2, for an element type whose copy construction of 2 throws. -/
theorem Vector.capacity_not_reduced_witness :
    sampleV.Inv ∧ sampleW.Inv ∧
    ((6 : Nat) ≤ sampleV.Capacity ∨ 6 * copyFaultOps.sizeofT < sizeModulus) ∧
    Vector.Reserve copyFaultOps.toElemOps sampleV 6 = some (Vector.ofList [1, 2, 3] 6) ∧
    Vector.ReserveE copyFaultOps sampleV 6 = Outcome.threw sampleV ∧
    Vector.EmplaceE copyFaultOps sampleV 1 9 false =
      Outcome.done (Vector.ofList [1, 9, 2, 3] 4, 1) ∧
    (
(∃ r : Vector Int, Vector.PopBack sampleV = some r ∧ r.Capacity = sampleV.Capacity) ∧
    (1 < sampleV.Size → ∃ r : Vector Int × Nat, Vector.Erase copyFaultOps.toElemOps sampleV 1 = some r ∧
      r.1.Capacity = sampleV.Capacity) ∧
    (∃ r : Vector Int, Vector.Resize copyFaultOps.toElemOps sampleV 6 = some r ∧ sampleV.Capacity ≤ r.Capacity ∧
      (6 ≤ sampleV.Size → r.Capacity = sampleV.Capacity)) ∧
    (∃ r : Vector Int, Vector.Reserve copyFaultOps.toElemOps sampleV 6 = some r ∧ sampleV.Capacity ≤ r.Capacity) ∧
    (∃ r : Vector Int, Vector.PushBack copyFaultOps.toElemOps sampleV 2 = some r ∧ sampleV.Capacity ≤ r.Capacity) ∧
    (∃ r : Vector Int × Nat, Vector.EmplaceBack copyFaultOps.toElemOps sampleV 2 = some r ∧
      sampleV.Capacity ≤ r.1.Capacity) ∧
    (1 ≤ sampleV.Size → ∃ r : Vector Int × Nat, Vector.Emplace copyFaultOps.toElemOps sampleV 1 2 = some r ∧
      sampleV.Capacity ≤ r.1.Capacity) ∧
    (1 ≤ sampleV.Size → ∃ r : Vector Int × Nat, Vector.Insert copyFaultOps.toElemOps sampleV 1 2 = some r ∧
      sampleV.Capacity ≤ r.1.Capacity) ∧
    (∃ r : Vector Int × Vector Int, Vector.copyAssign sampleV sampleW = some r ∧
      sampleV.Capacity ≤ r.1.Capacity) ∧
    (∀ (m : Nat) (r : Vector Int), Vector.Reserve copyFaultOps.toElemOps sampleV m = some r →
      sampleV.Capacity ≤ r.Capacity) ∧
    (∀ (m : Nat) (r : Vector Int), Vector.Resize copyFaultOps.toElemOps sampleV m = some r →
      sampleV.Capacity ≤ r.Capacity) ∧
    (1 < sampleV.Size →
      (Vector.EraseE copyFaultOps sampleV 1).Both (fun r => r.1.Capacity = sampleV.Capacity)
        (fun s => s.Capacity = sampleV.Capacity)) ∧
    (Vector.ResizeE copyFaultOps sampleV 6).Both
      (fun r => sampleV.Capacity ≤ r.Capacity ∧ (6 ≤ sampleV.Size → r.Capacity = sampleV.Capacity))
      (fun s => sampleV.Capacity ≤ s.Capacity) ∧
    (Vector.ReserveE copyFaultOps sampleV 6).Both (fun r => sampleV.Capacity ≤ r.Capacity)
      (fun s => s.Capacity = sampleV.Capacity) ∧
    (Vector.PushBackE copyFaultOps sampleV 2).Both (fun r => sampleV.Capacity ≤ r.Capacity)
      (fun s => s.Capacity = sampleV.Capacity) ∧
    (Vector.EmplaceBackE copyFaultOps sampleV 2 true).Both (fun r => sampleV.Capacity ≤ r.1.Capacity)
      (fun s => s.Capacity = sampleV.Capacity) ∧
    (1 ≤ sampleV.Size →
      (Vector.EmplaceE copyFaultOps sampleV 1 2 true).Both (fun r => sampleV.Capacity ≤ r.1.Capacity)
        (fun s => s.Capacity = sampleV.Capacity)) ∧
    (1 ≤ sampleV.Size →
      (Vector.InsertE copyFaultOps sampleV 1 2).Both (fun r => sampleV.Capacity ≤ r.1.Capacity)
        (fun s => s.Capacity = sampleV.Capacity)) ∧
    (Vector.copyAssignE copyFaultOps sampleV sampleW).Both (fun r => sampleV.Capacity ≤ r.1.Capacity)
      (fun s => s.1.Capacity = sampleV.Capacity) ∧
    (∃ a b : Vector Int, a.Inv ∧ b.Inv ∧ (Vector.Swap a b).1.Capacity < a.Capacity ∧
      (Vector.moveAssign a b).1.Capacity < a.Capacity ∧
      (Vector.moveCtor a).2.Capacity < a.Capacity)) :=
  ⟨by decide, by decide, by decide, by decide, by decide, by decide,
    Vector.capacity_not_reduced copyFaultOps sampleV sampleW 1 6 2 true (by decide)
      (by decide) (by decide)⟩

/-- C16: for well-formed `a` and `b` with `b.size() > a.capacity()`, if the copy construction of
an element of `b` throws (`y` is the element at an index `k`, so `k < b.size()`), the copy
assignment `a = b` lets the exception through and leaves `a` exactly as it was (size,
capacity, block and element values) and `b` as it was. -/
theorem Vector.copyAssignE_realloc_strong (T : ThrowOps α) (a b : Vector α) (k : Nat) (y : α)
    (ha : a.Inv) (hb : b.Inv) (hgt : b.Size > a.Capacity) (hy : b.index k = some y)
    (hthrow : T.copyThrows y = true) :
    Vector.copyAssignE T a b = Outcome.threw (a, b) := by
  have hsb : b.toList.length = b.Size := hb.2.2
  have hmem : y ∈ b.toList := by
    rw [Vector.index_of_Inv hb] at hy
    exact List.getElem?_mem hy
  have hany : b.toList.any T.copyThrows = true := List.any_eq_true.mpr ⟨y, hmem, hthrow⟩
  have h := Vector.copyAssignE_realloc T a.toList b.toList a.data_.capacity_ b.data_.capacity_
    (by rw [hsb]; exact hgt)
  rw [← ha.eq_ofList, ← hb.eq_ofList, hany, if_pos rfl] at h
  exact h

/-- C16 at `a = [1]` (capacity 1) and `b = [7, 2, 9]`, where copying the value 2 throws. -/
theorem Vector.copyAssignE_realloc_strong_witness :
    (Vector.ofList [(1 : Int)] 1).Inv ∧ (Vector.ofList [(7 : Int), 2, 9] 4).Inv ∧
    (Vector.ofList [(7 : Int), 2, 9] 4).Size > (Vector.ofList [(1 : Int)] 1).Capacity ∧
    (Vector.ofList [(7 : Int), 2, 9] 4).index 1 = some 2 ∧ copyFaultOps.copyThrows 2 = true ∧
    Vector.copyAssignE copyFaultOps (Vector.ofList [1] 1) (Vector.ofList [7, 2, 9] 4) =
      Outcome.threw (Vector.ofList [1] 1, Vector.ofList [7, 2, 9] 4) :=
  ⟨by decide, by decide, by decide, by decide, by decide,
    Vector.copyAssignE_realloc_strong copyFaultOps (Vector.ofList [1] 1)
      (Vector.ofList [7, 2, 9] 4) 1 2 (by decide) (by decide) (by decide) (by decide)
      (by decide)⟩

/-- C17 as stated fails for an element type the policy moves although its move constructor can
throw (a type without copy constructor): `Reserve(6)` on `[1, 2, 3]` (capacity 3) moves the 1,
the move of the 2 throws, and the container is left holding `[-1, 2, 3]`: its first element
is moved-from. It also fails for an `n` whose byte count wraps: with 4-byte elements,
`Reserve(2^62)` on `[1, 2, 3]` obtains a block of no slots and the relocating copy of the 1
constructs past it, so the run is undefined before the copy of the 2 can fail. -/
theorem Vector.ReserveE_move_loses_values :
    (Vector.ofList [(1 : Int), 2, 3] 3).Inv ∧ 6 > (Vector.ofList [(1 : Int), 2, 3] 3).Capacity ∧
    moveFaultOps.relocateByMove = true ∧ moveFaultOps.moveFails 2 = true ∧
    Vector.ReserveE moveFaultOps (Vector.ofList [1, 2, 3] 3) 6 =
      Outcome.threw (Vector.ofList [-1, 2, 3] 3) ∧
    (Vector.ofList [(-1 : Int), 2, 3] 3).toList ≠ (Vector.ofList [(1 : Int), 2, 3] 3).toList ∧
    2 ^ 62 > (Vector.ofList [(1 : Int), 2, 3] 3).Capacity ∧
    copyFaultOps.relocateByMove = false ∧ copyFaultOps.copyThrows 2 = true ∧
    Vector.ReserveE copyFaultOps (Vector.ofList [1, 2, 3] 3) (2 ^ 62) = Outcome.undefined := by
  decide

/-- C17, amended: on a well-formed container and for `n > capacity()` with `n * sizeof(T)` not
wrapping in `size_t`, `Reserve(n)` gives the strong guarantee for every element type the policy
relocates by copy: if the copy construction of some element throws, the exception goes through
and the container is exactly as it was. For an element type with a `noexcept` move constructor
the relocation cannot fail and the call completes. For an element type the policy moves
although the move can throw, a throwing move goes through and leaves size and capacity as they
were; with `j` the index of the first element whose move throws, the elements below `j` are
moved-from, the element `j` is in the state its failed move constructor left it in, and the
elements above `j` are as they were. -/
theorem Vector.ReserveE_strong (T : ThrowOps α) (v : Vector α) (n : Nat) (hv : v.Inv)
    (hn : n > v.Capacity) (hfit : n * T.sizeofT < sizeModulus) :
    (T.relocateByMove = false → (∃ y ∈ v.toList, T.copyThrows y = true) →
      Vector.ReserveE T v n = Outcome.threw v) ∧
    (T.nothrowMove = true → Vector.ReserveE T v n = Outcome.done (Vector.ofList v.toList n)) ∧
    (T.relocateByMove = true → (∃ y ∈ v.toList, T.moveFails y = true) →
      ∃ (v' : Vector α) (j : Nat) (y : α),
        Vector.ReserveE T v n = Outcome.threw v' ∧ v'.Size = v.Size ∧
        v'.Capacity = v.Capacity ∧ v'.Inv ∧
        v.index j = some y ∧ T.moveFails y = true ∧
        (∀ i : Nat, i < j → ∃ z : α, v.index i = some z ∧ T.moveFails z = false ∧
          v'.index i = some (T.movedFrom z)) ∧
        v'.index j = some (T.failedMove y) ∧
        (∀ i : Nat, j < i → v'.index i = v.index i) ∧
        v'.toList =
          (v.toList.take j).map T.movedFrom ++ T.failedMove y :: v.toList.drop (j + 1)) := by
  have hle := hv.length_le
  have hsz : v.toList.length = v.Size := hv.2.2
  have h := Vector.ReserveE_grow T v.toList v.data_.capacity_ n hle hn hfit
  rw [← hv.eq_ofList] at h
  refine ⟨?_, ?_, ?_⟩
  · intro hT hex
    have hany : v.toList.any T.copyThrows = true := List.any_eq_true.mpr hex
    rw [h, hT, hany]
    simp only [Bool.false_eq_true, if_false, if_true]
  · intro hno
    have hT : T.relocateByMove = true := by simp [ElemOps.relocateByMove, hno]
    have hany : v.toList.any T.moveFails = false := by
      rw [List.any_eq_false]
      intro y _
      simp [ThrowOps.moveFails, hno]
    rw [h, hT, hany]
    simp only [Bool.false_eq_true, if_false, if_true]
  · intro hT hex
    have hany : v.toList.any T.moveFails = true := List.any_eq_true.mpr hex
    have hlen := T.length_afterFailedMove v.toList
    obtain ⟨j, y, hy, hfails, hbefore, he⟩ := T.afterFailedMove_spec v.toList hany
    have hj : j < v.toList.length := (List.getElem?_eq_some_iff.mp hy).1
    have hcap' : (T.afterFailedMove v.toList).length ≤ v.data_.capacity_ := by
      rw [hlen]; exact hle
    have hread : ∀ i : Nat, (Vector.ofList (T.afterFailedMove v.toList)
        v.data_.capacity_).index i =
        if i < j then ((v.toList.take j).map T.movedFrom)[i]?
        else if i = j then some (T.failedMove y) else v.toList[i]? := by
      intro i
      rw [Vector.index_ofList _ _ _ hcap', he]
      have hl : ((v.toList.take j).map T.movedFrom).length = j := by
        simp only [List.length_map, List.length_take]
        omega
      by_cases h1 : i < j
      · rw [if_pos h1, List.getElem?_append_left (by rw [hl]; exact h1)]
      · rw [if_neg h1, List.getElem?_append_right (by rw [hl]; omega), hl]
        by_cases h2 : i = j
        · rw [if_pos h2, h2, Nat.sub_self, List.getElem?_cons_zero]
        · rw [if_neg h2]
          have e : i - j = (i - j - 1) + 1 := by omega
          rw [e, List.getElem?_cons_succ, List.getElem?_drop]
          congr 1
          omega
    refine ⟨Vector.ofList (T.afterFailedMove v.toList) v.data_.capacity_, j, y, ?_, ?_, rfl,
      Vector.Inv_ofList _ _ hcap', ?_, hfails, ?_, ?_, ?_, ?_⟩
    · rw [h, hT, hany]
      simp only [if_true]
    · show (T.afterFailedMove v.toList).length = v.Size
      rw [hlen, hsz]
    · rw [Vector.index_of_Inv hv]
      exact hy
    · intro i hi
      have hi' : i < v.toList.length := by omega
      refine ⟨v.toList[i], ?_, ?_, ?_⟩
      · rw [Vector.index_of_Inv hv]
        exact List.getElem?_eq_getElem hi'
      · have hmem : v.toList[i] ∈ v.toList.take j := by
          rw [List.mem_take_iff_getElem]
          exact ⟨i, by omega, rfl⟩
        have := List.any_eq_false.mp hbefore _ hmem
        simpa using this
      · rw [hread i, if_pos hi, List.getElem?_map, List.getElem?_take_of_lt hi,
          List.getElem?_eq_getElem hi']
        rfl
    · rw [hread j, if_neg (Nat.lt_irrefl j), if_pos rfl]
    · intro i hi
      rw [hread i, if_neg (by omega), if_neg (by omega), Vector.index_of_Inv hv]
    · rw [Vector.toList_ofList, he]

/-- C17 (amended) at `[1, 2, 3]` in 3 slots and `n = 6`, where copying the value 2 throws; and
for an element type that is moved and whose move of 2 throws leaving 0 behind, the container is
left holding `[-1, 0, 3]`. -/
theorem Vector.ReserveE_strong_witness :
    (Vector.ofList [(1 : Int), 2, 3] 3).Inv ∧ 6 > (Vector.ofList [(1 : Int), 2, 3] 3).Capacity ∧
    6 * copyFaultOps.sizeofT < sizeModulus ∧
    copyFaultOps.relocateByMove = false ∧
    (∃ y ∈ (Vector.ofList [(1 : Int), 2, 3] 3).toList, copyFaultOps.copyThrows y = true) ∧
    Vector.ReserveE halfMoveOps (Vector.ofList [1, 2, 3] 3) 6 =
      Outcome.threw (Vector.ofList [-1, 0, 3] 3) ∧
    Vector.ReserveE copyFaultOps (Vector.ofList [1, 2, 3] 3) 6 =
      Outcome.threw (Vector.ofList [1, 2, 3] 3) :=
  ⟨by decide, by decide, by decide, by decide, ⟨2, by decide, by decide⟩, by decide,
    (Vector.ReserveE_strong copyFaultOps (Vector.ofList [1, 2, 3] 3) 6 (by decide)
      (by decide) (by decide)).1 (by decide) ⟨2, by decide, by decide⟩⟩

/-- C18 as stated fails for an element type the policy moves although its move constructor can
throw: `Emplace` of 9 at index 1 of the full container `[1, 3, 2]` moves the elements `[1]`
before the position and the 3, the move of the 2 throws, and the container is left holding
`[-1, -1, 2]`. -/
theorem Vector.EmplaceE_move_loses_values :
    (Vector.ofList [(1 : Int), 3, 2] 3).Inv ∧
    (Vector.ofList [(1 : Int), 3, 2] 3).Size = (Vector.ofList [(1 : Int), 3, 2] 3).Capacity ∧
    moveFaultOps.relocateByMove = true ∧ moveFaultOps.moveFails 2 = true ∧
    Vector.EmplaceE moveFaultOps (Vector.ofList [1, 3, 2] 3) 1 9 false =
      Outcome.threw (Vector.ofList [-1, -1, 2] 3) ∧
    (Vector.ofList [(-1 : Int), -1, 2] 3).toList ≠ (Vector.ofList [(1 : Int), 3, 2] 3).toList := by
  decide

/-- C18, amended: on a full well-formed container (`size == capacity`) and a valid position,
`Emplace`, `Insert` and `PushBack` reallocate, and they give the strong guarantee when the
construction of the new element throws (for every element type) and when a relocating copy
construction throws, before or after the position (for every element type the policy
relocates by copy): the exception goes through and the container is exactly as it was. For an
element type with a `noexcept` move constructor the relocation cannot fail. For an element type
the policy moves although the move can throw, a throwing move goes through and leaves size and
capacity as they were; with `j` the index of the first element whose move throws, the elements
below `j` are moved-from, the element `j` is in the state its failed move constructor left it
in, and the elements above `j` are as they were. -/
theorem Vector.EmplaceE_realloc_strong (T : ThrowOps α) (v : Vector α) (i : Nat) (x : α)
    (c : Bool) (hv : v.Inv) (hfull : v.Size = v.Capacity) (hi : i ≤ v.Size) :
    (c = true → Vector.EmplaceE T v i x c = Outcome.threw v) ∧
    (T.copyThrows x = true →
      Vector.InsertE T v i x = Outcome.threw v ∧ Vector.PushBackE T v x = Outcome.threw v) ∧
    (T.relocateByMove = false → (∃ y ∈ v.toList, T.copyThrows y = true) →
      Vector.EmplaceE T v i x c = Outcome.threw v ∧ Vector.InsertE T v i x = Outcome.threw v ∧
      Vector.PushBackE T v x = Outcome.threw v) ∧
    (T.nothrowMove = true →
      Vector.EmplaceE T v i x false =
        Outcome.done (Vector.ofList (v.toList.take i ++ x :: v.toList.drop i)
          (emplaceCapacity v.Size v.Capacity), i)) ∧
    (T.relocateByMove = true → (∃ y ∈ v.toList, T.moveFails y = true) →
      ∃ (v' : Vector α) (j : Nat) (y : α),
        Vector.EmplaceE T v i x false = Outcome.threw v' ∧ v'.Size = v.Size ∧
        v'.Capacity = v.Capacity ∧ v'.Inv ∧
        v.index j = some y ∧ T.moveFails y = true ∧
        (∀ l : Nat, l < j → ∃ z : α, v.index l = some z ∧ T.moveFails z = false ∧
          v'.index l = some (T.movedFrom z)) ∧
        v'.index j = some (T.failedMove y) ∧
        (∀ l : Nat, j < l → v'.index l = v.index l) ∧
        v'.toList =
          (v.toList.take j).map T.movedFrom ++ T.failedMove y :: v.toList.drop (j + 1)) := by
  have hsz : v.toList.length = v.Size := hv.2.2
  have hcap : v.data_.capacity_ = v.toList.length := by rw [hsz]; exact hfull.symm
  have hveq : v = Vector.ofList v.toList v.toList.length := by
    have e := hv.eq_ofList
    rw [hcap] at e
    exact e
  have hE : ∀ (j : Nat) (b : Bool), j ≤ v.toList.length →
      Vector.EmplaceE T v j x b =
        if b = true then Outcome.threw v
        else if T.relocateByMove = true then
          if v.toList.any T.moveFails = true then
            Outcome.threw (Vector.ofList (T.afterFailedMove v.toList) v.toList.length)
          else
            Outcome.done (Vector.ofList (v.toList.take j ++ x :: v.toList.drop j)
              (emplaceCapacity v.toList.length v.toList.length), j)
        else
          if v.toList.any T.copyThrows = true then Outcome.threw v
          else
            Outcome.done (Vector.ofList (v.toList.take j ++ x :: v.toList.drop j)
              (emplaceCapacity v.toList.length v.toList.length), j) := by
    intro j b hj
    have h := Vector.EmplaceE_full T v.toList j x b hj
    rw [← hveq] at h
    exact h
  have hi' : i ≤ v.toList.length := by rw [hsz]; exact hi
  have hpush : ∀ b : Bool, Vector.EmplaceE T v v.size_ x b =
      Vector.EmplaceE T v v.toList.length x b := by
    intro b
    rw [hv.2.2]
  refine ⟨?_, ?_, ?_, ?_, ?_⟩
  · intro hc
    rw [hE i c hi', if_pos hc]
  · intro hx
    refine ⟨?_, ?_⟩
    · rw [Vector.InsertE, hE i _ hi', if_pos hx]
    · rw [Vector.PushBackE, hpush, hE _ _ (Nat.le_refl _), if_pos hx]
  · intro hT hex
    have hany : v.toList.any T.copyThrows = true := List.any_eq_true.mpr hex
    have hres : ∀ (j : Nat) (b : Bool), j ≤ v.toList.length →
        Vector.EmplaceE T v j x b = Outcome.threw v := by
      intro j b hj
      rw [hE j b hj, hT, hany]
      simp
    refine ⟨hres i c hi', ?_, ?_⟩
    · rw [Vector.InsertE, hres i _ hi']
    · rw [Vector.PushBackE, hpush, hres _ _ (Nat.le_refl _)]
  · intro hno
    have hT : T.relocateByMove = true := by simp [ElemOps.relocateByMove, hno]
    have hany : v.toList.any T.moveFails = false := by
      rw [List.any_eq_false]
      intro y _
      simp [ThrowOps.moveFails, hno]
    rw [hE i false hi', hT, hany]
    simp only [Bool.false_eq_true, if_false, if_true]
    rw [hsz, ← hfull]
  · intro hT hex
    have hany : v.toList.any T.moveFails = true := List.any_eq_true.mpr hex
    have hlen := T.length_afterFailedMove v.toList
    obtain ⟨j, y, hy, hfails, hbefore, he⟩ := T.afterFailedMove_spec v.toList hany
    have hj : j < v.toList.length := (List.getElem?_eq_some_iff.mp hy).1
    have hcap' : (T.afterFailedMove v.toList).length ≤ v.toList.length := by
      rw [hlen]
    have hread : ∀ l : Nat, (Vector.ofList (T.afterFailedMove v.toList)
        v.toList.length).index l =
        if l < j then ((v.toList.take j).map T.movedFrom)[l]?
        else if l = j then some (T.failedMove y) else v.toList[l]? := by
      intro l
      rw [Vector.index_ofList _ _ _ hcap', he]
      have hl : ((v.toList.take j).map T.movedFrom).length = j := by
        simp only [List.length_map, List.length_take]
        omega
      by_cases h1 : l < j
      · rw [if_pos h1, List.getElem?_append_left (by rw [hl]; exact h1)]
      · rw [if_neg h1, List.getElem?_append_right (by rw [hl]; omega), hl]
        by_cases h2 : l = j
        · rw [if_pos h2, h2, Nat.sub_self, List.getElem?_cons_zero]
        · rw [if_neg h2]
          have e : l - j = (l - j - 1) + 1 := by omega
          rw [e, List.getElem?_cons_succ, List.getElem?_drop]
          congr 1
          omega
    refine ⟨Vector.ofList (T.afterFailedMove v.toList) v.toList.length, j, y, ?_, ?_, ?_,
      Vector.Inv_ofList _ _ hcap', ?_, hfails, ?_, ?_, ?_, ?_⟩
    · rw [hE i false hi', hT, hany]
      simp only [Bool.false_eq_true, if_false, if_true]
    · show (T.afterFailedMove v.toList).length = v.Size
      rw [hlen, hsz]
    · show v.toList.length = v.Capacity
      rw [hsz, hfull]
    · rw [Vector.index_of_Inv hv]
      exact hy
    · intro l hl
      have hl' : l < v.toList.length := by omega
      refine ⟨v.toList[l], ?_, ?_, ?_⟩
      · rw [Vector.index_of_Inv hv]
        exact List.getElem?_eq_getElem hl'
      · have hmem : v.toList[l] ∈ v.toList.take j := by
          rw [List.mem_take_iff_getElem]
          exact ⟨l, by omega, rfl⟩
        have := List.any_eq_false.mp hbefore _ hmem
        simpa using this
      · rw [hread l, if_pos hl, List.getElem?_map, List.getElem?_take_of_lt hl,
          List.getElem?_eq_getElem hl']
        rfl
    · rw [hread j, if_neg (Nat.lt_irrefl j), if_pos rfl]
    · intro l hl
      rw [hread l, if_neg (by omega), if_neg (by omega), Vector.index_of_Inv hv]
    · rw [Vector.toList_ofList, he]

/-- C18 (amended) at the full container `[1, 3, 2]` and position 1, where copying the value 2
throws: the relocation of the elements after the position fails and the container is as it
was; and for an element type that is moved and whose move of 2 throws leaving 0 behind, the
container is left holding `[-1, -1, 0]`. -/
theorem Vector.EmplaceE_realloc_strong_witness :
    (Vector.ofList [(1 : Int), 3, 2] 3).Inv ∧
    (Vector.ofList [(1 : Int), 3, 2] 3).Size = (Vector.ofList [(1 : Int), 3, 2] 3).Capacity ∧
    1 ≤ (Vector.ofList [(1 : Int), 3, 2] 3).Size ∧ copyFaultOps.relocateByMove = false ∧
    (∃ y ∈ (Vector.ofList [(1 : Int), 3, 2] 3).toList, copyFaultOps.copyThrows y = true) ∧
    Vector.EmplaceE halfMoveOps (Vector.ofList [1, 3, 2] 3) 1 9 false =
      Outcome.threw (Vector.ofList [-1, -1, 0] 3) ∧
    (Vector.EmplaceE copyFaultOps (Vector.ofList [1, 3, 2] 3) 1 9 false =
        Outcome.threw (Vector.ofList [1, 3, 2] 3) ∧
      Vector.InsertE copyFaultOps (Vector.ofList [1, 3, 2] 3) 1 9 =
        Outcome.threw (Vector.ofList [1, 3, 2] 3) ∧
      Vector.PushBackE copyFaultOps (Vector.ofList [1, 3, 2] 3) 9 =
        Outcome.threw (Vector.ofList [1, 3, 2] 3)) :=
  ⟨by decide, by decide, by decide, by decide, ⟨2, by decide, by decide⟩, by decide,
    (Vector.EmplaceE_realloc_strong copyFaultOps (Vector.ofList [1, 3, 2] 3) 1 9 false
      (by decide) (by decide) (by decide)).2.2.1 (by decide) ⟨2, by decide, by decide⟩⟩

/-- C19 as stated fails for an element type whose copy assignment gives the basic guarantee
only: with `a = [1, 5, 6]` and `b = [7, 2, 9]` (blocks of 4 slots) and an assignment that throws
on the source 2 after it has begun to write (leaving 0), `a` is left holding `[7, 0, 6]`:
index 1 holds neither `a`'s old value 5 nor `b`'s value 2. -/
theorem Vector.copyAssignE_inplace_half_assigned :
    (Vector.ofList [(1 : Int), 5, 6] 4).Inv ∧ (Vector.ofList [(7 : Int), 2, 9] 4).Inv ∧
    (Vector.ofList [(7 : Int), 2, 9] 4).Size ≤ (Vector.ofList [(1 : Int), 5, 6] 4).Capacity ∧
    halfAssignOps.copyAssignThrows 5 2 = true ∧
    Vector.copyAssignE halfAssignOps (Vector.ofList [1, 5, 6] 4) (Vector.ofList [7, 2, 9] 4) =
      Outcome.threw (Vector.ofList [7, 0, 6] 4, Vector.ofList [7, 2, 9] 4) ∧
    (Vector.ofList [(7 : Int), 0, 6] 4).index 1 = some 0 ∧
    (Vector.ofList [(1 : Int), 5, 6] 4).index 1 = some 5 ∧
    (Vector.ofList [(7 : Int), 2, 9] 4).index 1 = some 2 ∧
    (Vector.ofList [(7 : Int), 0, 6] 4).index 1 ≠ (Vector.ofList [(1 : Int), 5, 6] 4).index 1 ∧
    (Vector.ofList [(7 : Int), 0, 6] 4).index 1 ≠ (Vector.ofList [(7 : Int), 2, 9] 4).index 1 := by
  decide

/-- C19, amended: for well-formed `a` and `b` with `b.size() ≤ a.capacity()`, if an element copy
assignment (over the common indices) or an element copy construction (of the new tail) throws
during `a = b`, the exception goes through and leaves `b` as it was and `a` well-formed with its
size and capacity from before the call (so `size ≤ capacity`). There is a `j ≤ size` such that
the indices below `j` hold `b`'s values and the indices above `j` hold `a`'s old values. When
`j < size`, the copy assignment at index `j` is the one that threw, and index `j` holds the
state that failed assignment left it in; for an element type whose failed assignment leaves
the target as it was, that is `a`'s old value. When `j = size`, every assignment completed and
the construction of the new tail threw. -/
theorem Vector.copyAssignE_inplace_partial (T : ThrowOps α) (a b : Vector α) (ha : a.Inv)
    (hb : b.Inv) (hle : b.Size ≤ a.Capacity)
    (hfail : (∃ p ∈ a.toList.zip b.toList, T.copyAssignThrows p.1 p.2 = true) ∨
      (∃ y ∈ b.toList.drop a.Size, T.copyThrows y = true)) :
    ∃ (j : Nat) (a' : Vector α), j ≤ a.Size ∧ j ≤ b.Size ∧
      Vector.copyAssignE T a b = Outcome.threw (a', b) ∧
      a'.Size = a.Size ∧ a'.Capacity = a.Capacity ∧ a'.Size ≤ a'.Capacity ∧ a'.Inv ∧
      (∀ i : Nat, i < j → a'.index i = b.index i) ∧
      (∀ i : Nat, j < i → a'.index i = a.index i) ∧
      (j < a.Size → ∃ z y : α, a.index j = some z ∧ b.index j = some y ∧
        T.copyAssignThrows z y = true ∧ a'.index j = some (T.failedCopyAssign z y)) ∧
      ((∀ z y : α, T.failedCopyAssign z y = z) → ∀ i : Nat, j ≤ i → a'.index i = a.index i) ∧
      (j = a.Size → ∃ y ∈ b.toList.drop a.Size, T.copyThrows y = true) := by
  have hsa : a.toList.length = a.Size := ha.2.2
  have hsb : b.toList.length = b.Size := hb.2.2
  have hca : a.Size ≤ a.Capacity := ha.1
  have h := Vector.copyAssignE_inplace T a.toList b.toList a.data_.capacity_ b.data_.capacity_
    ha.length_le (by rw [hsb]; exact hle)
  rw [← ha.eq_ofList, ← hb.eq_ofList] at h
  have hcond : (a.toList.zip b.toList).any (fun p => T.copyAssignThrows p.1 p.2) = true ∨
      (b.toList.drop a.toList.length).any T.copyThrows = true := by
    rcases hfail with ⟨p, hp, hpt⟩ | ⟨y, hy, hyt⟩
    · exact Or.inl (List.any_eq_true.mpr ⟨p, hp, hpt⟩)
    · exact Or.inr (List.any_eq_true.mpr ⟨y, by rw [hsa]; exact hy, hyt⟩)
  rw [if_pos hcond] at h
  have hlen := T.length_afterFailedCopy a.toList b.toList
  have hcap : (T.afterFailedCopy a.toList b.toList).length ≤ a.data_.capacity_ := by
    rw [hlen]; exact ha.length_le
  have hidx : ∀ i : Nat, (Vector.ofList (T.afterFailedCopy a.toList b.toList)
      a.data_.capacity_).index i = (T.afterFailedCopy a.toList b.toList)[i]? :=
    fun i => Vector.index_ofList _ _ _ hcap
  by_cases hany : (a.toList.zip b.toList).any (fun p => T.copyAssignThrows p.1 p.2) = true
  · obtain ⟨j, z, y, hz, hy, ht, _, he⟩ := T.afterFailedCopy_spec a.toList b.toList hany
    have hja : j < a.toList.length := (List.getElem?_eq_some_iff.mp hz).1
    have hjb : j < b.toList.length := (List.getElem?_eq_some_iff.mp hy).1
    have hread : ∀ i : Nat, (Vector.ofList (T.afterFailedCopy a.toList b.toList)
        a.data_.capacity_).index i =
        if i < j then b.toList[i]? else if i = j then some (T.failedCopyAssign z y)
        else a.toList[i]? := by
      intro i
      rw [hidx i, he]
      exact getElem?_patch a.toList b.toList _ j i hjb
    refine ⟨j, _, by rw [← hsa]; omega, by rw [← hsb]; omega, h, ?_, rfl, ?_,
      Vector.Inv_ofList _ _ hcap, ?_, ?_, ?_, ?_, ?_⟩
    · show (T.afterFailedCopy a.toList b.toList).length = a.Size
      rw [hlen, hsa]
    · show (T.afterFailedCopy a.toList b.toList).length ≤ a.data_.capacity_
      exact hcap
    · intro i hi
      rw [hread i, if_pos hi, Vector.index_of_Inv hb]
    · intro i hi
      rw [hread i, if_neg (by omega), if_neg (by omega), Vector.index_of_Inv ha]
    · intro _
      refine ⟨z, y, by rw [Vector.index_of_Inv ha]; exact hz,
        by rw [Vector.index_of_Inv hb]; exact hy, ht, ?_⟩
      rw [hread j, if_neg (Nat.lt_irrefl j), if_pos rfl]
    · intro hstrong i hi
      rw [hread i, if_neg (by omega), Vector.index_of_Inv ha]
      by_cases hij : i = j
      · rw [if_pos hij, hij, hstrong, hz]
      · rw [if_neg hij]
    · intro hjs
      rw [← hsa] at hjs
      omega
  · have hany' : (a.toList.zip b.toList).any (fun p => T.copyAssignThrows p.1 p.2) = false := by
      simpa using hany
    have htail : (b.toList.drop a.toList.length).any T.copyThrows = true :=
      hcond.resolve_left hany
    have hlt : a.toList.length < b.toList.length := by
      by_contra hge
      rw [List.drop_of_length_le (by omega)] at htail
      simp at htail
    have hl : a.toList.length = (b.toList.take a.toList.length).length := by
      simp only [List.length_take]
      omega
    have hz : a.toList.zip b.toList = a.toList.zip (b.toList.take a.toList.length) := by
      have e : a.toList.zip b.toList =
          (a.toList ++ []).zip (b.toList.take a.toList.length ++
            b.toList.drop a.toList.length) := by
        rw [List.take_append_drop, List.append_nil]
      rw [e, List.zip_append hl, List.zip_nil_left, List.append_nil]
    have he : T.afterFailedCopy a.toList b.toList = b.toList.take a.toList.length := by
      have h1 := T.afterFailedCopy_append_right a.toList (b.toList.take a.toList.length)
        (b.toList.drop a.toList.length) hl
      rw [List.take_append_drop] at h1
      rw [h1]
      exact T.afterFailedCopy_of_none _ _ hl (by rw [← hz]; exact hany')
    have hread : ∀ i : Nat, (Vector.ofList (T.afterFailedCopy a.toList b.toList)
        a.data_.capacity_).index i = (b.toList.take a.toList.length)[i]? := by
      intro i
      rw [hidx i, he]
    refine ⟨a.Size, _, Nat.le_refl _, by rw [← hsa, ← hsb]; omega, h, ?_, rfl, ?_,
      Vector.Inv_ofList _ _ hcap, ?_, ?_, ?_, ?_, ?_⟩
    · show (T.afterFailedCopy a.toList b.toList).length = a.Size
      rw [hlen, hsa]
    · show (T.afterFailedCopy a.toList b.toList).length ≤ a.data_.capacity_
      exact hcap
    · intro i hi
      rw [hread i, Vector.index_of_Inv hb, List.getElem?_take_of_lt (by rw [hsa]; exact hi)]
    · intro i hi
      rw [hread i, Vector.index_of_Inv ha,
        List.getElem?_eq_none (by simp only [List.length_take]; rw [hsa]; omega),
        List.getElem?_eq_none (by rw [hsa]; omega)]
    · intro hlt'
      exact absurd hlt' (Nat.lt_irrefl _)
    · intro _ i hi
      rw [hread i, Vector.index_of_Inv ha,
        List.getElem?_eq_none (by simp only [List.length_take]; rw [hsa]; omega),
        List.getElem?_eq_none (by rw [hsa]; omega)]
    · intro _
      obtain ⟨y, hy, hyt⟩ := List.any_eq_true.mp htail
      exact ⟨y, by rw [← hsa]; exact hy, hyt⟩

/-- C19 (amended) at `a = [1, 5, 6]` and `b = [7, 2, 9]` (blocks of 4 slots), where the copy
assignment from the value 2 throws before it writes: `a` is left holding `[7, 5, 6]`. -/
theorem Vector.copyAssignE_inplace_partial_witness :
    Vector.copyAssignE assignFaultOps (Vector.ofList [1, 5, 6] 4) (Vector.ofList [7, 2, 9] 4) =
      Outcome.threw (Vector.ofList [7, 5, 6] 4, Vector.ofList [7, 2, 9] 4) ∧
    (Vector.ofList [(1 : Int), 5, 6] 4).Inv ∧ (Vector.ofList [(7 : Int), 2, 9] 4).Inv ∧
    (Vector.ofList [(7 : Int), 2, 9] 4).Size ≤ (Vector.ofList [(1 : Int), 5, 6] 4).Capacity ∧
    ∃ (j : Nat) (a' : Vector Int), j ≤ (Vector.ofList [(1 : Int), 5, 6] 4).Size ∧
      j ≤ (Vector.ofList [(7 : Int), 2, 9] 4).Size ∧
      Vector.copyAssignE assignFaultOps (Vector.ofList [1, 5, 6] 4)
        (Vector.ofList [7, 2, 9] 4) = Outcome.threw (a', Vector.ofList [7, 2, 9] 4) ∧
      a'.Size = (Vector.ofList [(1 : Int), 5, 6] 4).Size ∧
      a'.Capacity = (Vector.ofList [(1 : Int), 5, 6] 4).Capacity ∧
      a'.Size ≤ a'.Capacity ∧ a'.Inv ∧
      (∀ i : Nat, i < j → a'.index i = (Vector.ofList [(7 : Int), 2, 9] 4).index i) ∧
      (∀ i : Nat, j < i → a'.index i = (Vector.ofList [(1 : Int), 5, 6] 4).index i) ∧
      (j < (Vector.ofList [(1 : Int), 5, 6] 4).Size → ∃ z y : Int,
        (Vector.ofList [(1 : Int), 5, 6] 4).index j = some z ∧
        (Vector.ofList [(7 : Int), 2, 9] 4).index j = some y ∧
        assignFaultOps.copyAssignThrows z y = true ∧
        a'.index j = some (assignFaultOps.failedCopyAssign z y)) ∧
      ((∀ z y : Int, assignFaultOps.failedCopyAssign z y = z) →
        ∀ i : Nat, j ≤ i → a'.index i = (Vector.ofList [(1 : Int), 5, 6] 4).index i) ∧
      (j = (Vector.ofList [(1 : Int), 5, 6] 4).Size →
        ∃ y ∈ (Vector.ofList [(7 : Int), 2, 9] 4).toList.drop
          (Vector.ofList [(1 : Int), 5, 6] 4).Size, assignFaultOps.copyThrows y = true) :=
  ⟨by decide, by decide, by decide, by decide,
    Vector.copyAssignE_inplace_partial assignFaultOps (Vector.ofList [1, 5, 6] 4)
      (Vector.ofList [7, 2, 9] 4) (by decide) (by decide) (by decide)
      (Or.inl ⟨(5, 2), by decide, by decide⟩)⟩

end Claims

end AdvancedVector
